import Mathlib

/-!
# rscode: Reed-Solomon encoder, generator polynomial and syndrome detector

A shallow embedding of `src/rs.c` and a verification of its encoder, its
generator-polynomial builder and its syndrome computation over GF(256).

Conventions of the embedding.

* C arrays are `List Nat`; `a[i]` is `a.getD i 0` and `a[i] = v` is `a.set i v`.
* `int` values are `Nat` (every value the code handles is a field element in
  `[0, 255]`); a store into an `unsigned char` cell is written `% 256`.
* The macro `NPAR` (parity count) and the polynomial capacity `maxdeg` are
  parameters, as are the two field primitives `gmult` and `gexp` that `rs.c`
  calls but does not define.
* For index safety the array accesses of `encode_data` are listed in program order;
  there an index is a C `int`, an `Int`.
-/

namespace RSCode

/-! ## The codec configuration -/

/-- The fields of `struct rscode_driver` that `rs.c` touches. -/
structure rscode_driver where
  /-- generator polynomial, index = coefficient degree -/
  genPoly : List Nat
  /-- parity bytes of the most recent `encode_data` -/
  pBytes : List Nat
  /-- syndrome bytes of the most recent `decode_data` -/
  synBytes : List Nat
deriving DecidableEq

/-! ## Polynomial buffer utilities (external to `rs.c`) -/

/-- Modelled from the spec: `zero_poly` is not in `src/`; the spec (§2, §3) describes it
as the zero-fill of a fixed-capacity coefficient array. The buffer has `maxdeg` cells. -/
def zero_poly (maxdeg : Nat) : List Nat :=
  List.replicate maxdeg 0

/-- Modelled from the spec: `copy_poly` is not in `src/`; the spec (§2) describes it as
the copy of one fixed-capacity coefficient array into another. -/
def copy_poly (src : List Nat) : List Nat :=
  src

/-- Modelled from the spec: the helper of `mult_polys` (not in `src/`) for one coefficient.
Coefficient `k` of the product of two coefficient arrays is the XOR over `i ≤ k` of
`gmult p1[i] p2[k-i]`. -/
def mult_coeff (gmult : Nat → Nat → Nat) (p1 p2 : List Nat) (k : Nat) : Nat :=
  (List.range (k + 1)).foldl (fun acc i => acc ^^^ gmult (p1.getD i 0) (p2.getD (k - i) 0)) 0

/-- Modelled from the spec: `mult_polys` is not in `src/`; the spec (§2, §4.2) describes it
as the multiplication of two fixed-capacity coefficient arrays over GF(256), index =
coefficient degree. The result fills a buffer of the same capacity `maxdeg`. -/
def mult_polys (gmult : Nat → Nat → Nat) (maxdeg : Nat) (p1 p2 : List Nat) : List Nat :=
  (List.range maxdeg).map (mult_coeff gmult p1 p2)

/-! ## `rs.c` -/

/-- One pass of the loop of `compute_genpoly` for the exponent `i`; the state is
`(genpoly, tp1)`. -/
def compute_genpoly_step (gmult : Nat → Nat → Nat) (gexp : Nat → Nat) (maxdeg : Nat)
    (st : List Nat × List Nat) (i : Nat) : List Nat × List Nat :=
  let tp := ((zero_poly maxdeg).set 0 (gexp i)).set 1 1
  let genpoly := mult_polys gmult maxdeg tp st.2
  let tp1 := copy_poly genpoly
  (genpoly, tp1)

/-- The function `compute_genpoly` of `rs.c`: multiply `(x + a^i)` for `i = 1 .. nbytes`. -/
def compute_genpoly (gmult : Nat → Nat → Nat) (gexp : Nat → Nat) (maxdeg nbytes : Nat)
    (genpoly : List Nat) : List Nat :=
  let tp1 := (zero_poly maxdeg).set 0 1
  ((List.range' 1 nbytes).foldl (compute_genpoly_step gmult gexp maxdeg) (genpoly, tp1)).1

/-- The function `initialize_ecc` of `rs.c`. -/
def initialize_ecc (gmult : Nat → Nat → Nat) (gexp : Nat → Nat) (NPAR maxdeg : Nat)
    (driver : rscode_driver) : rscode_driver :=
  { driver with genPoly := compute_genpoly gmult gexp maxdeg NPAR driver.genPoly }

/-- The function `build_codeword` of `rs.c`: the message, then the parity bytes in
reverse register order. -/
def build_codeword (NPAR : Nat) (driver : rscode_driver) (msg : List Nat) (nbytes : Nat)
    (dst : List Nat) : List Nat :=
  let dst1 := (List.range nbytes).foldl (fun d i => d.set i (msg.getD i 0)) dst
  (List.range NPAR).foldl
    (fun d i => d.set (i + nbytes) (driver.pBytes.getD (NPAR - 1 - i) 0)) dst1

/-- The inner Horner loop of `decode_data` for the loop index `j`. -/
def decode_sum (gmult : Nat → Nat → Nat) (gexp : Nat → Nat) (data : List Nat)
    (nbytes j : Nat) : Nat :=
  (List.range nbytes).foldl (fun sum i => data.getD i 0 ^^^ gmult (gexp (j + 1)) sum) 0

/-- The function `decode_data` of `rs.c`: the syndrome of `data` goes to `synBytes`. -/
def decode_data (gmult : Nat → Nat → Nat) (gexp : Nat → Nat) (NPAR : Nat)
    (driver : rscode_driver) (data : List Nat) (nbytes : Nat) : rscode_driver :=
  { driver with
    synBytes := (List.range NPAR).foldl
      (fun syn j => syn.set j (decode_sum gmult gexp data nbytes j % 256)) driver.synBytes }

/-- The loop of `check_syndrome` from index `i` with `fuel` iterations left; the
`break` is the early return of `1`. -/
def check_syndrome_loop (synBytes : List Nat) : Nat → Nat → Nat
  | 0, _ => 0
  | fuel + 1, i => if synBytes.getD i 0 ≠ 0 then 1 else check_syndrome_loop synBytes fuel (i + 1)

/-- The function `check_syndrome` of `rs.c`. -/
def check_syndrome (NPAR : Nat) (driver : rscode_driver) : Nat :=
  check_syndrome_loop driver.synBytes NPAR 0

/-- The inner loop of `encode_data`, `for (j = top; j > 0; j--)`:
`LFSR[j] = LFSR[j-1] ^ gmult(genPoly[j], dbyte)`. -/
def lfsr_shift (gmult : Nat → Nat → Nat) (genPoly : List Nat) (dbyte : Nat) :
    Nat → List Nat → List Nat
  | 0, LFSR => LFSR
  | j + 1, LFSR =>
    lfsr_shift gmult genPoly dbyte j
      (LFSR.set (j + 1) (LFSR.getD j 0 ^^^ gmult (genPoly.getD (j + 1) 0) dbyte))

/-- The body of the outer loop of `encode_data` for one message byte:
`dbyte = msg[i] ^ LFSR[NPAR-1]`, the inner loop from `j = NPAR-1` down to `1`, then
`LFSR[0] = gmult(genPoly[0], dbyte)`. (For `NPAR = 0` the C code reads `LFSR[-1]`; here
`NPAR - 1` is `0`. Every theorem on the encoder assumes `1 ≤ NPAR`.) -/
def lfsr_step (gmult : Nat → Nat → Nat) (NPAR : Nat) (genPoly : List Nat)
    (LFSR : List Nat) (byte : Nat) : List Nat :=
  let dbyte := byte ^^^ LFSR.getD (NPAR - 1) 0
  (lfsr_shift gmult genPoly dbyte (NPAR - 1) LFSR).set 0 (gmult (genPoly.getD 0 0) dbyte)

/-- The register of `encode_data` after the loop over the message: `NPAR + 1` cells,
all zero at the start. -/
def encode_lfsr (gmult : Nat → Nat → Nat) (NPAR : Nat) (genPoly : List Nat)
    (msg : List Nat) (nbytes : Nat) : List Nat :=
  (List.range nbytes).foldl
    (fun LFSR i => lfsr_step gmult NPAR genPoly LFSR (msg.getD i 0))
    (List.replicate (NPAR + 1) 0)

/-- The function `encode_data` of `rs.c`: returns the driver with the new `pBytes`
and the destination buffer holding the codeword. -/
def encode_data (gmult : Nat → Nat → Nat) (NPAR : Nat) (driver : rscode_driver)
    (msg : List Nat) (nbytes : Nat) (dst : List Nat) : rscode_driver × List Nat :=
  let LFSR := encode_lfsr gmult NPAR driver.genPoly msg nbytes
  let driver1 : rscode_driver :=
    { driver with
      pBytes := (List.range NPAR).foldl (fun p i => p.set i (LFSR.getD i 0 % 256))
        driver.pBytes }
  (driver1, build_codeword NPAR driver1 msg nbytes dst)


/-! ## Altered words -/

/-- The positions at which the word `b` differs from the word `a`: the altered symbols
of `a`. At such a position `b[i] = a[i] XOR d` with a nonzero delta `d`. -/
def altered (a b : List Nat) : List Nat :=
  (List.range a.length).filter (fun i => a.getD i 0 != b.getD i 0)

/-! ## The array accesses of `encode_data`

The arrays that `encode_data` and `build_codeword` index, and the list of their array
accesses in program order. An index is a C `int`, so it is an `Int` here. -/

/-- The arrays that `encode_data` and `build_codeword` index. -/
inductive buffer where
  | LFSR
  | genPoly
  | msg
  | pBytes
  | dst
deriving DecidableEq

/-- One array access: the array, the index and whether the access is a store. -/
structure access where
  /-- the array -/
  buf : buffer
  /-- the index, a C `int` -/
  index : Int
  /-- `true` for a store, `false` for a load -/
  store : Bool
deriving DecidableEq

/-- The accesses of the inner loop of `encode_data` from `j` down to `1`: the statement
`LFSR[j] = LFSR[j-1] ^ gmult(genPoly[j], dbyte)` loads `LFSR[j-1]` and `genPoly[j]` and
stores `LFSR[j]`. -/
def lfsr_shift_accesses : Nat → List access
  | 0 => []
  | j + 1 =>
    [⟨buffer.LFSR, j, false⟩, ⟨buffer.genPoly, j + 1, false⟩, ⟨buffer.LFSR, j + 1, true⟩]
      ++ lfsr_shift_accesses j

/-- The accesses of the body of the outer loop of `encode_data` for the message index `i`:
`dbyte = msg[i] ^ LFSR[NPAR-1]`, the inner loop, `LFSR[0] = gmult(genPoly[0], dbyte)`. -/
def lfsr_step_accesses (NPAR i : Nat) : List access :=
  [⟨buffer.msg, i, false⟩, ⟨buffer.LFSR, (NPAR : Int) - 1, false⟩]
    ++ lfsr_shift_accesses (NPAR - 1)
    ++ [⟨buffer.genPoly, 0, false⟩, ⟨buffer.LFSR, 0, true⟩]

/-- The accesses of `build_codeword`: `dst[i] = msg[i]` for `i < nbytes`, then
`dst[i+nbytes] = pBytes[NPAR-1-i]` for `i < NPAR`. -/
def build_codeword_accesses (NPAR nbytes : Nat) : List access :=
  (List.range nbytes).flatMap (fun (i : Nat) => [⟨buffer.msg, i, false⟩, ⟨buffer.dst, i, true⟩])
    ++ (List.range NPAR).flatMap (fun (i : Nat) =>
        [⟨buffer.pBytes, (NPAR : Int) - 1 - i, false⟩, ⟨buffer.dst, (i : Int) + nbytes, true⟩])

/-- The accesses of `encode_data`: the zeroing of `LFSR[0 .. NPAR]`, the loop over the
message, `pBytes[i] = LFSR[i]` for `i < NPAR`, then `build_codeword`. -/
def encode_data_accesses (NPAR nbytes : Nat) : List access :=
  (List.range (NPAR + 1)).map (fun (i : Nat) => ⟨buffer.LFSR, i, true⟩)
    ++ (List.range nbytes).flatMap (lfsr_step_accesses NPAR)
    ++ (List.range NPAR).flatMap (fun (i : Nat) =>
        [⟨buffer.LFSR, i, false⟩, ⟨buffer.pBytes, i, true⟩])
    ++ build_codeword_accesses NPAR nbytes

/-- The number of cells that an array must have for `encode_data` with `NPAR` parity bytes
and a message of `K` bytes: `NPAR + 1` register cells, the generator coefficients
`0 .. NPAR`, `K` message bytes, `NPAR` parity bytes, `K + NPAR` destination bytes. -/
def extent (NPAR K : Nat) : buffer → Int
  | buffer.LFSR => NPAR + 1
  | buffer.genPoly => NPAR + 1
  | buffer.msg => K
  | buffer.pBytes => NPAR
  | buffer.dst => K + NPAR

/-! ## A concrete field arithmetic provider

`rs.c` calls `gmult` and `gexp` and does not define them; the spec (§4.1) gives their
contract only: `gmult` is the multiplication of GF(256), `gexp i` is `alpha^i`. The
embedding takes them as parameters. This section gives one provider that meets the
contract: the field GF(256) of the polynomial `x^8 + x^4 + x^3 + x^2 + 1` with generator
`alpha = 2`, by its power table and its logarithm table. It is the instance at which the
theorems of this file are applied to concrete inputs. -/

/-- Multiplication by `alpha = 2` modulo `x^8 + x^4 + x^3 + x^2 + 1` (`285`). -/
def xtime (a : Nat) : Nat :=
  (a <<< 1) ^^^ (if a.testBit 7 then 285 else 0)

/-- The powers `alpha^0 .. alpha^254` of the generator. -/
def gexp_table : List Nat :=
  [1, 2, 4, 8, 16, 32, 64, 128, 29, 58, 116, 232, 205, 135, 19, 38, 76, 152, 45, 90, 180,
   117, 234, 201, 143, 3, 6, 12, 24, 48, 96, 192, 157, 39, 78, 156, 37, 74, 148, 53, 106,
   212, 181, 119, 238, 193, 159, 35, 70, 140, 5, 10, 20, 40, 80, 160, 93, 186, 105, 210,
   185, 111, 222, 161, 95, 190, 97, 194, 153, 47, 94, 188, 101, 202, 137, 15, 30, 60, 120,
   240, 253, 231, 211, 187, 107, 214, 177, 127, 254, 225, 223, 163, 91, 182, 113, 226, 217,
   175, 67, 134, 17, 34, 68, 136, 13, 26, 52, 104, 208, 189, 103, 206, 129, 31, 62, 124,
   248, 237, 199, 147, 59, 118, 236, 197, 151, 51, 102, 204, 133, 23, 46, 92, 184, 109, 218,
   169, 79, 158, 33, 66, 132, 21, 42, 84, 168, 77, 154, 41, 82, 164, 85, 170, 73, 146, 57,
   114, 228, 213, 183, 115, 230, 209, 191, 99, 198, 145, 63, 126, 252, 229, 215, 179, 123,
   246, 241, 255, 227, 219, 171, 75, 150, 49, 98, 196, 149, 55, 110, 220, 165, 87, 174, 65,
   130, 25, 50, 100, 200, 141, 7, 14, 28, 56, 112, 224, 221, 167, 83, 166, 81, 162, 89, 178,
   121, 242, 249, 239, 195, 155, 43, 86, 172, 69, 138, 9, 18, 36, 72, 144, 61, 122, 244,
   245, 247, 243, 251, 235, 203, 139, 11, 22, 44, 88, 176, 125, 250, 233, 207, 131, 27, 54,
   108, 216, 173, 71, 142]

/-- The logarithms to base `alpha` of `0 .. 255` (the entry of `0` is unused). -/
def glog_table : List Nat :=
  [0, 0, 1, 25, 2, 50, 26, 198, 3, 223, 51, 238, 27, 104, 199, 75, 4, 100, 224, 14, 52, 141,
   239, 129, 28, 193, 105, 248, 200, 8, 76, 113, 5, 138, 101, 47, 225, 36, 15, 33, 53, 147,
   142, 218, 240, 18, 130, 69, 29, 181, 194, 125, 106, 39, 249, 185, 201, 154, 9, 120, 77,
   228, 114, 166, 6, 191, 139, 98, 102, 221, 48, 253, 226, 152, 37, 179, 16, 145, 34, 136,
   54, 208, 148, 206, 143, 150, 219, 189, 241, 210, 19, 92, 131, 56, 70, 64, 30, 66, 182,
   163, 195, 72, 126, 110, 107, 58, 40, 84, 250, 133, 186, 61, 202, 94, 155, 159, 10, 21,
   121, 43, 78, 212, 229, 172, 115, 243, 167, 87, 7, 112, 192, 247, 140, 128, 99, 13, 103,
   74, 222, 237, 49, 197, 254, 24, 227, 165, 153, 119, 38, 184, 180, 124, 17, 68, 146, 217,
   35, 32, 137, 46, 55, 63, 209, 91, 149, 188, 207, 205, 144, 135, 151, 178, 220, 252, 190,
   97, 242, 86, 211, 171, 20, 42, 93, 158, 132, 60, 57, 83, 71, 109, 65, 162, 31, 45, 67,
   216, 183, 123, 164, 118, 196, 23, 73, 236, 127, 12, 111, 246, 108, 161, 59, 82, 41, 157,
   85, 170, 251, 96, 134, 177, 187, 204, 62, 90, 203, 89, 95, 176, 156, 169, 160, 81, 11,
   245, 22, 235, 122, 117, 44, 215, 79, 174, 213, 233, 230, 231, 173, 232, 116, 214, 244,
   234, 168, 80, 88, 175]

/-- The power `alpha^i` of the generator, cyclic with period 255. -/
def gexp256 (i : Nat) : Nat :=
  gexp_table.getD (i % 255) 0

/-- The logarithm to base `alpha` of a nonzero field element. -/
def glog256 (a : Nat) : Nat :=
  glog_table.getD a 0

/-- Multiplication of GF(256): zero if a factor is zero, else the power of the sum
of the logarithms. -/
def gmult256 (a b : Nat) : Nat :=
  if a = 0 ∨ b = 0 then 0 else gexp256 (glog256 a + glog256 b)

/-- The elements of GF(256): the bytes. -/
structure GF256 where
  /-- the byte -/
  val : Nat
  /-- it is a byte -/
  isLt : val < 256
deriving DecidableEq

/-- The field element of a byte (of the low byte of a natural number). -/
def toGF256 (a : Nat) : GF256 :=
  ⟨a % 256, Nat.mod_lt a (by decide)⟩

/-! ## The assumption on the field primitives -/

/-- The assumption under which `rs.c` is verified: `gmult` is the multiplication of
GF(256) and `gexp i` is `alpha^i`. The bytes, with XOR as addition and `gmult` as
multiplication, embed by `φ` into a field `F` (their image is GF(256)), `1` is the unit,
and the powers `alpha^0 .. alpha^254` of the generator are distinct. -/
structure FieldProvider (F : Type) [Field F] (φ : Nat → F) (α : F)
    (gmult : Nat → Nat → Nat) (gexp : Nat → Nat) : Prop where
  /-- the product of two bytes is a byte -/
  gmult_lt : ∀ a b, a < 256 → b < 256 → gmult a b < 256
  /-- a power of the generator is a byte -/
  gexp_lt : ∀ i, 1 ≤ i → gexp i < 256
  /-- distinct bytes are distinct field elements -/
  inj : ∀ a b, a < 256 → b < 256 → φ a = φ b → a = b
  /-- the byte `1` is the unit of the field -/
  map_one : φ 1 = 1
  /-- XOR is the addition of the field -/
  map_xor : ∀ a b, a < 256 → b < 256 → φ (a ^^^ b) = φ a + φ b
  /-- `gmult` is the multiplication of the field -/
  map_gmult : ∀ a b, a < 256 → b < 256 → φ (gmult a b) = φ a * φ b
  /-- `gexp i` is the power `alpha^i` -/
  map_gexp : ∀ i, 1 ≤ i → φ (gexp i) = α ^ i
  /-- the generator has 255 distinct powers -/
  pow_inj : ∀ i j, i < 255 → j < 255 → α ^ i = α ^ j → i = j

/-! ## The concrete provider is a field -/

theorem gexp256_table_facts :
    ∀ i < 255, glog256 (gexp256 i) = i ∧ gexp256 i ≠ 0 ∧ gexp256 i < 256
      ∧ xtime (gexp256 i) = gexp256 (i + 1) := by
  decide!

theorem glog256_table_facts :
    ∀ a < 256, a ≠ 0 → gexp256 (glog256 a) = a := by
  decide!

theorem gexp256_mod (i : Nat) : gexp256 (i % 255) = gexp256 i := by
  simp [gexp256]

theorem gexp256_add_mod (i j : Nat) : gexp256 (i % 255 + j) = gexp256 (i + j) := by
  simp [gexp256, Nat.mod_add_mod]

theorem gexp256_add_mod_right (i j : Nat) : gexp256 (i + j % 255) = gexp256 (i + j) := by
  simp [gexp256, Nat.add_mod_mod]

theorem glog256_gexp256 (i : Nat) : glog256 (gexp256 i) = i % 255 := by
  rw [← gexp256_mod]
  exact (gexp256_table_facts (i % 255) (Nat.mod_lt _ (by decide))).1

theorem gexp256_ne_zero (i : Nat) : gexp256 i ≠ 0 := by
  rw [← gexp256_mod]
  exact (gexp256_table_facts (i % 255) (Nat.mod_lt _ (by decide))).2.1

theorem gexp256_lt (i : Nat) : gexp256 i < 256 := by
  rw [← gexp256_mod]
  exact (gexp256_table_facts (i % 255) (Nat.mod_lt _ (by decide))).2.2.1

theorem xtime_gexp256 (i : Nat) : xtime (gexp256 i) = gexp256 (i + 1) := by
  rw [← gexp256_mod i, ← gexp256_add_mod i 1]
  exact (gexp256_table_facts (i % 255) (Nat.mod_lt _ (by decide))).2.2.2

theorem gexp256_glog256 {a : Nat} (ha : a < 256) (h0 : a ≠ 0) : gexp256 (glog256 a) = a :=
  glog256_table_facts a ha h0

theorem gmult256_lt (a b : Nat) : gmult256 a b < 256 := by
  unfold gmult256
  split
  · decide
  · exact gexp256_lt _

theorem gmult256_comm (a b : Nat) : gmult256 a b = gmult256 b a := by
  unfold gmult256
  rw [Nat.add_comm (glog256 a)]
  simp only [or_comm]

theorem gmult256_zero_left (b : Nat) : gmult256 0 b = 0 := by
  simp [gmult256]

theorem gmult256_zero_right (a : Nat) : gmult256 a 0 = 0 := by
  simp [gmult256]

theorem gmult256_of_ne_zero {a b : Nat} (ha : a ≠ 0) (hb : b ≠ 0) :
    gmult256 a b = gexp256 (glog256 a + glog256 b) := by
  simp [gmult256, ha, hb]

theorem gmult256_eq_zero {a b : Nat} (h : gmult256 a b = 0) : a = 0 ∨ b = 0 := by
  by_contra hne
  push_neg at hne
  rw [gmult256_of_ne_zero hne.1 hne.2] at h
  exact gexp256_ne_zero _ h

theorem gmult256_assoc (a b c : Nat) :
    gmult256 (gmult256 a b) c = gmult256 a (gmult256 b c) := by
  by_cases ha : a = 0
  · simp [ha, gmult256_zero_left]
  by_cases hb : b = 0
  · simp [hb, gmult256_zero_left, gmult256_zero_right]
  by_cases hc : c = 0
  · simp [hc, gmult256_zero_right]
  rw [gmult256_of_ne_zero ha hb, gmult256_of_ne_zero hb hc,
    gmult256_of_ne_zero (gexp256_ne_zero _) hc, gmult256_of_ne_zero ha (gexp256_ne_zero _),
    glog256_gexp256, glog256_gexp256, gexp256_add_mod, gexp256_add_mod_right, Nat.add_assoc]

theorem gmult256_one_left {a : Nat} (ha : a < 256) : gmult256 1 a = a := by
  by_cases h0 : a = 0
  · simp [h0, gmult256_zero_right]
  rw [gmult256_of_ne_zero (by decide) h0]
  have h1 : glog256 1 = 0 := by decide
  rw [h1, Nat.zero_add, gexp256_glog256 ha h0]

theorem shiftLeft_one_xor (a b : Nat) : (a ^^^ b) <<< 1 = (a <<< 1) ^^^ (b <<< 1) := by
  apply Nat.eq_of_testBit_eq
  intro i
  simp only [Nat.testBit_shiftLeft, Nat.testBit_xor]
  by_cases h : 1 ≤ i <;> simp [h]

theorem xor_xor_xor_comm (a b c d : Nat) : (a ^^^ b) ^^^ (c ^^^ d) = (a ^^^ c) ^^^ (b ^^^ d) := by
  apply Nat.eq_of_testBit_eq
  intro i
  simp only [Nat.testBit_xor]
  cases a.testBit i <;> cases b.testBit i <;> cases c.testBit i <;> cases d.testBit i <;> rfl

theorem xtime_xor (a b : Nat) : xtime (a ^^^ b) = xtime a ^^^ xtime b := by
  unfold xtime
  rw [shiftLeft_one_xor, Nat.testBit_xor, xor_xor_xor_comm (a <<< 1)]
  congr 1
  cases a.testBit 7 <;> cases b.testBit 7 <;> decide

theorem xtime_zero : xtime 0 = 0 := by decide

theorem xtime_iterate_xor (k a b : Nat) :
    xtime^[k] (a ^^^ b) = xtime^[k] a ^^^ xtime^[k] b := by
  induction k generalizing a b with
  | zero => rfl
  | succ k ih => rw [Function.iterate_succ_apply, Function.iterate_succ_apply,
      Function.iterate_succ_apply, xtime_xor, ih]

theorem xtime_iterate_zero (k : Nat) : xtime^[k] 0 = 0 := by
  induction k with
  | zero => rfl
  | succ k ih => rw [Function.iterate_succ_apply, xtime_zero, ih]

theorem xtime_iterate_gexp256 (k m : Nat) : xtime^[k] (gexp256 m) = gexp256 (m + k) := by
  induction k generalizing m with
  | zero => rfl
  | succ k ih => rw [Function.iterate_succ_apply, xtime_gexp256, ih, Nat.add_assoc,
      Nat.add_comm 1 k]

theorem gmult256_eq_iterate {a b : Nat} (ha : a ≠ 0) (hb : b < 256) :
    gmult256 a b = xtime^[glog256 a] b := by
  by_cases h0 : b = 0
  · rw [h0, gmult256_zero_right, xtime_iterate_zero]
  · rw [gmult256_of_ne_zero ha h0]
    conv_rhs => rw [← gexp256_glog256 hb h0]
    rw [xtime_iterate_gexp256, Nat.add_comm]

theorem gmult256_xor {a b c : Nat} (hb : b < 256) (hc : c < 256) :
    gmult256 a (b ^^^ c) = gmult256 a b ^^^ gmult256 a c := by
  by_cases ha : a = 0
  · simp [ha, gmult256_zero_left]
  · rw [gmult256_eq_iterate ha hb, gmult256_eq_iterate ha hc,
      gmult256_eq_iterate ha (Nat.xor_lt_two_pow (n := 8) hb hc), xtime_iterate_xor]

theorem gmult256_inv {a : Nat} (h0 : a ≠ 0) :
    gmult256 a (gexp256 (255 - glog256 a % 255)) = 1 := by
  rw [gmult256_of_ne_zero h0 (gexp256_ne_zero _), glog256_gexp256, gexp256_add_mod_right,
    ← gexp256_add_mod]
  have h : glog256 a % 255 + (255 - glog256 a % 255) = 255 := by
    have := Nat.mod_lt (glog256 a) (show 0 < 255 by decide)
    omega
  rw [h]
  decide

theorem GF256.ext {a b : GF256} (h : a.val = b.val) : a = b := by
  cases a
  cases b
  cases h
  rfl

instance : Zero GF256 := ⟨⟨0, by decide⟩⟩

instance : One GF256 := ⟨⟨1, by decide⟩⟩

instance : Add GF256 := ⟨fun a b => ⟨a.val ^^^ b.val, Nat.xor_lt_two_pow (n := 8) a.isLt b.isLt⟩⟩

instance : Neg GF256 := ⟨fun a => a⟩

instance : Mul GF256 := ⟨fun a b => ⟨gmult256 a.val b.val, gmult256_lt _ _⟩⟩

instance : Inv GF256 :=
  ⟨fun a => if a.val = 0 then ⟨0, by decide⟩ else ⟨gexp256 (255 - glog256 a.val % 255), gexp256_lt _⟩⟩

theorem GF256.zero_val : (0 : GF256).val = 0 := rfl

theorem GF256.one_val : (1 : GF256).val = 1 := rfl

theorem GF256.add_val (a b : GF256) : (a + b).val = a.val ^^^ b.val := rfl

theorem GF256.neg_val (a : GF256) : (-a).val = a.val := rfl

theorem GF256.mul_val (a b : GF256) : (a * b).val = gmult256 a.val b.val := rfl

theorem GF256.inv_val (a : GF256) :
    (a⁻¹).val = if a.val = 0 then 0 else gexp256 (255 - glog256 a.val % 255) := by
  show (if a.val = 0 then (⟨0, by decide⟩ : GF256)
    else ⟨gexp256 (255 - glog256 a.val % 255), gexp256_lt _⟩).val = _
  split <;> rfl

theorem GF256.add_assoc_ax (a b c : GF256) : a + b + c = a + (b + c) :=
  GF256.ext (Nat.xor_assoc _ _ _)

theorem GF256.zero_add_ax (a : GF256) : 0 + a = a :=
  GF256.ext (Nat.zero_xor _)

theorem GF256.add_zero_ax (a : GF256) : a + 0 = a :=
  GF256.ext (Nat.xor_zero _)

theorem GF256.add_comm_ax (a b : GF256) : a + b = b + a :=
  GF256.ext (Nat.xor_comm _ _)

theorem GF256.neg_add_cancel_ax (a : GF256) : -a + a = 0 :=
  GF256.ext (Nat.xor_self _)

theorem GF256.mul_assoc_ax (a b c : GF256) : a * b * c = a * (b * c) :=
  GF256.ext (gmult256_assoc _ _ _)

theorem GF256.mul_comm_ax (a b : GF256) : a * b = b * a :=
  GF256.ext (gmult256_comm _ _)

theorem GF256.one_mul_ax (a : GF256) : 1 * a = a :=
  GF256.ext (gmult256_one_left a.isLt)

theorem GF256.mul_one_ax (a : GF256) : a * 1 = a := by
  rw [GF256.mul_comm_ax, GF256.one_mul_ax]

theorem GF256.left_distrib_ax (a b c : GF256) : a * (b + c) = a * b + a * c :=
  GF256.ext (gmult256_xor b.isLt c.isLt)

theorem GF256.right_distrib_ax (a b c : GF256) : (a + b) * c = a * c + b * c := by
  rw [GF256.mul_comm_ax, GF256.left_distrib_ax, GF256.mul_comm_ax c, GF256.mul_comm_ax c]

theorem GF256.zero_mul_ax (a : GF256) : 0 * a = 0 :=
  GF256.ext (gmult256_zero_left a.val)

theorem GF256.mul_zero_ax (a : GF256) : a * 0 = 0 :=
  GF256.ext (gmult256_zero_right a.val)

theorem GF256.mul_inv_cancel_ax (a : GF256) (h : a ≠ 0) : a * a⁻¹ = 1 := by
  have h0 : a.val ≠ 0 := fun h1 => h (GF256.ext h1)
  apply GF256.ext
  rw [GF256.mul_val, GF256.inv_val, if_neg h0]
  exact gmult256_inv h0

instance : CommRing GF256 where
  add_assoc := GF256.add_assoc_ax
  zero_add := GF256.zero_add_ax
  add_zero := GF256.add_zero_ax
  add_comm := GF256.add_comm_ax
  neg_add_cancel := GF256.neg_add_cancel_ax
  nsmul := nsmulRec
  zsmul := zsmulRec
  mul_assoc := GF256.mul_assoc_ax
  one_mul := GF256.one_mul_ax
  mul_one := GF256.mul_one_ax
  left_distrib := GF256.left_distrib_ax
  right_distrib := GF256.right_distrib_ax
  zero_mul := GF256.zero_mul_ax
  mul_zero := GF256.mul_zero_ax
  mul_comm := GF256.mul_comm_ax

instance : Field GF256 where
  exists_pair_ne := ⟨0, 1, by decide⟩
  inv_zero := rfl
  mul_inv_cancel := GF256.mul_inv_cancel_ax
  nnqsmul := _
  nnqsmul_def := fun _ _ => rfl
  qsmul := _
  qsmul_def := fun _ _ => rfl

theorem toGF256_val {a : Nat} (ha : a < 256) : (toGF256 a).val = a :=
  Nat.mod_eq_of_lt ha

theorem toGF256_xor {a b : Nat} (ha : a < 256) (hb : b < 256) :
    toGF256 (a ^^^ b) = toGF256 a + toGF256 b := by
  apply GF256.ext
  rw [GF256.add_val, toGF256_val ha, toGF256_val hb,
    toGF256_val (Nat.xor_lt_two_pow (n := 8) ha hb)]

theorem toGF256_gmult {a b : Nat} (ha : a < 256) (hb : b < 256) :
    toGF256 (gmult256 a b) = toGF256 a * toGF256 b := by
  apply GF256.ext
  rw [GF256.mul_val, toGF256_val ha, toGF256_val hb, toGF256_val (gmult256_lt _ _)]

theorem gexp256_succ (i : Nat) : gexp256 (i + 1) = gmult256 (gexp256 i) 2 := by
  rw [gmult256_of_ne_zero (gexp256_ne_zero _) (by decide), glog256_gexp256, gexp256_add_mod]
  have h : glog256 2 = 1 := by decide
  rw [h]

theorem toGF256_gexp (i : Nat) : toGF256 (gexp256 i) = (toGF256 2) ^ i := by
  induction i with
  | zero => exact GF256.ext rfl
  | succ i ih =>
    rw [pow_succ, ← ih, gexp256_succ, toGF256_gmult (gexp256_lt _) (by decide)]

theorem toGF256_pow_injective {i j : Nat} (hi : i < 255) (hj : j < 255)
    (h : (toGF256 2) ^ i = (toGF256 2) ^ j) : i = j := by
  rw [← toGF256_gexp, ← toGF256_gexp] at h
  have h1 : gexp256 i = gexp256 j := by
    have := congrArg GF256.val h
    rwa [toGF256_val (gexp256_lt _), toGF256_val (gexp256_lt _)] at this
  have h2 := congrArg glog256 h1
  rwa [glog256_gexp256, glog256_gexp256, Nat.mod_eq_of_lt hi, Nat.mod_eq_of_lt hj] at h2

/-- The concrete tables are a field arithmetic provider. -/
theorem gf256_provider : FieldProvider GF256 toGF256 (toGF256 2) gmult256 gexp256 where
  gmult_lt := fun a b _ _ => gmult256_lt a b
  gexp_lt := fun i _ => gexp256_lt i
  inj := fun a b ha hb h => by
    have := congrArg GF256.val h
    rwa [toGF256_val ha, toGF256_val hb] at this
  map_one := GF256.ext rfl
  map_xor := fun a b ha hb => toGF256_xor ha hb
  map_gmult := fun a b ha hb => toGF256_gmult ha hb
  map_gexp := fun i _ => toGF256_gexp i
  pow_inj := fun i j hi hj h => toGF256_pow_injective hi hj h

/-! ## The embedding at a concrete input

`N = 4`, the message "hello" (`[104, 101, 108, 108, 111]`), polynomial buffers of 8
coefficients, over the concrete GF(256). -/

theorem eval_initialize_ecc :
    initialize_ecc gmult256 gexp256 4 8 ⟨[], [0, 0, 0, 0], [0, 0, 0, 0]⟩
      = ⟨[116, 231, 216, 30, 1, 0, 0, 0], [0, 0, 0, 0], [0, 0, 0, 0]⟩ := by
  decide!

theorem eval_encode_data :
    encode_data gmult256 4 ⟨[116, 231, 216, 30, 1, 0, 0, 0], [0, 0, 0, 0], [0, 0, 0, 0]⟩
        [104, 101, 108, 108, 111] 5 (List.replicate 9 0)
      = (⟨[116, 231, 216, 30, 1, 0, 0, 0], [117, 199, 47, 231], [0, 0, 0, 0]⟩,
          [104, 101, 108, 108, 111, 231, 47, 199, 117]) := by
  decide!

theorem eval_decode_data :
    (decode_data gmult256 gexp256 4 ⟨[], [], [9, 9, 9, 9]⟩
        [104, 101, 108, 108, 111, 231, 47, 199, 117] 9).synBytes = [0, 0, 0, 0]
    ∧ (decode_data gmult256 gexp256 4 ⟨[], [], [9, 9, 9, 9]⟩
        [104, 101, 108, 77, 111, 231, 47, 199, 117] 9).synBytes = [84, 82, 146, 183] := by
  decide!

/-! ## Arrays: reads and writes -/

theorem getD_set (l : List Nat) (i j v : Nat) :
    (l.set i v).getD j 0 = if i = j ∧ i < l.length then v else l.getD j 0 := by
  simp only [List.getD_eq_getElem?_getD, List.getElem?_set]
  by_cases h : i = j
  · subst h
    by_cases hl : i < l.length
    · simp [hl]
    · simp [hl, List.getElem?_eq_none (Nat.le_of_not_lt hl)]
  · simp [h]

theorem getD_of_length_le (l : List Nat) (k : Nat) (h : l.length ≤ k) : l.getD k 0 = 0 := by
  simp [List.getD_eq_getElem?_getD, List.getElem?_eq_none h]

/-- A loop `for (i = 0; i < n; i++) d[i + off] = f(i)`. -/
theorem foldl_set_length (f : Nat → Nat) (off n : Nat) (dst : List Nat) :
    ((List.range n).foldl (fun d i => d.set (i + off) (f i)) dst).length = dst.length := by
  induction n with
  | zero => rfl
  | succ n ih => rw [List.range_succ, List.foldl_append]; simp [ih]

theorem foldl_set_getD (f : Nat → Nat) (off n : Nat) (dst : List Nat) (k : Nat) :
    ((List.range n).foldl (fun d i => d.set (i + off) (f i)) dst).getD k 0
      = if off ≤ k ∧ k < off + n ∧ k < dst.length then f (k - off) else dst.getD k 0 := by
  induction n with
  | zero =>
    have h : ¬ (off ≤ k ∧ k < off + 0 ∧ k < dst.length) := by omega
    rw [if_neg h]
    rfl
  | succ n ih =>
    rw [List.range_succ, List.foldl_append]
    simp only [List.foldl_cons, List.foldl_nil]
    rw [getD_set, foldl_set_length, ih]
    by_cases h1 : n + off = k
    · subst h1
      by_cases h2 : n + off < dst.length
      · have h4 : off ≤ n + off ∧ n + off < off + (n + 1) ∧ n + off < dst.length :=
          ⟨by omega, by omega, h2⟩
        rw [if_pos ⟨rfl, h2⟩, if_pos h4, Nat.add_sub_cancel]
      · have h4 : ¬ (off ≤ n + off ∧ n + off < off + (n + 1) ∧ n + off < dst.length) :=
          fun h => h2 h.2.2
        have h5 : ¬ (off ≤ n + off ∧ n + off < off + n ∧ n + off < dst.length) :=
          fun h => h2 h.2.2
        have h6 : ¬ (n + off = n + off ∧ n + off < dst.length) := fun h => h2 h.2
        rw [if_neg h6, if_neg h4, if_neg h5]
    · by_cases h3 : off ≤ k ∧ k < off + n ∧ k < dst.length
      · have h4 : off ≤ k ∧ k < off + (n + 1) ∧ k < dst.length := ⟨h3.1, by omega, h3.2.2⟩
        simp [h1, h3, h4]
      · have h4 : ¬ (off ≤ k ∧ k < off + (n + 1) ∧ k < dst.length) := by
          intro h
          exact h3 ⟨h.1, by omega, h.2.2⟩
        simp [h1, h3, h4]

theorem foldl_set0_length (f : Nat → Nat) (n : Nat) (dst : List Nat) :
    ((List.range n).foldl (fun d i => d.set i (f i)) dst).length = dst.length :=
  foldl_set_length f 0 n dst

theorem foldl_set0_getD (f : Nat → Nat) (n : Nat) (dst : List Nat) (k : Nat) :
    ((List.range n).foldl (fun d i => d.set i (f i)) dst).getD k 0
      = if k < n ∧ k < dst.length then f k else dst.getD k 0 := by
  have h := foldl_set_getD f 0 n dst k
  simpa using h

/-- A loop over the indices of an array that reads the array at its index is a fold
over the array. -/
theorem foldl_range_getD {σ : Type} (f : σ → Nat → σ) (l : List Nat) (s : σ) :
    (List.range l.length).foldl (fun s i => f s (l.getD i 0)) s = l.foldl f s := by
  induction l using List.reverseRecOn generalizing s with
  | nil => rfl
  | append_singleton l a ih =>
    rw [List.length_append, List.length_singleton, List.range_succ, List.foldl_append,
      List.foldl_append]
    have h1 : (List.range l.length).foldl (fun s i => f s ((l ++ [a]).getD i 0)) s
        = (List.range l.length).foldl (fun s i => f s (l.getD i 0)) s := by
      apply List.foldl_ext
      intro s i hi
      rw [List.mem_range] at hi
      simp [List.getD_eq_getElem?_getD, List.getElem?_append_left hi]
    rw [h1, ih]
    simp [List.getD_eq_getElem?_getD]

/-! ## `build_codeword` and `check_syndrome` -/

theorem build_codeword_length (NPAR : Nat) (driver : rscode_driver) (msg : List Nat)
    (nbytes : Nat) (dst : List Nat) :
    (build_codeword NPAR driver msg nbytes dst).length = dst.length := by
  unfold build_codeword
  rw [foldl_set_length, foldl_set0_length]

theorem build_codeword_getD (NPAR : Nat) (driver : rscode_driver) (msg : List Nat)
    (nbytes : Nat) (dst : List Nat) (k : Nat) :
    (build_codeword NPAR driver msg nbytes dst).getD k 0
      = if nbytes ≤ k ∧ k < nbytes + NPAR ∧ k < dst.length
        then driver.pBytes.getD (NPAR - 1 - (k - nbytes)) 0
        else if k < nbytes ∧ k < dst.length then msg.getD k 0 else dst.getD k 0 := by
  unfold build_codeword
  rw [foldl_set_getD (fun i => driver.pBytes.getD (NPAR - 1 - i) 0), foldl_set0_length,
    foldl_set0_getD]

theorem encode_data_snd (gmult : Nat → Nat → Nat) (NPAR : Nat) (driver : rscode_driver)
    (msg : List Nat) (nbytes : Nat) (dst : List Nat) :
    (encode_data gmult NPAR driver msg nbytes dst).2
      = build_codeword NPAR (encode_data gmult NPAR driver msg nbytes dst).1 msg nbytes dst :=
  rfl

theorem check_syndrome_loop_eq_zero (syn : List Nat) (fuel i : Nat) :
    check_syndrome_loop syn fuel i = 0 ↔ ∀ k < fuel, syn.getD (i + k) 0 = 0 := by
  induction fuel generalizing i with
  | zero => simp [check_syndrome_loop]
  | succ fuel ih =>
    unfold check_syndrome_loop
    by_cases h : syn.getD i 0 = 0
    · rw [if_neg (not_not.mpr h), ih]
      constructor
      · intro hk k hklt
        cases k with
        | zero => exact h
        | succ k =>
          have := hk k (by omega)
          rwa [Nat.add_assoc, Nat.add_comm 1 k] at this
      · intro hk k hklt
        have := hk (k + 1) (by omega)
        rwa [Nat.add_assoc, Nat.add_comm 1 k]
    · rw [if_pos h]
      constructor
      · intro h1
        exact absurd h1 (by decide)
      · intro hk
        exact absurd (hk 0 (by omega)) h

theorem check_syndrome_loop_le_one (syn : List Nat) (fuel i : Nat) :
    check_syndrome_loop syn fuel i = 0 ∨ check_syndrome_loop syn fuel i = 1 := by
  induction fuel generalizing i with
  | zero => exact Or.inl rfl
  | succ fuel ih =>
    unfold check_syndrome_loop
    by_cases h : syn.getD i 0 = 0
    · rw [if_neg (not_not.mpr h)]
      exact ih (i + 1)
    · rw [if_pos h]
      exact Or.inr rfl

theorem check_syndrome_eq_zero (NPAR : Nat) (driver : rscode_driver) :
    check_syndrome NPAR driver = 0 ↔ ∀ i < NPAR, driver.synBytes.getD i 0 = 0 := by
  unfold check_syndrome
  rw [check_syndrome_loop_eq_zero]
  simp

/-! ## Consequences of the assumption on the field primitives -/

section provider

variable {F : Type} [Field F] {φ : Nat → F} {α : F} {gmult : Nat → Nat → Nat}
  {gexp : Nat → Nat}

theorem FieldProvider.map_zero (hP : FieldProvider F φ α gmult gexp) : φ 0 = 0 := by
  have h := hP.map_xor 0 0 (by decide) (by decide)
  rw [Nat.xor_self] at h
  exact self_eq_add_left.mp h

theorem FieldProvider.add_self (hP : FieldProvider F φ α gmult gexp) (x : F) : x + x = 0 := by
  have h := hP.map_xor 1 1 (by decide) (by decide)
  rw [Nat.xor_self, hP.map_zero, hP.map_one] at h
  calc x + x = x * (1 + 1) := by ring
    _ = 0 := by rw [← h, mul_zero]

theorem FieldProvider.neg_eq (hP : FieldProvider F φ α gmult gexp) (x : F) : -x = x :=
  neg_eq_of_add_eq_zero_left (hP.add_self x)

theorem FieldProvider.sub_eq (hP : FieldProvider F φ α gmult gexp) (x y : F) :
    x - y = x + y := by
  rw [sub_eq_add_neg, hP.neg_eq]

theorem FieldProvider.alpha_ne_zero (hP : FieldProvider F φ α gmult gexp) : α ≠ 0 := by
  intro h
  have := hP.pow_inj 1 2 (by decide) (by decide) (by rw [h]; simp)
  exact absurd this (by decide)

theorem FieldProvider.eq_zero_of_map (hP : FieldProvider F φ α gmult gexp) {a : Nat}
    (ha : a < 256) (h : φ a = 0) : a = 0 :=
  hP.inj a 0 ha (by decide) (h.trans hP.map_zero.symm)

theorem xor_lt_256 {a b : Nat} (ha : a < 256) (hb : b < 256) : a ^^^ b < 256 :=
  Nat.xor_lt_two_pow (n := 8) ha hb

/-- A read of an array of bytes is a byte. -/
theorem getD_lt_256 {l : List Nat} (hl : ∀ b ∈ l, b < 256) (k : Nat) : l.getD k 0 < 256 := by
  by_cases h : k < l.length
  · rw [List.getD_eq_getElem _ _ h]
    exact hl _ (List.getElem_mem _)
  · rw [getD_of_length_le l k (Nat.le_of_not_lt h)]
    decide

/-! ## The Horner loop of `decode_data` -/

theorem decode_sum_eq_foldl (gmult : Nat → Nat → Nat) (gexp : Nat → Nat) (data : List Nat)
    (j : Nat) :
    decode_sum gmult gexp data data.length j
      = data.foldl (fun sum b => b ^^^ gmult (gexp (j + 1)) sum) 0 := by
  unfold decode_sum
  exact foldl_range_getD (fun sum b => b ^^^ gmult (gexp (j + 1)) sum) data 0

theorem decode_sum_spec (hP : FieldProvider F φ α gmult gexp) (data : List Nat)
    (hdata : ∀ b ∈ data, b < 256) (j : Nat) :
    decode_sum gmult gexp data data.length j < 256
    ∧ φ (decode_sum gmult gexp data data.length j)
      = ∑ i ∈ Finset.range data.length,
          φ (data.getD i 0) * (α ^ (j + 1)) ^ (data.length - 1 - i) := by
  rw [decode_sum_eq_foldl]
  induction data using List.reverseRecOn with
  | nil => exact ⟨Nat.zero_lt_succ _, by simpa using hP.map_zero⟩
  | append_singleton data b ih =>
    have hd : ∀ c ∈ data, c < 256 := fun c hc => hdata c (List.mem_append_left _ hc)
    have hb : b < 256 := hdata b (by simp)
    obtain ⟨ih1, ih2⟩ := ih hd
    have hx : gexp (j + 1) < 256 := hP.gexp_lt _ (by omega)
    rw [List.foldl_append]
    simp only [List.foldl_cons, List.foldl_nil]
    refine ⟨xor_lt_256 hb (hP.gmult_lt _ _ hx ih1), ?_⟩
    rw [hP.map_xor _ _ hb (hP.gmult_lt _ _ hx ih1), hP.map_gmult _ _ hx ih1, ih2,
      hP.map_gexp _ (by omega), List.length_append, List.length_singleton,
      Finset.sum_range_succ, Finset.mul_sum]
    have h1 : (data ++ [b]).getD data.length 0 = b := by
      simp [List.getD_eq_getElem?_getD]
    rw [h1, Nat.add_sub_cancel, Nat.sub_self, pow_zero, mul_one, add_comm]
    congr 1
    apply Finset.sum_congr rfl
    intro i hi
    rw [Finset.mem_range] at hi
    have h2 : (data ++ [b]).getD i 0 = data.getD i 0 := by
      simp [List.getD_eq_getElem?_getD, List.getElem?_append_left hi]
    have h3 : data.length - i = (data.length - 1 - i) + 1 := by omega
    rw [h2, h3, pow_succ]
    ring

theorem decode_data_synBytes_getD (gmult : Nat → Nat → Nat) (gexp : Nat → Nat) (NPAR : Nat)
    (driver : rscode_driver) (data : List Nat) (nbytes : Nat) (k : Nat) :
    (decode_data gmult gexp NPAR driver data nbytes).synBytes.getD k 0
      = if k < NPAR ∧ k < driver.synBytes.length
        then decode_sum gmult gexp data nbytes k % 256 else driver.synBytes.getD k 0 := by
  unfold decode_data
  exact foldl_set0_getD (fun j => decode_sum gmult gexp data nbytes j % 256) NPAR _ k

end provider

/-! ## The shift register of `encode_data` -/

theorem lfsr_shift_length (gmult : Nat → Nat → Nat) (genPoly : List Nat) (dbyte j : Nat)
    (LFSR : List Nat) : (lfsr_shift gmult genPoly dbyte j LFSR).length = LFSR.length := by
  induction j generalizing LFSR with
  | zero => rfl
  | succ j ih => unfold lfsr_shift; rw [ih, List.length_set]

theorem lfsr_shift_getD (gmult : Nat → Nat → Nat) (genPoly : List Nat) (dbyte j : Nat)
    (LFSR : List Nat) (k : Nat) :
    (lfsr_shift gmult genPoly dbyte j LFSR).getD k 0
      = if 1 ≤ k ∧ k ≤ j ∧ k < LFSR.length
        then LFSR.getD (k - 1) 0 ^^^ gmult (genPoly.getD k 0) dbyte
        else LFSR.getD k 0 := by
  induction j generalizing LFSR with
  | zero =>
    unfold lfsr_shift
    rw [if_neg (by omega)]
  | succ j ih =>
    unfold lfsr_shift
    rw [ih, List.length_set]
    simp only [getD_set]
    by_cases h1 : 1 ≤ k ∧ k ≤ j ∧ k < LFSR.length
    · have h2 : ¬ (j + 1 = k - 1 ∧ j + 1 < LFSR.length) := by omega
      have h3 : 1 ≤ k ∧ k ≤ j + 1 ∧ k < LFSR.length := ⟨h1.1, by omega, h1.2.2⟩
      rw [if_pos h1, if_pos h3, if_neg h2]
    · rw [if_neg h1]
      by_cases h2 : j + 1 = k ∧ j + 1 < LFSR.length
      · obtain ⟨h3, h4⟩ := h2
        subst h3
        have h5 : 1 ≤ j + 1 ∧ j + 1 ≤ j + 1 ∧ j + 1 < LFSR.length :=
          ⟨by omega, Nat.le_refl _, h4⟩
        have h6 : j + 1 = j + 1 ∧ j + 1 < LFSR.length := ⟨rfl, h4⟩
        rw [if_pos h6, if_pos h5, Nat.add_sub_cancel]
      · have h3 : ¬ (1 ≤ k ∧ k ≤ j + 1 ∧ k < LFSR.length) := by omega
        rw [if_neg h2, if_neg h3]

theorem lfsr_step_length (gmult : Nat → Nat → Nat) (NPAR : Nat) (genPoly LFSR : List Nat)
    (byte : Nat) : (lfsr_step gmult NPAR genPoly LFSR byte).length = LFSR.length := by
  unfold lfsr_step
  rw [List.length_set, lfsr_shift_length]

theorem lfsr_step_getD (gmult : Nat → Nat → Nat) (NPAR : Nat) (genPoly LFSR : List Nat)
    (byte : Nat) (hlen : LFSR.length = NPAR + 1) (k : Nat) :
    (lfsr_step gmult NPAR genPoly LFSR byte).getD k 0
      = if k = 0 then gmult (genPoly.getD 0 0) (byte ^^^ LFSR.getD (NPAR - 1) 0)
        else if k ≤ NPAR - 1
        then LFSR.getD (k - 1) 0 ^^^ gmult (genPoly.getD k 0) (byte ^^^ LFSR.getD (NPAR - 1) 0)
        else LFSR.getD k 0 := by
  unfold lfsr_step
  rw [getD_set, lfsr_shift_length, lfsr_shift_getD]
  by_cases h0 : k = 0
  · subst h0
    have h1 : 0 = 0 ∧ 0 < LFSR.length := ⟨rfl, by omega⟩
    rw [if_pos h1, if_pos rfl]
  · have h1 : ¬ (0 = k ∧ 0 < LFSR.length) := fun h => h0 h.1.symm
    rw [if_neg h1, if_neg h0]
    by_cases h2 : k ≤ NPAR - 1
    · have h3 : 1 ≤ k ∧ k ≤ NPAR - 1 ∧ k < LFSR.length := ⟨by omega, h2, by omega⟩
      rw [if_pos h3, if_pos h2]
    · have h3 : ¬ (1 ≤ k ∧ k ≤ NPAR - 1 ∧ k < LFSR.length) := fun h => h2 h.2.1
      rw [if_neg h3, if_neg h2]

theorem encode_lfsr_eq_foldl (gmult : Nat → Nat → Nat) (NPAR : Nat) (genPoly msg : List Nat) :
    encode_lfsr gmult NPAR genPoly msg msg.length
      = msg.foldl (lfsr_step gmult NPAR genPoly) (List.replicate (NPAR + 1) 0) := by
  unfold encode_lfsr
  exact foldl_range_getD (lfsr_step gmult NPAR genPoly) msg _

theorem encode_data_pBytes_getD (gmult : Nat → Nat → Nat) (NPAR : Nat) (driver : rscode_driver)
    (msg : List Nat) (nbytes : Nat) (dst : List Nat) (k : Nat) :
    (encode_data gmult NPAR driver msg nbytes dst).1.pBytes.getD k 0
      = if k < NPAR ∧ k < driver.pBytes.length
        then (encode_lfsr gmult NPAR driver.genPoly msg nbytes).getD k 0 % 256
        else driver.pBytes.getD k 0 := by
  unfold encode_data
  exact foldl_set0_getD
    (fun i => (encode_lfsr gmult NPAR driver.genPoly msg nbytes).getD i 0 % 256) NPAR _ k

/-! ## The register as a polynomial -/

section encoder

open Polynomial

variable {F : Type} [Field F] {φ : Nat → F} {α : F} {gmult : Nat → Nat → Nat}
  {gexp : Nat → Nat}

theorem coeff_sum_range (c : Nat → F) (n k : Nat) :
    (∑ i ∈ Finset.range n, C (c i) * X ^ i : F[X]).coeff k = if k < n then c k else 0 := by
  simp only [finset_sum_coeff, coeff_C_mul_X_pow]
  rw [Finset.sum_ite_eq (Finset.range n) k c]
  simp

theorem degree_sum_range_lt (c : Nat → F) (n : Nat) :
    (∑ i ∈ Finset.range n, C (c i) * X ^ i : F[X]).degree < n := by
  rw [degree_lt_iff_coeff_zero]
  intro m hm
  rw [coeff_sum_range, if_neg (by omega)]

/-- One step of the register on field elements. -/
theorem lfsr_step_map (hP : FieldProvider F φ α gmult gexp) (NPAR : Nat) (hN : 1 ≤ NPAR)
    (genPoly LFSR : List Nat) (byte : Nat) (hlen : LFSR.length = NPAR + 1)
    (hL : ∀ k, LFSR.getD k 0 < 256) (hg : ∀ k < NPAR, genPoly.getD k 0 < 256)
    (hb : byte < 256) :
    (∀ k, (lfsr_step gmult NPAR genPoly LFSR byte).getD k 0 < 256)
    ∧ (lfsr_step gmult NPAR genPoly LFSR byte).getD NPAR 0 = LFSR.getD NPAR 0
    ∧ ∀ k < NPAR, φ ((lfsr_step gmult NPAR genPoly LFSR byte).getD k 0)
        = (if k = 0 then 0 else φ (LFSR.getD (k - 1) 0))
          + φ (genPoly.getD k 0) * (φ byte + φ (LFSR.getD (NPAR - 1) 0)) := by
  have hd : byte ^^^ LFSR.getD (NPAR - 1) 0 < 256 := xor_lt_256 hb (hL _)
  have hmd : φ (byte ^^^ LFSR.getD (NPAR - 1) 0) = φ byte + φ (LFSR.getD (NPAR - 1) 0) :=
    hP.map_xor _ _ hb (hL _)
  refine ⟨?_, ?_, ?_⟩
  · intro k
    rw [lfsr_step_getD gmult NPAR genPoly LFSR byte hlen]
    split
    · exact hP.gmult_lt _ _ (hg _ (by omega)) hd
    · split
      · exact xor_lt_256 (hL _) (hP.gmult_lt _ _ (hg _ (by omega)) hd)
      · exact hL _
  · rw [lfsr_step_getD gmult NPAR genPoly LFSR byte hlen, if_neg (by omega), if_neg (by omega)]
  · intro k hk
    rw [lfsr_step_getD gmult NPAR genPoly LFSR byte hlen]
    by_cases h0 : k = 0
    · rw [if_pos h0, if_pos h0, hP.map_gmult _ _ (hg _ (by omega)) hd, hmd, h0, zero_add]
    · have h1 : k ≤ NPAR - 1 := by omega
      rw [if_neg h0, if_neg h0, if_pos h1,
        hP.map_xor _ _ (hL _) (hP.gmult_lt _ _ (hg _ hk) hd), hP.map_gmult _ _ (hg _ hk) hd, hmd]

/-- One step of the register on polynomials: the new register is the old one times `X`
plus the input byte times `X^N`, reduced by a multiple of the generator. -/
theorem lfsr_step_poly (hP : FieldProvider F φ α gmult gexp) (NPAR : Nat) (hN : 1 ≤ NPAR)
    (genPoly LFSR : List Nat) (byte : Nat) (hlen : LFSR.length = NPAR + 1)
    (hL : ∀ k, LFSR.getD k 0 < 256) (hg : ∀ k < NPAR, genPoly.getD k 0 < 256)
    (hb : byte < 256) :
    (∑ k ∈ Finset.range NPAR,
        C (φ ((lfsr_step gmult NPAR genPoly LFSR byte).getD k 0)) * X ^ k : F[X])
      + C (φ byte + φ (LFSR.getD (NPAR - 1) 0))
          * (X ^ NPAR + ∑ k ∈ Finset.range NPAR, C (φ (genPoly.getD k 0)) * X ^ k)
      = X * (∑ k ∈ Finset.range NPAR, C (φ (LFSR.getD k 0)) * X ^ k)
          + C (φ byte) * X ^ NPAR := by
  obtain ⟨-, -, h3⟩ := lfsr_step_map hP NPAR hN genPoly LFSR byte hlen hL hg hb
  ext k
  rw [coeff_add, coeff_add, coeff_C_mul, coeff_add, coeff_C_mul, coeff_X_pow,
    coeff_sum_range, coeff_sum_range]
  cases k with
  | zero =>
    have a1 : 0 < NPAR := by omega
    have a2 : ¬ (0 = NPAR) := by omega
    simp only [coeff_X_mul_zero, if_pos a1, if_neg a2, h3 0 a1, if_true]
    have h2 := hP.add_self (φ (genPoly.getD 0 0) * (φ byte + φ (LFSR.getD (NPAR - 1) 0)))
    linear_combination h2
  | succ k =>
    rw [coeff_X_mul, coeff_sum_range]
    by_cases h1 : k + 1 < NPAR
    · have a1 : k < NPAR := by omega
      have a2 : ¬ (k + 1 = NPAR) := by omega
      have a3 : ¬ (k + 1 = 0) := by omega
      simp only [if_pos h1, if_pos a1, if_neg a2, if_neg a3, h3 _ h1, Nat.add_sub_cancel]
      have h2 := hP.add_self (φ (genPoly.getD (k + 1) 0) * (φ byte + φ (LFSR.getD (NPAR - 1) 0)))
      linear_combination h2
    · by_cases h2 : k + 1 = NPAR
      · have h4 : NPAR - 1 = k := by omega
        have a1 : k < NPAR := by omega
        simp only [if_neg h1, if_pos h2, if_pos a1, h4]
        ring
      · have a1 : ¬ (k < NPAR) := by omega
        simp only [if_neg h1, if_neg h2, if_neg a1]
        ring

/-- The polynomial of a message, first byte of highest degree, when a byte is appended. -/
theorem msg_poly_append (φ : Nat → F) (c : List Nat) (b : Nat) :
    (∑ i ∈ Finset.range (c ++ [b]).length,
        C (φ ((c ++ [b]).getD i 0)) * X ^ ((c ++ [b]).length - 1 - i) : F[X])
      = (∑ i ∈ Finset.range c.length, C (φ (c.getD i 0)) * X ^ (c.length - 1 - i)) * X
          + C (φ b) := by
  rw [List.length_append, List.length_singleton, Finset.sum_range_succ, Finset.sum_mul]
  have h1 : (c ++ [b]).getD c.length 0 = b := by
    simp [List.getD_eq_getElem?_getD]
  rw [h1, Nat.add_sub_cancel, Nat.sub_self, pow_zero, mul_one]
  congr 1
  apply Finset.sum_congr rfl
  intro i hi
  rw [Finset.mem_range] at hi
  have h2 : (c ++ [b]).getD i 0 = c.getD i 0 := by
    simp [List.getD_eq_getElem?_getD, List.getElem?_append_left hi]
  have h3 : c.length - i = (c.length - 1 - i) + 1 := by omega
  rw [h2, h3, pow_succ, mul_assoc]

theorem getD_replicate_zero (n k : Nat) : (List.replicate n 0).getD k 0 = 0 := by
  by_cases h : k < n
  · rw [List.getD_eq_getElem _ _ (by simpa using h)]
    simp
  · exact getD_of_length_le _ _ (by simpa using h)

/-- The invariant of the loop of `encode_data`: the register is the message read so far,
times `X^N`, reduced modulo the generator. -/
theorem encode_lfsr_invariant (hP : FieldProvider F φ α gmult gexp) (NPAR : Nat)
    (hN : 1 ≤ NPAR) (genPoly : List Nat) (hg : ∀ k < NPAR, genPoly.getD k 0 < 256)
    (msg : List Nat) (hmsg : ∀ b ∈ msg, b < 256) :
    (encode_lfsr gmult NPAR genPoly msg msg.length).length = NPAR + 1
    ∧ (∀ k, (encode_lfsr gmult NPAR genPoly msg msg.length).getD k 0 < 256)
    ∧ (encode_lfsr gmult NPAR genPoly msg msg.length).getD NPAR 0 = 0
    ∧ ∃ q : F[X],
        (∑ i ∈ Finset.range msg.length, C (φ (msg.getD i 0)) * X ^ (msg.length - 1 - i))
            * X ^ NPAR
          = (X ^ NPAR + ∑ k ∈ Finset.range NPAR, C (φ (genPoly.getD k 0)) * X ^ k) * q
            + ∑ k ∈ Finset.range NPAR,
                C (φ ((encode_lfsr gmult NPAR genPoly msg msg.length).getD k 0)) * X ^ k := by
  rw [encode_lfsr_eq_foldl]
  induction msg using List.reverseRecOn with
  | nil =>
    refine ⟨by simp, ?_, ?_, 0, ?_⟩
    · intro k
      rw [List.foldl_nil, getD_replicate_zero]
      decide
    · rw [List.foldl_nil, getD_replicate_zero]
    · simp [getD_replicate_zero, hP.map_zero]
  | append_singleton msg b ih =>
    have hm : ∀ c ∈ msg, c < 256 := fun c hc => hmsg c (List.mem_append_left _ hc)
    have hb : b < 256 := hmsg b (by simp)
    obtain ⟨ih1, ih2, ih3, q, ih4⟩ := ih hm
    rw [List.foldl_append]
    simp only [List.foldl_cons, List.foldl_nil]
    obtain ⟨s1, s2, -⟩ := lfsr_step_map hP NPAR hN genPoly _ b ih1 ih2 hg hb
    have s3 := lfsr_step_poly hP NPAR hN genPoly _ b ih1 ih2 hg hb
    refine ⟨by rw [lfsr_step_length, ih1], s1, by rw [s2, ih3], ?_⟩
    refine ⟨q * X + C (φ b + φ ((msg.foldl (lfsr_step gmult NPAR genPoly)
      (List.replicate (NPAR + 1) 0)).getD (NPAR - 1) 0)), ?_⟩
    rw [msg_poly_append]
    linear_combination X * ih4 - s3

/-- The generator read from `genPoly[0 .. N]` with `genPoly[N] = 1` is `X^N` plus the
lower coefficients; it is monic of degree `N`. -/
theorem gen_poly_eq (hP : FieldProvider F φ α gmult gexp) (NPAR : Nat) (genPoly : List Nat)
    (hmonic : genPoly.getD NPAR 0 = 1) :
    (∑ j ∈ Finset.range (NPAR + 1), C (φ (genPoly.getD j 0)) * X ^ j : F[X])
      = X ^ NPAR + ∑ k ∈ Finset.range NPAR, C (φ (genPoly.getD k 0)) * X ^ k := by
  rw [Finset.sum_range_succ, hmonic, hP.map_one, C_1, one_mul, add_comm]

theorem gen_poly_monic (NPAR : Nat) (c : Nat → F) :
    (X ^ NPAR + ∑ k ∈ Finset.range NPAR, C (c k) * X ^ k : F[X]).Monic :=
  monic_X_pow_add (degree_sum_range_lt c NPAR)

theorem gen_poly_degree (NPAR : Nat) (c : Nat → F) :
    (X ^ NPAR + ∑ k ∈ Finset.range NPAR, C (c k) * X ^ k : F[X]).degree = NPAR := by
  rw [degree_add_eq_left_of_degree_lt, degree_X_pow]
  rw [degree_X_pow]
  exact degree_sum_range_lt c NPAR

/-- The encoder computes the remainder of the shifted message modulo the generator. -/
theorem encode_lfsr_modByMonic (hP : FieldProvider F φ α gmult gexp) (NPAR : Nat)
    (hN : 1 ≤ NPAR) (genPoly : List Nat) (hg : ∀ k < NPAR, genPoly.getD k 0 < 256)
    (msg : List Nat) (hmsg : ∀ b ∈ msg, b < 256) :
    (∑ k ∈ Finset.range NPAR,
        C (φ ((encode_lfsr gmult NPAR genPoly msg msg.length).getD k 0)) * X ^ k : F[X])
      = ((∑ i ∈ Finset.range msg.length, C (φ (msg.getD i 0)) * X ^ (msg.length - 1 - i))
            * X ^ NPAR)
          %ₘ (X ^ NPAR + ∑ k ∈ Finset.range NPAR, C (φ (genPoly.getD k 0)) * X ^ k) := by
  obtain ⟨-, -, -, q, hq⟩ := encode_lfsr_invariant hP NPAR hN genPoly hg msg hmsg
  refine ((div_modByMonic_unique q _ (gen_poly_monic NPAR _) ⟨?_, ?_⟩).2).symm
  · rw [hq, add_comm]
  · rw [gen_poly_degree]
    exact degree_sum_range_lt _ NPAR

/-- The parity bytes stored by `encode_data` are the register cells `0 .. N-1`. -/
theorem encode_data_pBytes_eq (hP : FieldProvider F φ α gmult gexp) (NPAR : Nat)
    (hN : 1 ≤ NPAR) (driver : rscode_driver) (hp : NPAR ≤ driver.pBytes.length)
    (hg : ∀ k < NPAR, driver.genPoly.getD k 0 < 256)
    (msg : List Nat) (hmsg : ∀ b ∈ msg, b < 256) (dst : List Nat) (k : Nat) (hk : k < NPAR) :
    (encode_data gmult NPAR driver msg msg.length dst).1.pBytes.getD k 0
      = (encode_lfsr gmult NPAR driver.genPoly msg msg.length).getD k 0 := by
  obtain ⟨-, h2, -, -⟩ := encode_lfsr_invariant hP NPAR hN driver.genPoly hg msg hmsg
  have h3 : k < NPAR ∧ k < driver.pBytes.length := ⟨hk, by omega⟩
  rw [encode_data_pBytes_getD, if_pos h3, Nat.mod_eq_of_lt (h2 k)]

end encoder

/-! ## The generator polynomial -/

section generator

open Polynomial

variable {F : Type} [Field F] {φ : Nat → F} {α : F} {gmult : Nat → Nat → Nat}
  {gexp : Nat → Nat}

theorem mult_coeff_spec (hP : FieldProvider F φ α gmult gexp) (p1 p2 : List Nat)
    (hp1 : ∀ k, p1.getD k 0 < 256) (hp2 : ∀ k, p2.getD k 0 < 256) (k : Nat) :
    mult_coeff gmult p1 p2 k < 256
    ∧ φ (mult_coeff gmult p1 p2 k)
      = ∑ i ∈ Finset.range (k + 1), φ (p1.getD i 0) * φ (p2.getD (k - i) 0) := by
  unfold mult_coeff
  generalize k + 1 = m
  induction m with
  | zero => exact ⟨Nat.zero_lt_succ _, by simpa using hP.map_zero⟩
  | succ m ih =>
    obtain ⟨ih1, ih2⟩ := ih
    rw [List.range_succ, List.foldl_append]
    simp only [List.foldl_cons, List.foldl_nil]
    have hm := hP.gmult_lt _ _ (hp1 m) (hp2 (k - m))
    refine ⟨xor_lt_256 ih1 hm, ?_⟩
    rw [hP.map_xor _ _ ih1 hm, ih2, hP.map_gmult _ _ (hp1 m) (hp2 (k - m)),
      Finset.sum_range_succ]

theorem mult_polys_length (gmult : Nat → Nat → Nat) (maxdeg : Nat) (p1 p2 : List Nat) :
    (mult_polys gmult maxdeg p1 p2).length = maxdeg := by
  simp [mult_polys]

theorem mult_polys_getD (gmult : Nat → Nat → Nat) (maxdeg : Nat) (p1 p2 : List Nat) (k : Nat) :
    (mult_polys gmult maxdeg p1 p2).getD k 0
      = if k < maxdeg then mult_coeff gmult p1 p2 k else 0 := by
  by_cases h : k < maxdeg
  · rw [if_pos h, List.getD_eq_getElem _ _ (by rw [mult_polys_length]; exact h)]
    simp [mult_polys]
  · rw [if_neg h]
    exact getD_of_length_le _ _ (by rw [mult_polys_length]; omega)

/-- The product of two coefficient arrays is the product of their polynomials, as long
as the product fits the capacity. -/
theorem mult_polys_spec (hP : FieldProvider F φ α gmult gexp) (maxdeg : Nat) (p1 p2 : List Nat)
    (hp1 : ∀ k, p1.getD k 0 < 256) (hp2 : ∀ k, p2.getD k 0 < 256) (P1 P2 : F[X])
    (hP1 : ∀ k, P1.coeff k = φ (p1.getD k 0)) (hP2 : ∀ k, P2.coeff k = φ (p2.getD k 0))
    (hdeg : (P1 * P2).natDegree < maxdeg) :
    (∀ k, (mult_polys gmult maxdeg p1 p2).getD k 0 < 256)
    ∧ ∀ k, (P1 * P2).coeff k = φ ((mult_polys gmult maxdeg p1 p2).getD k 0) := by
  constructor
  · intro k
    rw [mult_polys_getD]
    split
    · exact (mult_coeff_spec hP p1 p2 hp1 hp2 k).1
    · exact Nat.zero_lt_succ _
  · intro k
    rw [mult_polys_getD]
    by_cases h : k < maxdeg
    · rw [if_pos h, (mult_coeff_spec hP p1 p2 hp1 hp2 k).2, coeff_mul,
        Finset.Nat.sum_antidiagonal_eq_sum_range_succ (fun i j => P1.coeff i * P2.coeff j)]
      apply Finset.sum_congr rfl
      intro i _
      rw [hP1, hP2]
    · rw [if_neg h, hP.map_zero]
      exact coeff_eq_zero_of_natDegree_lt (by omega)

/-- The linear factor `x + a^i` that `compute_genpoly` sets up in `tp`. -/
theorem linear_factor_getD (maxdeg : Nat) (hcap : 2 ≤ maxdeg) (a k : Nat) :
    (((zero_poly maxdeg).set 0 a).set 1 1).getD k 0
      = if k = 0 then a else if k = 1 then 1 else 0 := by
  unfold zero_poly
  rw [getD_set, getD_set, List.length_set, List.length_replicate, getD_replicate_zero]
  by_cases h1 : k = 1
  · have a1 : 1 = k ∧ 1 < maxdeg := ⟨h1.symm, by omega⟩
    have a2 : ¬ (k = 0) := by omega
    rw [if_pos a1, if_neg a2, if_pos h1]
  · have a1 : ¬ (1 = k ∧ 1 < maxdeg) := fun h => h1 h.1.symm
    rw [if_neg a1, if_neg h1]
    by_cases h0 : k = 0
    · have a2 : 0 = k ∧ 0 < maxdeg := ⟨h0.symm, by omega⟩
      rw [if_pos a2, if_pos h0]
    · have a2 : ¬ (0 = k ∧ 0 < maxdeg) := fun h => h0 h.1.symm
      rw [if_neg a2, if_neg h0]

theorem linear_factor_coeff (hP : FieldProvider F φ α gmult gexp) (maxdeg : Nat)
    (hcap : 2 ≤ maxdeg) (i : Nat) (hi : 1 ≤ i) (k : Nat) :
    (X + C (α ^ i) : F[X]).coeff k
      = φ ((((zero_poly maxdeg).set 0 (gexp i)).set 1 1).getD k 0) := by
  rw [linear_factor_getD maxdeg hcap, coeff_add, coeff_X, coeff_C]
  by_cases h0 : k = 0
  · have a1 : ¬ (1 = k) := by omega
    rw [if_pos h0, if_pos h0, if_neg a1, zero_add, hP.map_gexp i hi]
  · rw [if_neg h0, if_neg h0]
    by_cases h1 : k = 1
    · rw [if_pos h1, if_pos h1.symm, hP.map_one, add_zero]
    · have a1 : ¬ (1 = k) := fun h => h1 h.symm
      rw [if_neg h1, if_neg a1, hP.map_zero, add_zero]

theorem linear_factor_lt (hP : FieldProvider F φ α gmult gexp) (maxdeg : Nat)
    (hcap : 2 ≤ maxdeg) (i : Nat) (hi : 1 ≤ i) (k : Nat) :
    (((zero_poly maxdeg).set 0 (gexp i)).set 1 1).getD k 0 < 256 := by
  rw [linear_factor_getD maxdeg hcap]
  split
  · exact hP.gexp_lt i hi
  · split <;> decide

theorem gen_prod_natDegree (α : F) (t : Nat) :
    (∏ i ∈ Finset.range t, (X + C (α ^ (i + 1)) : F[X])).natDegree = t := by
  rw [natDegree_prod_of_monic _ _ (fun _ _ => monic_X_add_C _)]
  simp only [natDegree_X_add_C, Finset.sum_const, Finset.card_range, smul_eq_mul, mul_one]

theorem gen_prod_monic (α : F) (t : Nat) :
    (∏ i ∈ Finset.range t, (X + C (α ^ (i + 1)) : F[X])).Monic :=
  monic_prod_of_monic _ _ (fun _ _ => monic_X_add_C _)

/-- The invariant of the loop of `compute_genpoly`: after the factors `1 .. t` the
running product `tp1` (and `genpoly`, once the loop has run) holds the coefficients of
`(x + a^1) ... (x + a^t)`. -/
theorem compute_genpoly_invariant (hP : FieldProvider F φ α gmult gexp) (maxdeg : Nat)
    (genpoly : List Nat) (t : Nat) (ht : t + 1 ≤ maxdeg) :
    (∀ k, (((List.range' 1 t).foldl (compute_genpoly_step gmult gexp maxdeg)
        (genpoly, (zero_poly maxdeg).set 0 1)).2).getD k 0 < 256)
    ∧ (∀ k, (∏ i ∈ Finset.range t, (X + C (α ^ (i + 1)) : F[X])).coeff k
        = φ ((((List.range' 1 t).foldl (compute_genpoly_step gmult gexp maxdeg)
            (genpoly, (zero_poly maxdeg).set 0 1)).2).getD k 0))
    ∧ (1 ≤ t → ((List.range' 1 t).foldl (compute_genpoly_step gmult gexp maxdeg)
          (genpoly, (zero_poly maxdeg).set 0 1)).1
        = ((List.range' 1 t).foldl (compute_genpoly_step gmult gexp maxdeg)
          (genpoly, (zero_poly maxdeg).set 0 1)).2)
    ∧ (1 ≤ t → (((List.range' 1 t).foldl (compute_genpoly_step gmult gexp maxdeg)
          (genpoly, (zero_poly maxdeg).set 0 1)).2).length = maxdeg) := by
  induction t with
  | zero =>
    have h0 : ∀ k, ((zero_poly maxdeg).set 0 1).getD k 0 = if k = 0 then 1 else 0 := by
      intro k
      unfold zero_poly
      rw [getD_set, List.length_replicate, getD_replicate_zero]
      by_cases h : k = 0
      · have a1 : 0 = k ∧ 0 < maxdeg := ⟨h.symm, by omega⟩
        rw [if_pos a1, if_pos h]
      · have a1 : ¬ (0 = k ∧ 0 < maxdeg) := fun h1 => h h1.1.symm
        rw [if_neg a1, if_neg h]
    refine ⟨?_, ?_, fun h => absurd h (by decide), fun h => absurd h (by decide)⟩
    · intro k
      simp only [List.range'_zero, List.foldl_nil]
      rw [h0]
      split <;> decide
    · intro k
      simp only [List.range'_zero, List.foldl_nil, Finset.range_zero, Finset.prod_empty]
      rw [h0, coeff_one]
      by_cases h : k = 0
      · rw [if_pos h, if_pos h, hP.map_one]
      · rw [if_neg h, if_neg h, hP.map_zero]
  | succ t ih =>
    obtain ⟨ih1, ih2, -, -⟩ := ih (by omega)
    rw [List.range'_concat, List.foldl_append]
    simp only [List.foldl_cons, List.foldl_nil, Nat.one_mul]
    have hdeg : ((X + C (α ^ (1 + t)) : F[X])
        * ∏ i ∈ Finset.range t, (X + C (α ^ (i + 1)) : F[X])).natDegree < maxdeg := by
      have h1 := gen_prod_natDegree α (t + 1)
      rw [Finset.prod_range_succ, mul_comm, Nat.add_comm t 1] at h1
      rw [h1]
      omega
    obtain ⟨m1, m2⟩ := mult_polys_spec hP maxdeg _ _
      (linear_factor_lt hP maxdeg (by omega) (1 + t) (by omega)) ih1 _ _
      (linear_factor_coeff hP maxdeg (by omega) (1 + t) (by omega)) ih2 hdeg
    refine ⟨m1, ?_, fun _ => rfl, fun _ => mult_polys_length _ _ _ _⟩
    intro k
    rw [Finset.prod_range_succ, mul_comm, Nat.add_comm t 1]
    exact m2 k

/-- The array that `compute_genpoly` leaves in `genpoly` holds the coefficients of
`(x + a^1) ... (x + a^N)`, all of them bytes, in a buffer of `maxdeg` cells. -/
theorem compute_genpoly_spec (hP : FieldProvider F φ α gmult gexp) (maxdeg nbytes : Nat)
    (hN : 1 ≤ nbytes) (hcap : nbytes + 1 ≤ maxdeg) (genpoly : List Nat) :
    (compute_genpoly gmult gexp maxdeg nbytes genpoly).length = maxdeg
    ∧ (∀ k, (compute_genpoly gmult gexp maxdeg nbytes genpoly).getD k 0 < 256)
    ∧ ∀ k, (∏ i ∈ Finset.range nbytes, (X + C (α ^ (i + 1)) : F[X])).coeff k
        = φ ((compute_genpoly gmult gexp maxdeg nbytes genpoly).getD k 0) := by
  obtain ⟨h1, h2, h3, h4⟩ := compute_genpoly_invariant hP maxdeg genpoly nbytes hcap
  unfold compute_genpoly
  simp only []
  rw [h3 hN]
  exact ⟨h4 hN, h1, h2⟩

end generator

section generator_roots

open Polynomial

variable {F : Type} [Field F] {φ : Nat → F} {α : F} {gmult : Nat → Nat → Nat}
  {gexp : Nat → Nat}

theorem gen_prod_eval_root (hP : FieldProvider F φ α gmult gexp) (NPAR j : Nat)
    (hj1 : 1 ≤ j) (hjN : j ≤ NPAR) :
    (∏ i ∈ Finset.range NPAR, (X + C (α ^ (i + 1)) : F[X])).eval (α ^ j) = 0 := by
  rw [eval_prod]
  apply Finset.prod_eq_zero (Finset.mem_range.mpr (show j - 1 < NPAR by omega))
  have h : j - 1 + 1 = j := by omega
  rw [h, eval_add, eval_X, eval_C]
  exact hP.add_self _

theorem compute_genpoly_monic (hP : FieldProvider F φ α gmult gexp) (maxdeg nbytes : Nat)
    (hN : 1 ≤ nbytes) (hcap : nbytes + 1 ≤ maxdeg) (genpoly : List Nat) :
    (compute_genpoly gmult gexp maxdeg nbytes genpoly).getD nbytes 0 = 1
    ∧ ∀ i, nbytes < i → (compute_genpoly gmult gexp maxdeg nbytes genpoly).getD i 0 = 0 := by
  obtain ⟨-, h2, h3⟩ := compute_genpoly_spec hP maxdeg nbytes hN hcap genpoly
  constructor
  · apply hP.inj _ _ (h2 _) (by decide)
    rw [← h3, hP.map_one]
    have h := (gen_prod_monic α nbytes).coeff_natDegree
    rwa [gen_prod_natDegree] at h
  · intro i hi
    apply hP.eq_zero_of_map (h2 _)
    rw [← h3]
    exact coeff_eq_zero_of_natDegree_lt (by rw [gen_prod_natDegree]; exact hi)

/-- The generator that `encode_data` reads from the array left by `compute_genpoly` is
the product `(x + a^1) ... (x + a^N)`. -/
theorem compute_genpoly_eq_prod (hP : FieldProvider F φ α gmult gexp) (maxdeg nbytes : Nat)
    (hN : 1 ≤ nbytes) (hcap : nbytes + 1 ≤ maxdeg) (genpoly : List Nat) :
    (X ^ nbytes + ∑ k ∈ Finset.range nbytes,
        C (φ ((compute_genpoly gmult gexp maxdeg nbytes genpoly).getD k 0)) * X ^ k : F[X])
      = ∏ i ∈ Finset.range nbytes, (X + C (α ^ (i + 1)) : F[X]) := by
  obtain ⟨-, -, h3⟩ := compute_genpoly_spec hP maxdeg nbytes hN hcap genpoly
  obtain ⟨h4, h5⟩ := compute_genpoly_monic hP maxdeg nbytes hN hcap genpoly
  ext k
  rw [coeff_add, coeff_X_pow, coeff_sum_range, h3]
  by_cases h1 : k < nbytes
  · have a1 : ¬ (k = nbytes) := by omega
    rw [if_neg a1, if_pos h1, zero_add]
  · rw [if_neg h1, add_zero]
    by_cases h2 : k = nbytes
    · rw [if_pos h2, h2, h4, hP.map_one]
    · rw [if_neg h2, h5 k (by omega), hP.map_zero]

end generator_roots

/-! ## The minimum distance of the code -/

section distance

open Polynomial

variable {F : Type} [Field F] {φ : Nat → F} {α : F} {gmult : Nat → Nat → Nat}
  {gexp : Nat → Nat}

/-- A vector of at most `t` entries that is orthogonal to the first `t` powers of
distinct points is zero (the Vandermonde argument, by the Lagrange polynomial). -/
theorem vandermonde_kernel (s : Finset Nat) (x u : Nat → F)
    (hx : ∀ i ∈ s, ∀ j ∈ s, x i = x j → i = j)
    (h : ∀ m < s.card, ∑ i ∈ s, u i * x i ^ m = 0) : ∀ i ∈ s, u i = 0 := by
  intro i0 hi0
  have hdeg : (∏ i ∈ s.erase i0, (X - C (x i) : F[X])).natDegree < s.card := by
    rw [natDegree_prod_of_monic _ _ (fun _ _ => monic_X_sub_C _)]
    simp only [natDegree_X_sub_C, Finset.sum_const, smul_eq_mul, mul_one,
      Finset.card_erase_of_mem hi0]
    have := Finset.card_pos.mpr ⟨i0, hi0⟩
    omega
  have h1 : ∑ i ∈ s, u i * (∏ k ∈ s.erase i0, (X - C (x k) : F[X])).eval (x i) = 0 := by
    have h2 : ∀ i ∈ s, u i * (∏ k ∈ s.erase i0, (X - C (x k) : F[X])).eval (x i)
        = ∑ m ∈ Finset.range s.card,
            (∏ k ∈ s.erase i0, (X - C (x k) : F[X])).coeff m * (u i * x i ^ m) := by
      intro i _
      rw [eval_eq_sum_range' hdeg, Finset.mul_sum]
      apply Finset.sum_congr rfl
      intro m _
      ring
    rw [Finset.sum_congr rfl h2, Finset.sum_comm]
    apply Finset.sum_eq_zero
    intro m hm
    rw [← Finset.mul_sum, h m (Finset.mem_range.mp hm), mul_zero]
  rw [Finset.sum_eq_single_of_mem i0 hi0] at h1
  · rcases mul_eq_zero.mp h1 with h3 | h3
    · exact h3
    · exfalso
      rw [eval_prod] at h3
      obtain ⟨k, hk, hk0⟩ := Finset.prod_eq_zero_iff.mp h3
      rw [eval_sub, eval_X, eval_C, sub_eq_zero] at hk0
      have := hx i0 hi0 k (Finset.mem_of_mem_erase hk) hk0
      exact (Finset.ne_of_mem_erase hk) this.symm
  · intro i hi hne
    rw [eval_prod, Finset.prod_eq_zero (Finset.mem_erase.mpr ⟨hne, hi⟩), mul_zero]
    rw [eval_sub, eval_X, eval_C, sub_self]

/-- Two words of at most 255 bytes with the same `N` syndromes that differ in at most
`N` positions are equal. -/
theorem eq_of_syndromes_eq (hP : FieldProvider F φ α gmult gexp) (NPAR : Nat)
    (a b : List Nat) (hlen : a.length = b.length) (hn : a.length ≤ 255)
    (ha : ∀ c ∈ a, c < 256) (hb : ∀ c ∈ b, c < 256)
    (hsyn : ∀ j < NPAR,
      ∑ i ∈ Finset.range a.length, φ (a.getD i 0) * (α ^ (j + 1)) ^ (a.length - 1 - i)
        = ∑ i ∈ Finset.range a.length, φ (b.getD i 0) * (α ^ (j + 1)) ^ (a.length - 1 - i))
    (hcard : ((Finset.range a.length).filter (fun i => a.getD i 0 ≠ b.getD i 0)).card ≤ NPAR) :
    a = b := by
  have key := vandermonde_kernel
    ((Finset.range a.length).filter (fun i => a.getD i 0 ≠ b.getD i 0))
    (fun i => α ^ (a.length - 1 - i))
    (fun i => (φ (a.getD i 0) - φ (b.getD i 0)) * α ^ (a.length - 1 - i))
    (by
      intro i hi j hj hij
      rw [Finset.mem_filter, Finset.mem_range] at hi hj
      have := hP.pow_inj _ _ (by omega) (by omega) hij
      omega)
    (by
      intro m hm
      have h1 := hsyn m (by omega)
      rw [← sub_eq_zero, ← Finset.sum_sub_distrib] at h1
      rw [Finset.sum_filter]
      refine Eq.trans ?_ h1
      apply Finset.sum_congr rfl
      intro i _
      have hpow : α ^ (a.length - 1 - i) * (α ^ (a.length - 1 - i)) ^ m
          = (α ^ (m + 1)) ^ (a.length - 1 - i) := by
        rw [← pow_succ', ← pow_mul, ← pow_mul, Nat.mul_comm]
      by_cases h2 : a.getD i 0 = b.getD i 0
      · rw [if_neg (not_not.mpr h2), h2, sub_self]
      · rw [if_pos h2, mul_assoc, hpow, sub_mul])
  apply List.ext_getElem hlen
  intro i h1 h2
  by_contra hne
  have hne2 : a.getD i 0 ≠ b.getD i 0 := by
    rw [List.getD_eq_getElem _ _ h1, List.getD_eq_getElem _ _ h2]
    exact hne
  have h3 := key i (Finset.mem_filter.mpr ⟨Finset.mem_range.mpr h1, hne2⟩)
  rcases mul_eq_zero.mp h3 with h4 | h4
  · exact hne2 (hP.inj _ _ (getD_lt_256 ha i) (getD_lt_256 hb i) (sub_eq_zero.mp h4))
  · exact pow_ne_zero _ hP.alpha_ne_zero h4

end distance

theorem altered_card (a b : List Nat) :
    ((Finset.range a.length).filter (fun i => a.getD i 0 ≠ b.getD i 0)).card
      = (altered a b).length := by
  unfold altered
  rw [← List.toFinset_card_of_nodup ((List.nodup_range _).filter _)]
  congr 1
  ext i
  simp

theorem altered_self (a : List Nat) : altered a a = [] := by
  simp [altered]

theorem getD_take (w : List Nat) (K i : Nat) (hi : i < K) : (w.take K).getD i 0 = w.getD i 0 := by
  simp [List.getD_eq_getElem?_getD, List.getElem?_take, hi]

/-! ## Codewords and their syndromes -/

section codewords

open Polynomial

variable {F : Type} [Field F] {φ : Nat → F} {α : F} {gmult : Nat → Nat → Nat}
  {gexp : Nat → Nat}

theorem mem_lt_256_of_getD {l : List Nat} (h : ∀ k, l.getD k 0 < 256) : ∀ c ∈ l, c < 256 := by
  intro c hc
  obtain ⟨i, hi, rfl⟩ := List.getElem_of_mem hc
  rw [← List.getD_eq_getElem l 0 hi]
  exact h i

/-- The codeword written by `encode_data`: its length, its bytes, and the value of its
polynomial (first byte of highest degree) at a root of the generator. -/
theorem encode_data_codeword (hP : FieldProvider F φ α gmult gexp) (NPAR : Nat) (hN : 1 ≤ NPAR)
    (driver : rscode_driver) (hp : NPAR ≤ driver.pBytes.length)
    (hg : ∀ k < NPAR, driver.genPoly.getD k 0 < 256)
    (msg : List Nat) (hmsg : ∀ b ∈ msg, b < 256)
    (dst : List Nat) (hdst : dst.length = msg.length + NPAR) :
    (encode_data gmult NPAR driver msg msg.length dst).2.length = msg.length + NPAR
    ∧ (∀ c ∈ (encode_data gmult NPAR driver msg msg.length dst).2, c < 256)
    ∧ (∀ i < msg.length,
        (encode_data gmult NPAR driver msg msg.length dst).2.getD i 0 = msg.getD i 0)
    ∧ ∀ x : F,
        (X ^ NPAR + ∑ k ∈ Finset.range NPAR,
          C (φ (driver.genPoly.getD k 0)) * X ^ k : F[X]).eval x = 0 →
        ∑ i ∈ Finset.range (msg.length + NPAR),
          φ ((encode_data gmult NPAR driver msg msg.length dst).2.getD i 0)
            * x ^ (msg.length + NPAR - 1 - i) = 0 := by
  obtain ⟨-, i2, -, q, i4⟩ := encode_lfsr_invariant hP NPAR hN driver.genPoly hg msg hmsg
  have hlenc : (encode_data gmult NPAR driver msg msg.length dst).2.length
      = msg.length + NPAR := by
    rw [encode_data_snd, build_codeword_length, hdst]
  have hlo : ∀ i < msg.length,
      (encode_data gmult NPAR driver msg msg.length dst).2.getD i 0 = msg.getD i 0 := by
    intro i hi
    have a1 : ¬ (msg.length ≤ i ∧ i < msg.length + NPAR ∧ i < dst.length) := by omega
    have a2 : i < msg.length ∧ i < dst.length := ⟨hi, by omega⟩
    rw [encode_data_snd, build_codeword_getD, if_neg a1, if_pos a2]
  have hhi : ∀ i < NPAR,
      (encode_data gmult NPAR driver msg msg.length dst).2.getD (msg.length + i) 0
        = (encode_lfsr gmult NPAR driver.genPoly msg msg.length).getD (NPAR - 1 - i) 0 := by
    intro i hi
    have a1 : msg.length ≤ msg.length + i ∧ msg.length + i < msg.length + NPAR
        ∧ msg.length + i < dst.length := ⟨by omega, by omega, by omega⟩
    rw [encode_data_snd, build_codeword_getD, if_pos a1, Nat.add_sub_cancel_left,
      encode_data_pBytes_eq hP NPAR hN driver hp hg msg hmsg dst _ (by omega)]
  refine ⟨hlenc, ?_, hlo, ?_⟩
  · apply mem_lt_256_of_getD
    intro k
    by_cases h1 : k < msg.length
    · rw [hlo k h1]
      exact getD_lt_256 hmsg k
    · by_cases h2 : k < msg.length + NPAR
      · have h3 : k = msg.length + (k - msg.length) := by omega
        rw [h3, hhi _ (by omega)]
        exact i2 _
      · rw [getD_of_length_le _ _ (by omega)]
        decide
  · intro x hx
    have e1 := congrArg (eval x) i4
    rw [eval_add, eval_mul, eval_mul, hx, zero_mul, zero_add, eval_finset_sum, eval_finset_sum,
      eval_pow, eval_X] at e1
    simp only [eval_mul, eval_C, eval_pow, eval_X] at e1
    rw [Finset.sum_range_add]
    have s1 : ∑ i ∈ Finset.range msg.length,
        φ ((encode_data gmult NPAR driver msg msg.length dst).2.getD i 0)
          * x ^ (msg.length + NPAR - 1 - i)
        = (∑ i ∈ Finset.range msg.length, φ (msg.getD i 0) * x ^ (msg.length - 1 - i))
          * x ^ NPAR := by
      rw [Finset.sum_mul]
      apply Finset.sum_congr rfl
      intro i hi
      rw [Finset.mem_range] at hi
      have h3 : msg.length + NPAR - 1 - i = (msg.length - 1 - i) + NPAR := by omega
      rw [hlo i hi, h3, pow_add, mul_assoc]
    have s2 : ∑ i ∈ Finset.range NPAR,
        φ ((encode_data gmult NPAR driver msg msg.length dst).2.getD (msg.length + i) 0)
          * x ^ (msg.length + NPAR - 1 - (msg.length + i))
        = ∑ k ∈ Finset.range NPAR,
            φ ((encode_lfsr gmult NPAR driver.genPoly msg msg.length).getD k 0) * x ^ k := by
      rw [← Finset.sum_range_reflect]
      apply Finset.sum_congr rfl
      intro i hi
      rw [Finset.mem_range] at hi
      have h3 : msg.length + NPAR - 1 - (msg.length + (NPAR - 1 - i)) = i := by omega
      have h4 : NPAR - 1 - (NPAR - 1 - i) = i := by omega
      rw [hhi (NPAR - 1 - i) (by omega), h3, h4]
    rw [s1, s2, e1]
    exact hP.add_self _

theorem gen_eval_sum (c : Nat → F) (NPAR : Nat) (x : F) :
    (X ^ NPAR + ∑ k ∈ Finset.range NPAR, C (c k) * X ^ k : F[X]).eval x
      = x ^ NPAR + ∑ k ∈ Finset.range NPAR, c k * x ^ k := by
  rw [eval_add, eval_pow, eval_X, eval_finset_sum]
  simp only [eval_mul, eval_C, eval_pow, eval_X]

/-- The driver set up by `initialize_ecc`: the generator has byte coefficients and the
monic polynomial `x^N + sum_{k<N} genPoly[k] x^k` vanishes at `alpha^1 .. alpha^N`. -/
theorem initialize_ecc_generator (hP : FieldProvider F φ α gmult gexp) (NPAR maxdeg : Nat)
    (hN : 1 ≤ NPAR) (hcap : NPAR + 1 ≤ maxdeg) (driver : rscode_driver) :
    (initialize_ecc gmult gexp NPAR maxdeg driver).pBytes = driver.pBytes
    ∧ (initialize_ecc gmult gexp NPAR maxdeg driver).synBytes = driver.synBytes
    ∧ (∀ k < NPAR, (initialize_ecc gmult gexp NPAR maxdeg driver).genPoly.getD k 0 < 256)
    ∧ ∀ j, 1 ≤ j → j ≤ NPAR →
        (α ^ j) ^ NPAR + ∑ k ∈ Finset.range NPAR,
          φ ((initialize_ecc gmult gexp NPAR maxdeg driver).genPoly.getD k 0) * (α ^ j) ^ k
        = 0 := by
  obtain ⟨-, h2, -⟩ := compute_genpoly_spec hP maxdeg NPAR hN hcap driver.genPoly
  refine ⟨rfl, rfl, fun k _ => h2 k, ?_⟩
  intro j hj1 hjN
  rw [← gen_eval_sum (fun k =>
    φ ((initialize_ecc gmult gexp NPAR maxdeg driver).genPoly.getD k 0)) NPAR (α ^ j)]
  unfold initialize_ecc
  simp only []
  rw [compute_genpoly_eq_prod hP maxdeg NPAR hN hcap driver.genPoly]
  exact gen_prod_eval_root hP NPAR j hj1 hjN

/-- The syndrome byte `j` of a word of bytes is zero exactly when the polynomial of the
word vanishes at `alpha^(j+1)`. -/
theorem syndrome_eq_zero_iff (hP : FieldProvider F φ α gmult gexp) (NPAR : Nat)
    (driver : rscode_driver) (hs : NPAR ≤ driver.synBytes.length)
    (data : List Nat) (hdata : ∀ b ∈ data, b < 256) (j : Nat) (hj : j < NPAR) :
    (decode_data gmult gexp NPAR driver data data.length).synBytes.getD j 0 = 0
      ↔ ∑ i ∈ Finset.range data.length,
          φ (data.getD i 0) * (α ^ (j + 1)) ^ (data.length - 1 - i) = 0 := by
  obtain ⟨h1, h2⟩ := decode_sum_spec hP data hdata j
  have a1 : j < NPAR ∧ j < driver.synBytes.length := ⟨hj, by omega⟩
  rw [decode_data_synBytes_getD, if_pos a1, Nat.mod_eq_of_lt h1, ← h2]
  constructor
  · intro h
    rw [h, hP.map_zero]
  · intro h
    exact hP.eq_zero_of_map h1 h

/-- The round trip on field elements: with a generator in `genPoly` that vanishes at
`alpha^1 .. alpha^N`, the codeword of `encode_data` has zero syndromes. -/
theorem codeword_syndromes (hP : FieldProvider F φ α gmult gexp) (NPAR : Nat)
    (hN : 1 ≤ NPAR) (driver : rscode_driver) (hp : NPAR ≤ driver.pBytes.length)
    (hg : ∀ k < NPAR, driver.genPoly.getD k 0 < 256)
    (hgen : ∀ j, 1 ≤ j → j ≤ NPAR →
      (α ^ j) ^ NPAR + ∑ k ∈ Finset.range NPAR, φ (driver.genPoly.getD k 0) * (α ^ j) ^ k = 0)
    (msg : List Nat) (hmsg : ∀ b ∈ msg, b < 256)
    (dst : List Nat) (hdst : dst.length = msg.length + NPAR) :
    (encode_data gmult NPAR driver msg msg.length dst).2.length = msg.length + NPAR
    ∧ (∀ c ∈ (encode_data gmult NPAR driver msg msg.length dst).2, c < 256)
    ∧ (∀ i < msg.length,
        (encode_data gmult NPAR driver msg msg.length dst).2.getD i 0 = msg.getD i 0)
    ∧ ∀ j < NPAR,
        ∑ i ∈ Finset.range (msg.length + NPAR),
          φ ((encode_data gmult NPAR driver msg msg.length dst).2.getD i 0)
            * (α ^ (j + 1)) ^ (msg.length + NPAR - 1 - i) = 0 := by
  obtain ⟨c1, c2, c3, c4⟩ := encode_data_codeword hP NPAR hN driver hp hg msg hmsg dst hdst
  refine ⟨c1, c2, c3, fun j hj => c4 _ ?_⟩
  rw [gen_eval_sum (fun k => φ (driver.genPoly.getD k 0))]
  exact hgen (j + 1) (by omega) (by omega)

end codewords

/-! ## Detection -/

section detection

variable {F : Type} [Field F] {φ : Nat → F} {α : F} {gmult : Nat → Nat → Nat}
  {gexp : Nat → Nat}

/-- The codeword of a driver that holds a generator decodes to the zero syndrome. -/
theorem codeword_accepted (hP : FieldProvider F φ α gmult gexp) (NPAR : Nat)
    (hN : 1 ≤ NPAR) (driver : rscode_driver) (hp : NPAR ≤ driver.pBytes.length)
    (hg : ∀ k < NPAR, driver.genPoly.getD k 0 < 256)
    (hgen : ∀ j, 1 ≤ j → j ≤ NPAR →
      (α ^ j) ^ NPAR + ∑ k ∈ Finset.range NPAR, φ (driver.genPoly.getD k 0) * (α ^ j) ^ k = 0)
    (msg : List Nat) (hmsg : ∀ b ∈ msg, b < 256)
    (dst : List Nat) (hdst : dst.length = msg.length + NPAR)
    (d : rscode_driver) (hs : NPAR ≤ d.synBytes.length) :
    ∀ j < NPAR, (decode_data gmult gexp NPAR d
      (encode_data gmult NPAR driver msg msg.length dst).2
      (msg.length + NPAR)).synBytes.getD j 0 = 0 := by
  obtain ⟨c1, c2, -, c4⟩ := codeword_syndromes hP NPAR hN driver hp hg hgen msg hmsg dst hdst
  intro j hj
  have h := (syndrome_eq_zero_iff hP NPAR d hs _ c2 j hj).mpr
  rw [c1] at h
  exact h (c4 j hj)

/-- A word of at most 255 bytes that decodes to the zero syndrome and differs from a
codeword in at most `N` positions is that codeword. -/
theorem accepted_eq_codeword (hP : FieldProvider F φ α gmult gexp) (NPAR : Nat)
    (hN : 1 ≤ NPAR) (driver : rscode_driver) (hp : NPAR ≤ driver.pBytes.length)
    (hg : ∀ k < NPAR, driver.genPoly.getD k 0 < 256)
    (hgen : ∀ j, 1 ≤ j → j ≤ NPAR →
      (α ^ j) ^ NPAR + ∑ k ∈ Finset.range NPAR, φ (driver.genPoly.getD k 0) * (α ^ j) ^ k = 0)
    (msg : List Nat) (hmsg : ∀ b ∈ msg, b < 256) (hlen : msg.length + NPAR ≤ 255)
    (dst : List Nat) (hdst : dst.length = msg.length + NPAR)
    (d : rscode_driver) (hs : NPAR ≤ d.synBytes.length)
    (w : List Nat) (hwlen : w.length = msg.length + NPAR) (hw : ∀ b ∈ w, b < 256)
    (hcard : ((Finset.range (msg.length + NPAR)).filter (fun i =>
      (encode_data gmult NPAR driver msg msg.length dst).2.getD i 0 ≠ w.getD i 0)).card ≤ NPAR)
    (hzero : check_syndrome NPAR (decode_data gmult gexp NPAR d w (msg.length + NPAR)) = 0) :
    (encode_data gmult NPAR driver msg msg.length dst).2 = w := by
  obtain ⟨c1, c2, -, c4⟩ := codeword_syndromes hP NPAR hN driver hp hg hgen msg hmsg dst hdst
  rw [check_syndrome_eq_zero] at hzero
  apply eq_of_syndromes_eq hP NPAR _ w (by rw [c1, hwlen]) (by rw [c1]; exact hlen) c2 hw
  · intro j hj
    rw [c1, c4 j hj]
    have h := (syndrome_eq_zero_iff hP NPAR d hs w hw j hj).mp
    rw [hwlen] at h
    exact (h (hzero j hj)).symm
  · rw [c1]
    exact hcard

theorem xor_ne_self {a d : Nat} (hd : d ≠ 0) : a ^^^ d ≠ a := by
  intro h
  apply hd
  have h1 : a ^^^ (a ^^^ d) = d := by
    rw [← Nat.xor_assoc, Nat.xor_self, Nat.zero_xor]
  rw [h, Nat.xor_self] at h1
  exact h1.symm

end detection

/-! ## Ranges of the register and of the Horner accumulator -/

theorem ext_getD {l1 l2 : List Nat} (hlen : l1.length = l2.length)
    (h : ∀ k, l1.getD k 0 = l2.getD k 0) : l1 = l2 := by
  apply List.ext_getElem hlen
  intro i h1 h2
  have := h i
  rwa [List.getD_eq_getElem _ _ h1, List.getD_eq_getElem _ _ h2] at this

theorem lfsr_step_lt (gmult : Nat → Nat → Nat) (hgm : ∀ a b, gmult a b < 256) (NPAR : Nat)
    (genPoly LFSR : List Nat) (byte : Nat) (hL : ∀ k, LFSR.getD k 0 < 256) :
    ∀ k, (lfsr_step gmult NPAR genPoly LFSR byte).getD k 0 < 256 := by
  intro k
  unfold lfsr_step
  simp only []
  rw [getD_set, lfsr_shift_getD]
  split
  · exact hgm _ _
  · split
    · exact xor_lt_256 (hL _) (hgm _ _)
    · exact hL _

theorem encode_lfsr_succ (gmult : Nat → Nat → Nat) (NPAR : Nat) (genPoly msg : List Nat)
    (i : Nat) :
    encode_lfsr gmult NPAR genPoly msg (i + 1)
      = lfsr_step gmult NPAR genPoly (encode_lfsr gmult NPAR genPoly msg i) (msg.getD i 0) := by
  unfold encode_lfsr
  rw [List.range_succ, List.foldl_append]
  rfl

theorem encode_lfsr_length (gmult : Nat → Nat → Nat) (NPAR : Nat) (genPoly msg : List Nat)
    (i : Nat) : (encode_lfsr gmult NPAR genPoly msg i).length = NPAR + 1 := by
  induction i with
  | zero => simp [encode_lfsr]
  | succ i ih => rw [encode_lfsr_succ, lfsr_step_length, ih]

theorem encode_lfsr_lt (gmult : Nat → Nat → Nat) (hgm : ∀ a b, gmult a b < 256) (NPAR : Nat)
    (genPoly msg : List Nat) (i : Nat) :
    ∀ k, (encode_lfsr gmult NPAR genPoly msg i).getD k 0 < 256 := by
  induction i with
  | zero =>
    intro k
    have h : encode_lfsr gmult NPAR genPoly msg 0 = List.replicate (NPAR + 1) 0 := rfl
    rw [h, getD_replicate_zero]
    exact Nat.zero_lt_succ _
  | succ i ih =>
    rw [encode_lfsr_succ]
    exact lfsr_step_lt gmult hgm NPAR genPoly _ _ ih

theorem decode_sum_succ (gmult : Nat → Nat → Nat) (gexp : Nat → Nat) (data : List Nat)
    (m j : Nat) :
    decode_sum gmult gexp data (m + 1) j
      = data.getD m 0 ^^^ gmult (gexp (j + 1)) (decode_sum gmult gexp data m j) := by
  unfold decode_sum
  rw [List.range_succ, List.foldl_append]
  rfl

theorem decode_sum_lt (gmult : Nat → Nat → Nat) (gexp : Nat → Nat)
    (hgm : ∀ a b, gmult a b < 256) (data : List Nat) (hdata : ∀ b ∈ data, b < 256)
    (m j : Nat) : decode_sum gmult gexp data m j < 256 := by
  cases m with
  | zero => exact Nat.zero_lt_succ _
  | succ m =>
    rw [decode_sum_succ]
    exact xor_lt_256 (getD_lt_256 hdata m) (hgm _ _)

/-! ## Zero bytes and the zero register -/

theorem lfsr_step_zero (gmult : Nat → Nat → Nat) (hz : ∀ a, gmult a 0 = 0) (NPAR : Nat)
    (genPoly : List Nat) :
    lfsr_step gmult NPAR genPoly (List.replicate (NPAR + 1) 0) 0
      = List.replicate (NPAR + 1) 0 := by
  apply ext_getD
  · rw [lfsr_step_length]
  · intro k
    unfold lfsr_step
    simp only []
    rw [getD_set, lfsr_shift_getD]
    simp only [getD_replicate_zero, Nat.xor_self, hz]
    split
    · rfl
    · split <;> rfl

theorem foldl_lfsr_step_zeros (gmult : Nat → Nat → Nat) (hz : ∀ a, gmult a 0 = 0) (NPAR : Nat)
    (genPoly : List Nat) (z : Nat) :
    (List.replicate z 0).foldl (lfsr_step gmult NPAR genPoly) (List.replicate (NPAR + 1) 0)
      = List.replicate (NPAR + 1) 0 := by
  induction z with
  | zero => rfl
  | succ z ih =>
    have h : List.replicate (z + 1) 0 = 0 :: List.replicate z 0 := rfl
    rw [h, List.foldl_cons, lfsr_step_zero gmult hz, ih]

/-- Leading zero bytes leave the register of `encode_data` at zero. -/
theorem encode_lfsr_leading_zeros (gmult : Nat → Nat → Nat) (hz : ∀ a, gmult a 0 = 0)
    (NPAR : Nat) (genPoly msg : List Nat) (z : Nat) :
    encode_lfsr gmult NPAR genPoly (List.replicate z 0 ++ msg)
        (List.replicate z 0 ++ msg).length
      = encode_lfsr gmult NPAR genPoly msg msg.length := by
  rw [encode_lfsr_eq_foldl, encode_lfsr_eq_foldl, List.foldl_append,
    foldl_lfsr_step_zeros gmult hz]

theorem encode_data_pBytes (gmult : Nat → Nat → Nat) (NPAR : Nat) (driver : rscode_driver)
    (msg : List Nat) (nbytes : Nat) (dst : List Nat) :
    (encode_data gmult NPAR driver msg nbytes dst).1.pBytes
      = (List.range NPAR).foldl
          (fun p i => p.set i ((encode_lfsr gmult NPAR driver.genPoly msg nbytes).getD i 0 % 256))
          driver.pBytes :=
  rfl

/-! ## Linearity of the syndrome -/

section linearity

variable {F : Type} [Field F] {φ : Nat → F} {α : F} {gmult : Nat → Nat → Nat}
  {gexp : Nat → Nat}

theorem getD_zipWith_xor (a b : List Nat) (hlen : a.length = b.length) (k : Nat) :
    (List.zipWith (fun x y => x ^^^ y) a b).getD k 0 = a.getD k 0 ^^^ b.getD k 0 := by
  by_cases h : k < a.length
  · have h2 : k < b.length := by omega
    have h3 : k < (List.zipWith (fun x y => x ^^^ y) a b).length := by
      rw [List.length_zipWith]
      omega
    rw [List.getD_eq_getElem _ _ h, List.getD_eq_getElem _ _ h2, List.getD_eq_getElem _ _ h3,
      List.getElem_zipWith]
  · rw [getD_of_length_le a k (by omega), getD_of_length_le b k (by omega),
      getD_of_length_le _ k (by rw [List.length_zipWith]; omega)]
    rfl

theorem zipWith_xor_lt (a b : List Nat) (hlen : a.length = b.length)
    (ha : ∀ c ∈ a, c < 256) (hb : ∀ c ∈ b, c < 256) :
    ∀ c ∈ List.zipWith (fun x y => x ^^^ y) a b, c < 256 := by
  apply mem_lt_256_of_getD
  intro k
  rw [getD_zipWith_xor a b hlen]
  exact xor_lt_256 (getD_lt_256 ha k) (getD_lt_256 hb k)

/-- The Horner accumulator of the bytewise XOR of two words is the XOR of their
accumulators. -/
theorem decode_sum_xor (hP : FieldProvider F φ α gmult gexp) (a b : List Nat)
    (hlen : a.length = b.length) (ha : ∀ c ∈ a, c < 256) (hb : ∀ c ∈ b, c < 256) (j : Nat) :
    decode_sum gmult gexp (List.zipWith (fun x y => x ^^^ y) a b) a.length j
      = decode_sum gmult gexp a a.length j ^^^ decode_sum gmult gexp b a.length j := by
  have hw := zipWith_xor_lt a b hlen ha hb
  have hwl : (List.zipWith (fun x y => x ^^^ y) a b).length = a.length := by
    rw [List.length_zipWith]
    omega
  obtain ⟨w1, w2⟩ := decode_sum_spec hP _ hw j
  obtain ⟨a1, a2⟩ := decode_sum_spec hP a ha j
  obtain ⟨b1, b2⟩ := decode_sum_spec hP b hb j
  rw [hwl] at w1 w2
  rw [← hlen] at b1 b2
  apply hP.inj _ _ w1 (xor_lt_256 a1 b1)
  rw [hP.map_xor _ _ a1 b1, w2, a2, b2, ← Finset.sum_add_distrib]
  apply Finset.sum_congr rfl
  intro i _
  rw [getD_zipWith_xor a b hlen, hP.map_xor _ _ (getD_lt_256 ha i) (getD_lt_256 hb i), add_mul]

end linearity

/-! ## Determinism of the encoder -/

/-- For `nbytes ≥ 1` the array left by `compute_genpoly` does not depend on what
`genpoly` held before. -/
theorem compute_genpoly_indep (gmult : Nat → Nat → Nat) (gexp : Nat → Nat)
    (maxdeg nbytes : Nat) (hN : 1 ≤ nbytes) (genpoly genpoly1 : List Nat) :
    compute_genpoly gmult gexp maxdeg nbytes genpoly
      = compute_genpoly gmult gexp maxdeg nbytes genpoly1 := by
  obtain ⟨n, rfl⟩ : ∃ n, nbytes = n + 1 := ⟨nbytes - 1, by omega⟩
  unfold compute_genpoly
  simp only []
  rw [List.range'_succ, List.foldl_cons, List.foldl_cons]
  rfl

/-- One step of the register reads `genPoly` only at the indices `0 .. N-1`. -/
theorem lfsr_step_congr (gmult : Nat → Nat → Nat) (NPAR : Nat) (hN : 1 ≤ NPAR)
    (g g1 : List Nat) (hg : ∀ k < NPAR, g.getD k 0 = g1.getD k 0) (LFSR : List Nat)
    (byte : Nat) :
    lfsr_step gmult NPAR g LFSR byte = lfsr_step gmult NPAR g1 LFSR byte := by
  apply ext_getD
  · rw [lfsr_step_length, lfsr_step_length]
  · intro k
    unfold lfsr_step
    simp only []
    rw [getD_set, getD_set, lfsr_shift_length, lfsr_shift_length, lfsr_shift_getD,
      lfsr_shift_getD, hg 0 (by omega)]
    by_cases h1 : 1 ≤ k ∧ k ≤ NPAR - 1 ∧ k < LFSR.length
    · rw [if_pos h1, if_pos h1, hg k (by omega)]
    · rw [if_neg h1, if_neg h1]

theorem encode_lfsr_congr (gmult : Nat → Nat → Nat) (NPAR : Nat) (hN : 1 ≤ NPAR)
    (g g1 : List Nat) (hg : ∀ k < NPAR, g.getD k 0 = g1.getD k 0) (msg : List Nat)
    (nbytes : Nat) :
    encode_lfsr gmult NPAR g msg nbytes = encode_lfsr gmult NPAR g1 msg nbytes := by
  induction nbytes with
  | zero => rfl
  | succ n ih => rw [encode_lfsr_succ, encode_lfsr_succ, ih, lfsr_step_congr gmult NPAR hN g g1 hg]

/-- The parity bytes and the codeword of `encode_data` depend only on the message, on
`N` and on the coefficients `genPoly[0 .. N-1]`. -/
theorem encode_data_congr (gmult : Nat → Nat → Nat) (NPAR : Nat) (hN : 1 ≤ NPAR)
    (d d1 : rscode_driver) (hg : ∀ k < NPAR, d.genPoly.getD k 0 = d1.genPoly.getD k 0)
    (hp : NPAR ≤ d.pBytes.length) (hp1 : NPAR ≤ d1.pBytes.length)
    (msg dst dst1 : List Nat) (hdst : dst.length = msg.length + NPAR)
    (hdst1 : dst1.length = msg.length + NPAR) :
    (∀ k < NPAR, (encode_data gmult NPAR d msg msg.length dst).1.pBytes.getD k 0
        = (encode_data gmult NPAR d1 msg msg.length dst1).1.pBytes.getD k 0)
    ∧ (encode_data gmult NPAR d msg msg.length dst).2
        = (encode_data gmult NPAR d1 msg msg.length dst1).2 := by
  have hpb : ∀ k < NPAR, (encode_data gmult NPAR d msg msg.length dst).1.pBytes.getD k 0
      = (encode_data gmult NPAR d1 msg msg.length dst1).1.pBytes.getD k 0 := by
    intro k hk
    have a1 : k < NPAR ∧ k < d.pBytes.length := ⟨hk, by omega⟩
    have a2 : k < NPAR ∧ k < d1.pBytes.length := ⟨hk, by omega⟩
    rw [encode_data_pBytes_getD, encode_data_pBytes_getD, if_pos a1, if_pos a2,
      encode_lfsr_congr gmult NPAR hN _ _ hg]
  refine ⟨hpb, ?_⟩
  apply ext_getD
  · rw [encode_data_snd, encode_data_snd, build_codeword_length, build_codeword_length, hdst,
      hdst1]
  · intro k
    rw [encode_data_snd, encode_data_snd, build_codeword_getD, build_codeword_getD, hdst, hdst1]
    by_cases h1 : msg.length ≤ k ∧ k < msg.length + NPAR ∧ k < msg.length + NPAR
    · rw [if_pos h1, if_pos h1]
      exact hpb _ (by omega)
    · rw [if_neg h1, if_neg h1]
      by_cases h2 : k < msg.length ∧ k < msg.length + NPAR
      · rw [if_pos h2, if_pos h2]
      · rw [if_neg h2, if_neg h2, getD_of_length_le dst k (by omega),
          getD_of_length_le dst1 k (by omega)]

/-! ## One parity byte -/

section one_parity

open Polynomial

variable {F : Type} [Field F] {φ : Nat → F} {α : F} {gmult : Nat → Nat → Nat}
  {gexp : Nat → Nat}

theorem lfsr_step_one (gmult : Nat → Nat → Nat) (g : List Nat) (p c byte : Nat) :
    lfsr_step gmult 1 g [p, c] byte = [gmult (g.getD 0 0) (byte ^^^ p), c] :=
  rfl

/-- For `N = 1` the register is one cell that is fed back through `genPoly[0]`. -/
theorem encode_lfsr_one (gmult : Nat → Nat → Nat) (g msg : List Nat) :
    encode_lfsr gmult 1 g msg msg.length
      = [msg.foldl (fun p b => gmult (g.getD 0 0) (b ^^^ p)) 0, 0] := by
  rw [encode_lfsr_eq_foldl]
  have key : ∀ (l : List Nat) (p : Nat), l.foldl (lfsr_step gmult 1 g) [p, 0]
      = [l.foldl (fun p b => gmult (g.getD 0 0) (b ^^^ p)) p, 0] := by
    intro l
    induction l with
    | nil => intro p; rfl
    | cons b l ih =>
      intro p
      rw [List.foldl_cons, List.foldl_cons, lfsr_step_one, ih]
  exact key msg 0

theorem foldl_parity_lt (hP : FieldProvider F φ α gmult gexp) (a : Nat) (ha : a < 256)
    (msg : List Nat) (hmsg : ∀ b ∈ msg, b < 256) (p : Nat) (hp : p < 256) :
    msg.foldl (fun p b => gmult a (b ^^^ p)) p < 256 := by
  induction msg generalizing p with
  | nil => exact hp
  | cons b l ih =>
    rw [List.foldl_cons]
    exact ih (fun c hc => hmsg c (List.mem_cons_of_mem _ hc)) _
      (hP.gmult_lt _ _ ha (xor_lt_256 (hmsg b (List.mem_cons_self _ _)) hp))

/-- With `N = 1`, `compute_genpoly` leaves `gexp 1` in `genPoly[0]`. -/
theorem compute_genpoly_one (hP : FieldProvider F φ α gmult gexp) (maxdeg : Nat)
    (hcap : 2 ≤ maxdeg) (genpoly : List Nat) :
    (compute_genpoly gmult gexp maxdeg 1 genpoly).getD 0 0 = gexp 1 := by
  obtain ⟨-, h2, h3⟩ := compute_genpoly_spec hP maxdeg 1 (Nat.le_refl 1) hcap genpoly
  apply hP.inj _ _ (h2 0) (hP.gexp_lt 1 (Nat.le_refl 1))
  rw [← h3 0, hP.map_gexp 1 (Nat.le_refl 1), Finset.prod_range_one]
  simp

end one_parity

/-! ## Index safety of `encode_data` -/

theorem lfsr_shift_accesses_bounds (j : Nat) :
    ∀ a ∈ lfsr_shift_accesses j,
      (a.buf = buffer.LFSR ∨ a.buf = buffer.genPoly) ∧ 0 ≤ a.index ∧ a.index ≤ j := by
  induction j with
  | zero => intro a ha; simp [lfsr_shift_accesses] at ha
  | succ j ih =>
    intro a ha
    simp only [lfsr_shift_accesses, List.cons_append, List.nil_append, List.mem_cons] at ha
    rcases ha with rfl | rfl | rfl | ha
    · exact ⟨Or.inl rfl, by simp, by simp⟩
    · exact ⟨Or.inr rfl, by simp; omega, by simp⟩
    · exact ⟨Or.inl rfl, by simp; omega, by simp⟩
    · obtain ⟨h1, h2, h3⟩ := ih a ha
      exact ⟨h1, h2, by push_cast; omega⟩

theorem lfsr_step_accesses_bounds (NPAR K i : Nat) (hN : 1 ≤ NPAR) (hi : i < K) :
    ∀ a ∈ lfsr_step_accesses NPAR i, 0 ≤ a.index ∧ a.index < extent NPAR K a.buf := by
  intro a ha
  simp only [lfsr_step_accesses, List.cons_append, List.nil_append, List.mem_cons,
    List.mem_append, List.mem_singleton, List.not_mem_nil, or_false] at ha
  rcases ha with rfl | rfl | ha | rfl | rfl
  · simp only [extent]
    omega
  · simp only [extent]
    omega
  · obtain ⟨h1, h2, h3⟩ := lfsr_shift_accesses_bounds (NPAR - 1) a ha
    rcases h1 with h1 | h1 <;> rw [h1] <;> simp only [extent] <;> omega
  · simp only [extent]
    omega
  · simp only [extent]
    omega

theorem build_codeword_accesses_bounds (NPAR K : Nat) :
    ∀ a ∈ build_codeword_accesses NPAR K, 0 ≤ a.index ∧ a.index < extent NPAR K a.buf := by
  intro a ha
  simp only [build_codeword_accesses, List.mem_append, List.mem_flatMap, List.mem_range,
    List.mem_cons, List.mem_singleton, List.not_mem_nil, or_false] at ha
  rcases ha with ⟨i, hi, rfl | rfl⟩ | ⟨i, hi, rfl | rfl⟩ <;> simp only [extent] <;> omega

theorem encode_data_accesses_bounds (NPAR K : Nat) (hN : 1 ≤ NPAR) :
    ∀ a ∈ encode_data_accesses NPAR K, 0 ≤ a.index ∧ a.index < extent NPAR K a.buf := by
  intro a ha
  simp only [encode_data_accesses, List.mem_append, List.mem_flatMap, List.mem_range,
    List.mem_map, List.mem_cons, List.mem_singleton, List.not_mem_nil, or_false] at ha
  rcases ha with ((⟨i, hi, rfl⟩ | ⟨i, hi, ha⟩) | ⟨i, hi, rfl | rfl⟩) | ha
  · simp only [extent]
    omega
  · exact lfsr_step_accesses_bounds NPAR K i hN hi a ha
  · simp only [extent]
    omega
  · simp only [extent]
    omega
  · exact build_codeword_accesses_bounds NPAR K a ha

theorem lfsr_step_accesses_dst (NPAR i : Nat) :
    (lfsr_step_accesses NPAR i).filter (fun a => a.buf = buffer.dst && a.store) = [] := by
  rw [List.filter_eq_nil_iff]
  intro a ha
  simp only [lfsr_step_accesses, List.cons_append, List.nil_append, List.mem_cons,
    List.mem_append, List.mem_singleton, List.not_mem_nil, or_false] at ha
  rcases ha with rfl | rfl | ha | rfl | rfl
  · simp
  · simp
  · obtain ⟨h1, -, -⟩ := lfsr_shift_accesses_bounds (NPAR - 1) a ha
    rcases h1 with h1 | h1 <;> simp [h1]
  · simp
  · simp

/-- The stores into `dst` of `build_codeword`, in program order. -/
theorem build_codeword_accesses_dst (NPAR K : Nat) :
    ((build_codeword_accesses NPAR K).filter (fun a => a.buf = buffer.dst && a.store)).map
        (fun a => a.index)
      = (List.range (K + NPAR)).map (fun (i : Nat) => (i : Int)) := by
  have hf : ∀ (f : Nat → List Int) (g : Nat → Int) (n : Nat), (∀ i, f i = [g i]) →
      (List.range n).flatMap f = (List.range n).map g := by
    intro f g n hfg
    induction n with
    | zero => rfl
    | succ n ih =>
      rw [List.range_succ, List.flatMap_append, List.map_append, ih]
      simp [hfg]
  simp only [build_codeword_accesses, List.filter_append, List.filter_flatMap, List.map_append,
    List.map_flatMap]
  rw [List.range_add, List.map_append, List.map_map]
  congr 1
  · exact hf _ _ K (fun i => by simp)
  · refine (hf _ (fun (i : Nat) => ((K + i : Nat) : Int)) NPAR (fun i => ?_)).trans ?_
    · simp
      omega
    · rfl

theorem encode_data_accesses_dst (NPAR K : Nat) :
    ((encode_data_accesses NPAR K).filter (fun a => a.buf = buffer.dst && a.store)).map
        (fun a => a.index)
      = (List.range (K + NPAR)).map (fun (i : Nat) => (i : Int)) := by
  have h1 : ((List.range (NPAR + 1)).map
      (fun (i : Nat) => (⟨buffer.LFSR, i, true⟩ : access))).filter
      (fun a => a.buf = buffer.dst && a.store) = [] := by
    rw [List.filter_eq_nil_iff]
    intro a ha
    rw [List.mem_map] at ha
    obtain ⟨i, -, rfl⟩ := ha
    simp
  have h2 : ((List.range K).flatMap (lfsr_step_accesses NPAR)).filter
      (fun a => a.buf = buffer.dst && a.store) = [] := by
    rw [List.filter_eq_nil_iff]
    intro a ha
    rw [List.mem_flatMap] at ha
    obtain ⟨i, -, ha⟩ := ha
    exact List.filter_eq_nil_iff.mp (lfsr_step_accesses_dst NPAR i) a ha
  have h3 : ((List.range NPAR).flatMap (fun (i : Nat) =>
      [(⟨buffer.LFSR, i, false⟩ : access), ⟨buffer.pBytes, i, true⟩])).filter
      (fun a => a.buf = buffer.dst && a.store) = [] := by
    rw [List.filter_eq_nil_iff]
    intro a ha
    rw [List.mem_flatMap] at ha
    obtain ⟨i, -, ha⟩ := ha
    simp only [List.mem_cons, List.mem_singleton, List.not_mem_nil, or_false] at ha
    rcases ha with rfl | rfl <;> simp
  unfold encode_data_accesses
  rw [List.filter_append, List.filter_append, List.filter_append, h1, h2, h3, List.nil_append,
    List.nil_append, List.nil_append]
  exact build_codeword_accesses_dst NPAR K

/-! ## `initialize_ecc` outside the valid range of `N` -/

/-- With `NPAR = 0` the loop of `compute_genpoly` does not run: `genpoly` is not written. -/
theorem initialize_ecc_zero (gmult : Nat → Nat → Nat) (gexp : Nat → Nat) (maxdeg : Nat)
    (driver : rscode_driver) :
    initialize_ecc gmult gexp 0 maxdeg driver = driver :=
  rfl

/-! ## The properties of the specification -/

/-- C1. Round-trip soundness: for `N ≥ 1` and a message `M` of bytes, with `gmult` the
multiplication of GF(256), `gexp i = alpha^i` and the configuration set up by
`initialize_ecc`, `decode_data` on the codeword written by `encode_data` sets every one
of the `N` syndrome bytes to `0`, so `check_syndrome` returns `0`. (The bound
`len(M) + N ≤ 255` is not needed for this direction.) -/
theorem C1_roundtrip_soundness {F : Type} [Field F] {φ : Nat → F} {α : F}
    {gmult : Nat → Nat → Nat} {gexp : Nat → Nat} (hP : FieldProvider F φ α gmult gexp)
    (NPAR maxdeg : Nat) (hN : 1 ≤ NPAR) (hcap : NPAR + 1 ≤ maxdeg) (driver : rscode_driver)
    (hp : NPAR ≤ driver.pBytes.length) (hs : NPAR ≤ driver.synBytes.length)
    (msg : List Nat) (hmsg : ∀ b ∈ msg, b < 256)
    (dst : List Nat) (hdst : dst.length = msg.length + NPAR) :
    (∀ j < NPAR, (decode_data gmult gexp NPAR
        (encode_data gmult NPAR (initialize_ecc gmult gexp NPAR maxdeg driver)
          msg msg.length dst).1
        (encode_data gmult NPAR (initialize_ecc gmult gexp NPAR maxdeg driver)
          msg msg.length dst).2 (msg.length + NPAR)).synBytes.getD j 0 = 0)
    ∧ check_syndrome NPAR (decode_data gmult gexp NPAR
        (encode_data gmult NPAR (initialize_ecc gmult gexp NPAR maxdeg driver)
          msg msg.length dst).1
        (encode_data gmult NPAR (initialize_ecc gmult gexp NPAR maxdeg driver)
          msg msg.length dst).2 (msg.length + NPAR)) = 0 := by
  obtain ⟨g1, -, g3, g4⟩ := initialize_ecc_generator hP NPAR maxdeg hN hcap driver
  have h := codeword_accepted hP NPAR hN (initialize_ecc gmult gexp NPAR maxdeg driver)
    (by rw [g1]; exact hp) g3 g4 msg hmsg dst hdst
    (encode_data gmult NPAR (initialize_ecc gmult gexp NPAR maxdeg driver) msg msg.length dst).1
    hs
  exact ⟨h, (check_syndrome_eq_zero _ _).mpr h⟩

/-- C1 at the message "hello" with `N = 4` over the concrete GF(256). -/
theorem C1_roundtrip_soundness_witness :
    (∀ j < 4, (decode_data gmult256 gexp256 4
        (encode_data gmult256 4
          (initialize_ecc gmult256 gexp256 4 8 ⟨[], [0, 0, 0, 0], [0, 0, 0, 0]⟩)
          [104, 101, 108, 108, 111] 5 (List.replicate 9 0)).1
        (encode_data gmult256 4
          (initialize_ecc gmult256 gexp256 4 8 ⟨[], [0, 0, 0, 0], [0, 0, 0, 0]⟩)
          [104, 101, 108, 108, 111] 5 (List.replicate 9 0)).2 (5 + 4)).synBytes.getD j 0 = 0)
    ∧ check_syndrome 4 (decode_data gmult256 gexp256 4
        (encode_data gmult256 4
          (initialize_ecc gmult256 gexp256 4 8 ⟨[], [0, 0, 0, 0], [0, 0, 0, 0]⟩)
          [104, 101, 108, 108, 111] 5 (List.replicate 9 0)).1
        (encode_data gmult256 4
          (initialize_ecc gmult256 gexp256 4 8 ⟨[], [0, 0, 0, 0], [0, 0, 0, 0]⟩)
          [104, 101, 108, 108, 111] 5 (List.replicate 9 0)).2 (5 + 4)) = 0 :=
  C1_roundtrip_soundness gf256_provider 4 8 (by decide) (by decide)
    ⟨[], [0, 0, 0, 0], [0, 0, 0, 0]⟩ (by decide) (by decide)
    [104, 101, 108, 108, 111] (by decide) (List.replicate 9 0) (by decide)

/-- C2. Codeword layout: `build_codeword`, and so `encode_data`, writes `K + N` bytes
into a destination buffer of that size: the `K` message bytes unchanged, then the
`N` parity bytes `pBytes[N-1], ..., pBytes[0]` (reverse register order). -/
theorem C2_codeword_layout (gmult : Nat → Nat → Nat) (NPAR : Nat) (driver : rscode_driver)
    (msg dst : List Nat) (hdst : dst.length = msg.length + NPAR) :
    ((build_codeword NPAR driver msg msg.length dst).length = msg.length + NPAR
      ∧ (∀ i < msg.length, (build_codeword NPAR driver msg msg.length dst).getD i 0
          = msg.getD i 0)
      ∧ (∀ i < NPAR, (build_codeword NPAR driver msg msg.length dst).getD (msg.length + i) 0
          = driver.pBytes.getD (NPAR - 1 - i) 0))
    ∧ ((encode_data gmult NPAR driver msg msg.length dst).2.length = msg.length + NPAR
      ∧ (∀ i < msg.length, (encode_data gmult NPAR driver msg msg.length dst).2.getD i 0
          = msg.getD i 0)
      ∧ (∀ i < NPAR, (encode_data gmult NPAR driver msg msg.length dst).2.getD (msg.length + i) 0
          = (encode_data gmult NPAR driver msg msg.length dst).1.pBytes.getD (NPAR - 1 - i) 0)) := by
  have key : ∀ d : rscode_driver,
      (build_codeword NPAR d msg msg.length dst).length = msg.length + NPAR
      ∧ (∀ i < msg.length, (build_codeword NPAR d msg msg.length dst).getD i 0 = msg.getD i 0)
      ∧ (∀ i < NPAR, (build_codeword NPAR d msg msg.length dst).getD (msg.length + i) 0
          = d.pBytes.getD (NPAR - 1 - i) 0) := by
    intro d
    refine ⟨by rw [build_codeword_length, hdst], ?_, ?_⟩
    · intro i hi
      rw [build_codeword_getD, if_neg (by omega), if_pos ⟨hi, by omega⟩]
    · intro i hi
      rw [build_codeword_getD, if_pos ⟨by omega, by omega, by omega⟩, Nat.add_sub_cancel_left]
  exact ⟨key driver, key (encode_data gmult NPAR driver msg msg.length dst).1⟩

/-- C2 at the message "hello" with `N = 4` and a destination buffer of 9 bytes. -/
theorem C2_codeword_layout_witness :
    (List.replicate 9 0).length = 5 + 4
    ∧ (encode_data gmult256 4 ⟨[116, 231, 216, 30, 1, 0, 0, 0], [0, 0, 0, 0], []⟩
        [104, 101, 108, 108, 111] 5 (List.replicate 9 0)).2.length = 5 + 4
    ∧ (∀ i < 5,
        (encode_data gmult256 4 ⟨[116, 231, 216, 30, 1, 0, 0, 0], [0, 0, 0, 0], []⟩
          [104, 101, 108, 108, 111] 5 (List.replicate 9 0)).2.getD i 0
        = [104, 101, 108, 108, 111].getD i 0)
    ∧ (∀ i < 4,
        (encode_data gmult256 4 ⟨[116, 231, 216, 30, 1, 0, 0, 0], [0, 0, 0, 0], []⟩
          [104, 101, 108, 108, 111] 5 (List.replicate 9 0)).2.getD (5 + i) 0
        = (encode_data gmult256 4 ⟨[116, 231, 216, 30, 1, 0, 0, 0], [0, 0, 0, 0], []⟩
          [104, 101, 108, 108, 111] 5 (List.replicate 9 0)).1.pBytes.getD (4 - 1 - i) 0) :=
  ⟨by decide, (C2_codeword_layout gmult256 4 ⟨[116, 231, 216, 30, 1, 0, 0, 0], [0, 0, 0, 0], []⟩
    [104, 101, 108, 108, 111] (List.replicate 9 0) (by decide)).2⟩

/-- C3. Syndrome is polynomial evaluation: for a received word `data` of `n` bytes and
`1 ≤ j ≤ N`, `decode_data` stores in `synBytes[j-1]` the value of the received polynomial
at `alpha^j`: the GF(256) sum over `i < n` of `data[i] * (alpha^j)^(n-1-i)`, the first
byte being the coefficient of highest degree. The stored byte is the Horner accumulator
itself (nothing is lost by the store). -/
theorem C3_syndrome_is_evaluation {F : Type} [Field F] {φ : Nat → F} {α : F}
    {gmult : Nat → Nat → Nat} {gexp : Nat → Nat} (hP : FieldProvider F φ α gmult gexp)
    (NPAR : Nat) (driver : rscode_driver) (hsyn : NPAR ≤ driver.synBytes.length)
    (data : List Nat) (hdata : ∀ b ∈ data, b < 256) (j : Nat) (hj1 : 1 ≤ j) (hjN : j ≤ NPAR) :
    (decode_data gmult gexp NPAR driver data data.length).synBytes.getD (j - 1) 0
        = decode_sum gmult gexp data data.length (j - 1)
    ∧ φ ((decode_data gmult gexp NPAR driver data data.length).synBytes.getD (j - 1) 0)
        = ∑ i ∈ Finset.range data.length,
            φ (data.getD i 0) * (α ^ j) ^ (data.length - 1 - i) := by
  obtain ⟨h1, h2⟩ := decode_sum_spec hP data hdata (j - 1)
  have hj : j - 1 + 1 = j := by omega
  rw [hj] at h2
  rw [decode_data_synBytes_getD, if_pos ⟨by omega, by omega⟩, Nat.mod_eq_of_lt h1]
  exact ⟨rfl, h2⟩

/-- C3 at the received word `[104, 101, 108, 108, 111, 231, 47, 199, 117]`, `N = 4`,
`j = 2`, over the concrete GF(256). -/
theorem C3_syndrome_is_evaluation_witness :
    (decode_data gmult256 gexp256 4 ⟨[], [], [0, 0, 0, 0]⟩
        [104, 101, 108, 108, 111, 231, 47, 199, 117] 9).synBytes.getD (2 - 1) 0
      = decode_sum gmult256 gexp256 [104, 101, 108, 108, 111, 231, 47, 199, 117] 9 (2 - 1)
    ∧ toGF256 ((decode_data gmult256 gexp256 4 ⟨[], [], [0, 0, 0, 0]⟩
        [104, 101, 108, 108, 111, 231, 47, 199, 117] 9).synBytes.getD (2 - 1) 0)
      = ∑ i ∈ Finset.range 9,
          toGF256 ([104, 101, 108, 108, 111, 231, 47, 199, 117].getD i 0)
            * (toGF256 2 ^ 2) ^ (9 - 1 - i) :=
  C3_syndrome_is_evaluation gf256_provider 4 ⟨[], [], [0, 0, 0, 0]⟩ (by decide)
    [104, 101, 108, 108, 111, 231, 47, 199, 117] (by decide) 2 (by decide) (by decide)

/-- C4. `check_syndrome` returns a nonzero result if and only if one of the `N` entries
`synBytes[0 .. N-1]` is nonzero, returns `0` exactly when all `N` entries are `0`, and
its result is `0` or `1`. -/
theorem C4_check_syndrome (NPAR : Nat) (driver : rscode_driver) :
    (check_syndrome NPAR driver ≠ 0 ↔ ∃ i < NPAR, driver.synBytes.getD i 0 ≠ 0)
    ∧ (check_syndrome NPAR driver = 0 ↔ ∀ i < NPAR, driver.synBytes.getD i 0 = 0)
    ∧ (check_syndrome NPAR driver = 0 ∨ check_syndrome NPAR driver = 1) := by
  refine ⟨?_, check_syndrome_eq_zero NPAR driver, check_syndrome_loop_le_one _ _ _⟩
  rw [Ne, check_syndrome_eq_zero]
  push_neg
  rfl

/-- C5. Generator roots: for `N ≥ 1` within the polynomial buffer capacity, the
polynomial left in `genPoly` by `initialize_ecc` (`compute_genpoly`), read with index =
coefficient degree, evaluates to zero at `alpha^j` for every `1 ≤ j ≤ N`. -/
theorem C5_generator_roots {F : Type} [Field F] {φ : Nat → F} {α : F}
    {gmult : Nat → Nat → Nat} {gexp : Nat → Nat} (hP : FieldProvider F φ α gmult gexp)
    (NPAR maxdeg : Nat) (hN : 1 ≤ NPAR) (hcap : NPAR + 1 ≤ maxdeg) (driver : rscode_driver)
    (j : Nat) (hj1 : 1 ≤ j) (hjN : j ≤ NPAR) :
    ∑ k ∈ Finset.range (initialize_ecc gmult gexp NPAR maxdeg driver).genPoly.length,
      φ ((initialize_ecc gmult gexp NPAR maxdeg driver).genPoly.getD k 0) * (α ^ j) ^ k = 0 := by
  obtain ⟨h1, -, h3⟩ := compute_genpoly_spec hP maxdeg NPAR hN hcap driver.genPoly
  have h4 := gen_prod_eval_root hP NPAR j hj1 hjN
  rw [Polynomial.eval_eq_sum_range' (n := maxdeg) (by rw [gen_prod_natDegree]; omega)] at h4
  unfold initialize_ecc
  simp only []
  rw [h1, ← h4]
  apply Finset.sum_congr rfl
  intro k _
  rw [h3]

/-- C5 at `N = 4` with a buffer of 8 coefficients, at the root `alpha^3`, over the
concrete GF(256). -/
theorem C5_generator_roots_witness :
    ∑ k ∈ Finset.range
        (initialize_ecc gmult256 gexp256 4 8 ⟨[], [], []⟩).genPoly.length,
      toGF256 ((initialize_ecc gmult256 gexp256 4 8 ⟨[], [], []⟩).genPoly.getD k 0)
        * (toGF256 2 ^ 3) ^ k = 0 :=
  C5_generator_roots gf256_provider 4 8 (by decide) (by decide) ⟨[], [], []⟩ 3
    (by decide) (by decide)

/-- C6. Generator degree: for `N ≥ 1` within the polynomial buffer capacity, the
`genPoly` built by `compute_genpoly` is monic of exact degree `N`: `genPoly[N] = 1` and
`genPoly[i] = 0` at every index `i > N` of the buffer. -/
theorem C6_generator_degree {F : Type} [Field F] {φ : Nat → F} {α : F}
    {gmult : Nat → Nat → Nat} {gexp : Nat → Nat} (hP : FieldProvider F φ α gmult gexp)
    (NPAR maxdeg : Nat) (hN : 1 ≤ NPAR) (hcap : NPAR + 1 ≤ maxdeg) (genpoly : List Nat) :
    (compute_genpoly gmult gexp maxdeg NPAR genpoly).length = maxdeg
    ∧ (compute_genpoly gmult gexp maxdeg NPAR genpoly).getD NPAR 0 = 1
    ∧ ∀ i, NPAR < i → i < maxdeg →
        (compute_genpoly gmult gexp maxdeg NPAR genpoly).getD i 0 = 0 := by
  obtain ⟨h1, -, -⟩ := compute_genpoly_spec hP maxdeg NPAR hN hcap genpoly
  obtain ⟨h4, h5⟩ := compute_genpoly_monic hP maxdeg NPAR hN hcap genpoly
  exact ⟨h1, h4, fun i hi _ => h5 i hi⟩

/-- C6 at `N = 4` with a buffer of 8 coefficients over the concrete GF(256). -/
theorem C6_generator_degree_witness :
    (compute_genpoly gmult256 gexp256 8 4 []).length = 8
    ∧ (compute_genpoly gmult256 gexp256 8 4 []).getD 4 0 = 1
    ∧ ∀ i, 4 < i → i < 8 → (compute_genpoly gmult256 gexp256 8 4 []).getD i 0 = 0 :=
  C6_generator_degree gf256_provider 4 8 (by decide) (by decide) []

/-- C7. Encoder equals polynomial remainder: for `N ≥ 1`, a monic generator of degree `N`
stored in `genPoly` (`genPoly[N] = 1`) and a message of `K` bytes, after `encode_data`
the polynomial `sum_{k<N} pBytes[k] x^k` is `(m(x) x^N) mod g(x)` over GF(256), where
`m(x) = sum_{i<K} msg[i] x^(K-1-i)` and `g(x) = sum_{j≤N} genPoly[j] x^j`, which is monic. -/
theorem C7_encoder_is_remainder {F : Type} [Field F] {φ : Nat → F} {α : F}
    {gmult : Nat → Nat → Nat} {gexp : Nat → Nat} (hP : FieldProvider F φ α gmult gexp)
    (NPAR : Nat) (hN : 1 ≤ NPAR) (driver : rscode_driver)
    (hp : NPAR ≤ driver.pBytes.length)
    (hg : ∀ j < NPAR, driver.genPoly.getD j 0 < 256)
    (hmonic : driver.genPoly.getD NPAR 0 = 1)
    (msg : List Nat) (hmsg : ∀ b ∈ msg, b < 256) (dst : List Nat) :
    (∑ j ∈ Finset.range (NPAR + 1),
        Polynomial.C (φ (driver.genPoly.getD j 0)) * Polynomial.X ^ j).Monic
    ∧ (∑ k ∈ Finset.range NPAR,
        Polynomial.C (φ ((encode_data gmult NPAR driver msg msg.length dst).1.pBytes.getD k 0))
          * Polynomial.X ^ k)
      = Polynomial.modByMonic
          ((∑ i ∈ Finset.range msg.length,
              Polynomial.C (φ (msg.getD i 0)) * Polynomial.X ^ (msg.length - 1 - i))
            * Polynomial.X ^ NPAR)
          (∑ j ∈ Finset.range (NPAR + 1),
            Polynomial.C (φ (driver.genPoly.getD j 0)) * Polynomial.X ^ j) := by
  rw [gen_poly_eq hP NPAR driver.genPoly hmonic,
    ← encode_lfsr_modByMonic hP NPAR hN driver.genPoly hg msg hmsg]
  refine ⟨gen_poly_monic NPAR _, ?_⟩
  apply Finset.sum_congr rfl
  intro k hk
  rw [encode_data_pBytes_eq hP NPAR hN driver hp hg msg hmsg dst k (Finset.mem_range.mp hk)]

/-- C7 at the message "hello" with the generator of `N = 4` over the concrete GF(256). -/
theorem C7_encoder_is_remainder_witness :
    (∑ j ∈ Finset.range (4 + 1),
        Polynomial.C (toGF256 ([116, 231, 216, 30, 1, 0, 0, 0].getD j 0)) * Polynomial.X ^ j).Monic
    ∧ (∑ k ∈ Finset.range 4,
        Polynomial.C (toGF256 ((encode_data gmult256 4
            ⟨[116, 231, 216, 30, 1, 0, 0, 0], [0, 0, 0, 0], []⟩
            [104, 101, 108, 108, 111] 5 (List.replicate 9 0)).1.pBytes.getD k 0))
          * Polynomial.X ^ k)
      = Polynomial.modByMonic
          ((∑ i ∈ Finset.range 5,
              Polynomial.C (toGF256 ([104, 101, 108, 108, 111].getD i 0))
                * Polynomial.X ^ (5 - 1 - i))
            * Polynomial.X ^ 4)
          (∑ j ∈ Finset.range (4 + 1),
            Polynomial.C (toGF256 ([116, 231, 216, 30, 1, 0, 0, 0].getD j 0))
              * Polynomial.X ^ j) :=
  C7_encoder_is_remainder gf256_provider 4 (by decide)
    ⟨[116, 231, 216, 30, 1, 0, 0, 0], [0, 0, 0, 0], []⟩ (by decide) (by decide) (by decide)
    [104, 101, 108, 108, 111] (by decide) (List.replicate 9 0)

/-- C8. Single-byte corruption is always detected: for `N ≥ 1`, a driver whose `genPoly`
holds the generator (byte coefficients; `x^N + sum_{k<N} genPoly[k] x^k` vanishes at
`alpha^1 .. alpha^N`, as after `initialize_ecc`), a message `M` with `len(M) + N ≤ 255`,
a position `p < len(M) + N` and a nonzero delta `d`: if byte `p` of the codeword from
`encode_data` is replaced by `byte XOR d`, then `decode_data` followed by
`check_syndrome` returns nonzero. -/
theorem C8_single_error_detected {F : Type} [Field F] {φ : Nat → F} {α : F}
    {gmult : Nat → Nat → Nat} {gexp : Nat → Nat} (hP : FieldProvider F φ α gmult gexp)
    (NPAR : Nat) (hN : 1 ≤ NPAR) (driver : rscode_driver)
    (hp : NPAR ≤ driver.pBytes.length) (hs : NPAR ≤ driver.synBytes.length)
    (hg : ∀ k < NPAR, driver.genPoly.getD k 0 < 256)
    (hgen : ∀ j, 1 ≤ j → j ≤ NPAR →
      (α ^ j) ^ NPAR + ∑ k ∈ Finset.range NPAR, φ (driver.genPoly.getD k 0) * (α ^ j) ^ k = 0)
    (msg : List Nat) (hmsg : ∀ b ∈ msg, b < 256) (hlen : msg.length + NPAR ≤ 255)
    (dst : List Nat) (hdst : dst.length = msg.length + NPAR)
    (p : Nat) (hpos : p < msg.length + NPAR) (d : Nat) (hd0 : d ≠ 0) (hd : d < 256) :
    check_syndrome NPAR (decode_data gmult gexp NPAR
        (encode_data gmult NPAR driver msg msg.length dst).1
        ((encode_data gmult NPAR driver msg msg.length dst).2.set p
          ((encode_data gmult NPAR driver msg msg.length dst).2.getD p 0 ^^^ d))
        (msg.length + NPAR)) ≠ 0 := by
  obtain ⟨c1, c2, -, -⟩ := codeword_syndromes hP NPAR hN driver hp hg hgen msg hmsg dst hdst
  intro hzero
  have hget : ∀ i, ((encode_data gmult NPAR driver msg msg.length dst).2.set p
      ((encode_data gmult NPAR driver msg msg.length dst).2.getD p 0 ^^^ d)).getD i 0
      = if p = i then (encode_data gmult NPAR driver msg msg.length dst).2.getD p 0 ^^^ d
        else (encode_data gmult NPAR driver msg msg.length dst).2.getD i 0 := by
    intro i
    rw [getD_set]
    by_cases h : p = i
    · have a1 : p = i ∧ p < (encode_data gmult NPAR driver msg msg.length dst).2.length :=
        ⟨h, by rw [c1]; exact hpos⟩
      rw [if_pos a1, if_pos h]
    · have a1 : ¬ (p = i ∧ p < (encode_data gmult NPAR driver msg msg.length dst).2.length) :=
        fun h1 => h h1.1
      rw [if_neg a1, if_neg h]
  have heq := accepted_eq_codeword hP NPAR hN driver hp hg hgen msg hmsg hlen dst hdst
    (encode_data gmult NPAR driver msg msg.length dst).1 hs _
    (by rw [List.length_set, c1])
    (by
      apply mem_lt_256_of_getD
      intro k
      rw [hget]
      split
      · exact xor_lt_256 (getD_lt_256 c2 p) hd
      · exact getD_lt_256 c2 k)
    (by
      refine le_trans (Finset.card_le_card (t := {p}) ?_) (by rw [Finset.card_singleton]; exact hN)
      intro i hi
      rw [Finset.mem_filter, hget] at hi
      rw [Finset.mem_singleton]
      by_contra hne
      have a1 : ¬ (p = i) := fun h => hne h.symm
      rw [if_neg a1] at hi
      exact hi.2 rfl)
    hzero
  have h1 := congrArg (fun l => l.getD p 0) heq
  simp only [] at h1
  rw [hget, if_pos rfl] at h1
  exact xor_ne_self hd0 h1.symm

/-- C8 at the driver of `initialize_ecc` for `N = 4`, the message "hello", byte `3`
altered by the delta `77`. -/
theorem C8_single_error_detected_witness :
    check_syndrome 4 (decode_data gmult256 gexp256 4
        (encode_data gmult256 4 (initialize_ecc gmult256 gexp256 4 8 ⟨[], [0, 0, 0, 0], [0, 0, 0, 0]⟩)
          [104, 101, 108, 108, 111] 5 (List.replicate 9 0)).1
        ((encode_data gmult256 4 (initialize_ecc gmult256 gexp256 4 8 ⟨[], [0, 0, 0, 0], [0, 0, 0, 0]⟩)
          [104, 101, 108, 108, 111] 5 (List.replicate 9 0)).2.set 3
            ((encode_data gmult256 4 (initialize_ecc gmult256 gexp256 4 8 ⟨[], [0, 0, 0, 0], [0, 0, 0, 0]⟩)
              [104, 101, 108, 108, 111] 5 (List.replicate 9 0)).2.getD 3 0 ^^^ 77))
        (5 + 4)) ≠ 0 :=
  C8_single_error_detected gf256_provider 4 (by decide) (initialize_ecc gmult256 gexp256 4 8 ⟨[], [0, 0, 0, 0], [0, 0, 0, 0]⟩) (by decide) (by decide)
    (initialize_ecc_generator gf256_provider 4 8 (by decide) (by decide) ⟨[], [0, 0, 0, 0], [0, 0, 0, 0]⟩).2.2.1 (initialize_ecc_generator gf256_provider 4 8 (by decide) (by decide) ⟨[], [0, 0, 0, 0], [0, 0, 0, 0]⟩).2.2.2
    [104, 101, 108, 108, 111] (by decide) (by decide) (List.replicate 9 0) (by decide)
    3 (by decide) 77 (by decide) (by decide)

/-- C9. Minimum-distance detection: for `N ≥ 1`, a driver whose `genPoly` holds the
generator (byte coefficients; `x^N + sum_{k<N} genPoly[k] x^k` vanishes at
`alpha^1 .. alpha^N`, as after `initialize_ecc`) and a message `M` with
`len(M) + N ≤ 255`, a word `w` of bytes that differs from the codeword of `encode_data`
in `t` positions, `1 ≤ t ≤ N`, is never accepted: `decode_data` followed by
`check_syndrome` returns nonzero. -/
theorem C9_min_distance_detection {F : Type} [Field F] {φ : Nat → F} {α : F}
    {gmult : Nat → Nat → Nat} {gexp : Nat → Nat} (hP : FieldProvider F φ α gmult gexp)
    (NPAR : Nat) (hN : 1 ≤ NPAR) (driver : rscode_driver)
    (hp : NPAR ≤ driver.pBytes.length) (hs : NPAR ≤ driver.synBytes.length)
    (hg : ∀ k < NPAR, driver.genPoly.getD k 0 < 256)
    (hgen : ∀ j, 1 ≤ j → j ≤ NPAR →
      (α ^ j) ^ NPAR + ∑ k ∈ Finset.range NPAR, φ (driver.genPoly.getD k 0) * (α ^ j) ^ k = 0)
    (msg : List Nat) (hmsg : ∀ b ∈ msg, b < 256) (hlen : msg.length + NPAR ≤ 255)
    (dst : List Nat) (hdst : dst.length = msg.length + NPAR)
    (w : List Nat) (hwlen : w.length = msg.length + NPAR) (hw : ∀ b ∈ w, b < 256)
    (ht1 : 1 ≤ (altered (encode_data gmult NPAR driver msg msg.length dst).2 w).length)
    (htN : (altered (encode_data gmult NPAR driver msg msg.length dst).2 w).length ≤ NPAR) :
    check_syndrome NPAR (decode_data gmult gexp NPAR
        (encode_data gmult NPAR driver msg msg.length dst).1 w (msg.length + NPAR)) ≠ 0 := by
  obtain ⟨c1, -, -, -⟩ := codeword_syndromes hP NPAR hN driver hp hg hgen msg hmsg dst hdst
  intro hzero
  have hcard := altered_card (encode_data gmult NPAR driver msg msg.length dst).2 w
  rw [c1] at hcard
  have heq := accepted_eq_codeword hP NPAR hN driver hp hg hgen msg hmsg hlen dst hdst
    (encode_data gmult NPAR driver msg msg.length dst).1 hs w hwlen hw
    (by rw [hcard]; exact htN) hzero
  rw [heq, altered_self] at ht1
  exact absurd ht1 (by decide)

/-- C9 at the driver of `initialize_ecc` for `N = 4`, the message "hello", and a word
with three altered bytes. -/
theorem C9_min_distance_detection_witness :
    check_syndrome 4 (decode_data gmult256 gexp256 4
        (encode_data gmult256 4 (initialize_ecc gmult256 gexp256 4 8 ⟨[], [0, 0, 0, 0], [0, 0, 0, 0]⟩)
          [104, 101, 108, 108, 111] 5 (List.replicate 9 0)).1
        [104, 0, 108, 108, 111, 231, 48, 199, 116] (5 + 4)) ≠ 0 :=
  C9_min_distance_detection gf256_provider 4 (by decide) (initialize_ecc gmult256 gexp256 4 8 ⟨[], [0, 0, 0, 0], [0, 0, 0, 0]⟩) (by decide) (by decide)
    (initialize_ecc_generator gf256_provider 4 8 (by decide) (by decide) ⟨[], [0, 0, 0, 0], [0, 0, 0, 0]⟩).2.2.1 (initialize_ecc_generator gf256_provider 4 8 (by decide) (by decide) ⟨[], [0, 0, 0, 0], [0, 0, 0, 0]⟩).2.2.2
    [104, 101, 108, 108, 111] (by decide) (by decide) (List.replicate 9 0) (by decide)
    [104, 0, 108, 108, 111, 231, 48, 199, 116] (by decide) (by decide) (by decide!) (by decide!)

/-- C10. Zero syndrome characterises codewords: for `N ≥ 1`, a driver whose `genPoly`
holds the generator (byte coefficients; `x^N + sum_{k<N} genPoly[k] x^k` vanishes at
`alpha^1 .. alpha^N`, as after `initialize_ecc`) and a received word `w` of
`K + N ≤ 255` bytes, the syndrome computed by `decode_data` is all zero
(`check_syndrome` returns `0`) if and only if `w` is the codeword that `encode_data`
produces for the first `K` bytes of `w`. -/
theorem C10_zero_syndrome_iff_codeword {F : Type} [Field F] {φ : Nat → F} {α : F}
    {gmult : Nat → Nat → Nat} {gexp : Nat → Nat} (hP : FieldProvider F φ α gmult gexp)
    (NPAR : Nat) (hN : 1 ≤ NPAR) (driver : rscode_driver)
    (hp : NPAR ≤ driver.pBytes.length) (hs : NPAR ≤ driver.synBytes.length)
    (hg : ∀ k < NPAR, driver.genPoly.getD k 0 < 256)
    (hgen : ∀ j, 1 ≤ j → j ≤ NPAR →
      (α ^ j) ^ NPAR + ∑ k ∈ Finset.range NPAR, φ (driver.genPoly.getD k 0) * (α ^ j) ^ k = 0)
    (w : List Nat) (hw : ∀ b ∈ w, b < 256) (K : Nat) (hK : w.length = K + NPAR)
    (hlen : K + NPAR ≤ 255) (dst : List Nat) (hdst : dst.length = K + NPAR) :
    check_syndrome NPAR (decode_data gmult gexp NPAR driver w (K + NPAR)) = 0
      ↔ (encode_data gmult NPAR driver (w.take K) K dst).2 = w := by
  have hKlen : (w.take K).length = K := by
    rw [List.length_take]
    omega
  have hmsg : ∀ b ∈ w.take K, b < 256 := fun b hb => hw b (List.mem_of_mem_take hb)
  have c := codeword_syndromes hP NPAR hN driver hp hg hgen (w.take K) hmsg dst
    (by rw [hKlen]; exact hdst)
  have acc := codeword_accepted hP NPAR hN driver hp hg hgen (w.take K) hmsg dst
    (by rw [hKlen]; exact hdst) driver hs
  have rej := accepted_eq_codeword hP NPAR hN driver hp hg hgen (w.take K) hmsg
    (by rw [hKlen]; exact hlen) dst (by rw [hKlen]; exact hdst)
    driver hs w (by rw [hKlen]; exact hK) hw
  rw [hKlen] at c acc rej
  obtain ⟨-, -, c3, -⟩ := c
  constructor
  · intro hzero
    apply rej _ hzero
    refine le_trans (Finset.card_le_card (t := Finset.Ico K (K + NPAR)) ?_) (by simp)
    intro i hi
    rw [Finset.mem_filter, Finset.mem_range] at hi
    rw [Finset.mem_Ico]
    refine ⟨?_, hi.1⟩
    by_contra hlt
    have hlt2 : i < K := by omega
    exact hi.2 (by rw [c3 i hlt2, getD_take w K i hlt2])
  · intro heq
    rw [check_syndrome_eq_zero]
    intro j hj
    have h := acc j hj
    rwa [heq] at h

/-- C10 at the driver of `initialize_ecc` for `N = 4` and the codeword of "hello",
`K = 5`, over the concrete GF(256). -/
theorem C10_zero_syndrome_iff_codeword_witness :
    check_syndrome 4 (decode_data gmult256 gexp256 4 (initialize_ecc gmult256 gexp256 4 8 ⟨[], [0, 0, 0, 0], [0, 0, 0, 0]⟩)
        [104, 101, 108, 108, 111, 231, 47, 199, 117] (5 + 4)) = 0
      ↔ (encode_data gmult256 4 (initialize_ecc gmult256 gexp256 4 8 ⟨[], [0, 0, 0, 0], [0, 0, 0, 0]⟩)
          ([104, 101, 108, 108, 111, 231, 47, 199, 117].take 5) 5 (List.replicate 9 0)).2
        = [104, 101, 108, 108, 111, 231, 47, 199, 117] :=
  C10_zero_syndrome_iff_codeword gf256_provider 4 (by decide) (initialize_ecc gmult256 gexp256 4 8 ⟨[], [0, 0, 0, 0], [0, 0, 0, 0]⟩) (by decide) (by decide)
    (initialize_ecc_generator gf256_provider 4 8 (by decide) (by decide) ⟨[], [0, 0, 0, 0], [0, 0, 0, 0]⟩).2.2.1 (initialize_ecc_generator gf256_provider 4 8 (by decide) (by decide) ⟨[], [0, 0, 0, 0], [0, 0, 0, 0]⟩).2.2.2
    [104, 101, 108, 108, 111, 231, 47, 199, 117] (by decide) 5 (by decide) (by decide)
    (List.replicate 9 0) (by decide)

/-- C11 as stated fails on the code. With `N = 4` and the message of `252` bytes that is
`247` zero bytes followed by "hello" (`252 + 4 > 255`), `encode_data` returns normally, the
cached `pBytes` `[0, 0, 0, 0]` become the parity `[117, 199, 47, 231]`, and the parity is
written to the cells `252 .. 255` of the destination. The function has no result that
could report a failure: the C function is `void`. -/
theorem C11_over_length_counterexample :
    255 < (List.replicate 247 0 ++ [104, 101, 108, 108, 111]).length + 4
    ∧ (encode_data gmult256 4 ⟨[116, 231, 216, 30, 1, 0, 0, 0], [0, 0, 0, 0], [0, 0, 0, 0]⟩
        (List.replicate 247 0 ++ [104, 101, 108, 108, 111]) 252
        (List.replicate 256 0)).1.pBytes = [117, 199, 47, 231]
    ∧ (encode_data gmult256 4 ⟨[116, 231, 216, 30, 1, 0, 0, 0], [0, 0, 0, 0], [0, 0, 0, 0]⟩
        (List.replicate 247 0 ++ [104, 101, 108, 108, 111]) 252
        (List.replicate 256 0)).1.pBytes
      ≠ (⟨[116, 231, 216, 30, 1, 0, 0, 0], [0, 0, 0, 0], [0, 0, 0, 0]⟩ : rscode_driver).pBytes
    ∧ (encode_data gmult256 4 ⟨[116, 231, 216, 30, 1, 0, 0, 0], [0, 0, 0, 0], [0, 0, 0, 0]⟩
        (List.replicate 247 0 ++ [104, 101, 108, 108, 111]) 252
        (List.replicate 256 0)).2.getD 251 0 = 111
    ∧ (encode_data gmult256 4 ⟨[116, 231, 216, 30, 1, 0, 0, 0], [0, 0, 0, 0], [0, 0, 0, 0]⟩
        (List.replicate 247 0 ++ [104, 101, 108, 108, 111]) 252
        (List.replicate 256 0)).2.getD 252 0 = 231
    ∧ (encode_data gmult256 4 ⟨[116, 231, 216, 30, 1, 0, 0, 0], [0, 0, 0, 0], [0, 0, 0, 0]⟩
        (List.replicate 247 0 ++ [104, 101, 108, 108, 111]) 252
        (List.replicate 256 0)).2.getD 255 0 = 117 := by
  have hl : (List.replicate 247 0 ++ [104, 101, 108, 108, 111]).length = 252 := by
    rw [List.length_append, List.length_replicate]
    rfl
  have hr := encode_lfsr_leading_zeros gmult256 gmult256_zero_right 4
    [116, 231, 216, 30, 1, 0, 0, 0] [104, 101, 108, 108, 111] 247
  rw [hl] at hr
  have hp : (encode_data gmult256 4
      ⟨[116, 231, 216, 30, 1, 0, 0, 0], [0, 0, 0, 0], [0, 0, 0, 0]⟩
      (List.replicate 247 0 ++ [104, 101, 108, 108, 111]) 252
      (List.replicate 256 0)).1.pBytes = [117, 199, 47, 231] := by
    rw [encode_data_pBytes]
    simp only []
    rw [hr]
    decide
  have hd : ∀ k, (encode_data gmult256 4
      ⟨[116, 231, 216, 30, 1, 0, 0, 0], [0, 0, 0, 0], [0, 0, 0, 0]⟩
      (List.replicate 247 0 ++ [104, 101, 108, 108, 111]) 252
      (List.replicate 256 0)).2.getD k 0
      = if 252 ≤ k ∧ k < 252 + 4 ∧ k < 256
        then [117, 199, 47, 231].getD (4 - 1 - (k - 252)) 0
        else if k < 252 ∧ k < 256
          then (List.replicate 247 0 ++ [104, 101, 108, 108, 111]).getD k 0
          else (List.replicate 256 0).getD k 0 := by
    intro k
    rw [encode_data_snd, build_codeword_getD, hp, List.length_replicate]
  refine ⟨by rw [hl]; decide, hp, by rw [hp]; decide, ?_, ?_, ?_⟩
  · rw [hd, if_neg (by decide), if_pos (by decide)]
    rw [List.getD_append_right _ _ _ _ (by rw [List.length_replicate]; decide),
      List.length_replicate]
    rfl
  · rw [hd, if_pos (by decide)]
    rfl
  · rw [hd, if_pos (by decide)]
    rfl

/-- C11, as the code has it: `encode_data` has no failure path and does not look at the
length. For `N ≥ 1`, a driver that holds the generator and a message of bytes with
`K + N > 255`, it stores the register cells `0 .. N-1` in `pBytes`, writes a codeword of
`K + N > 255` bytes (the message, then `pBytes` reversed), and that codeword passes
`decode_data` and `check_syndrome`. The bound `K + N ≤ 255` is a precondition that the
caller has to keep. -/
theorem C11_over_length_encoded {F : Type} [Field F] {φ : Nat → F} {α : F}
    {gmult : Nat → Nat → Nat} {gexp : Nat → Nat} (hP : FieldProvider F φ α gmult gexp)
    (NPAR : Nat) (hN : 1 ≤ NPAR) (driver : rscode_driver)
    (hp : NPAR ≤ driver.pBytes.length)
    (hg : ∀ k < NPAR, driver.genPoly.getD k 0 < 256)
    (hgen : ∀ j, 1 ≤ j → j ≤ NPAR →
      (α ^ j) ^ NPAR + ∑ k ∈ Finset.range NPAR, φ (driver.genPoly.getD k 0) * (α ^ j) ^ k = 0)
    (msg : List Nat) (hmsg : ∀ b ∈ msg, b < 256) (hover : 255 < msg.length + NPAR)
    (dst : List Nat) (hdst : dst.length = msg.length + NPAR)
    (d : rscode_driver) (hs : NPAR ≤ d.synBytes.length) :
    (∀ k < NPAR, (encode_data gmult NPAR driver msg msg.length dst).1.pBytes.getD k 0
        = (encode_lfsr gmult NPAR driver.genPoly msg msg.length).getD k 0)
    ∧ 255 < (encode_data gmult NPAR driver msg msg.length dst).2.length
    ∧ (∀ i < msg.length, (encode_data gmult NPAR driver msg msg.length dst).2.getD i 0
        = msg.getD i 0)
    ∧ (∀ i < NPAR, (encode_data gmult NPAR driver msg msg.length dst).2.getD (msg.length + i) 0
        = (encode_data gmult NPAR driver msg msg.length dst).1.pBytes.getD (NPAR - 1 - i) 0)
    ∧ check_syndrome NPAR (decode_data gmult gexp NPAR d
        (encode_data gmult NPAR driver msg msg.length dst).2 (msg.length + NPAR)) = 0 := by
  have hlen : (encode_data gmult NPAR driver msg msg.length dst).2.length
      = msg.length + NPAR := by
    rw [encode_data_snd, build_codeword_length, hdst]
  refine ⟨fun k hk => encode_data_pBytes_eq hP NPAR hN driver hp hg msg hmsg dst k hk,
    by rw [hlen]; exact hover, ?_, ?_, ?_⟩
  · intro i hi
    rw [encode_data_snd, build_codeword_getD, if_neg (by omega), if_pos ⟨hi, by omega⟩]
  · intro i hi
    rw [encode_data_snd, build_codeword_getD, if_pos ⟨by omega, by omega, by omega⟩,
      Nat.add_sub_cancel_left]
  · exact (check_syndrome_eq_zero _ _).mpr
      (codeword_accepted hP NPAR hN driver hp hg hgen msg hmsg dst hdst d hs)

/-- C11 as amended, at `N = 4`, the configuration set up by `initialize_ecc` and the
message of `252` bytes that is `247` zero bytes followed by "hello". -/
theorem C11_over_length_encoded_witness :
    255 < (List.replicate 247 0 ++ [104, 101, 108, 108, 111]).length + 4
    ∧ 255 < (encode_data gmult256 4
        (initialize_ecc gmult256 gexp256 4 8 ⟨[], [0, 0, 0, 0], [0, 0, 0, 0]⟩)
        (List.replicate 247 0 ++ [104, 101, 108, 108, 111])
        (List.replicate 247 0 ++ [104, 101, 108, 108, 111]).length
        (List.replicate 256 0)).2.length
    ∧ check_syndrome 4 (decode_data gmult256 gexp256 4 ⟨[], [], [0, 0, 0, 0]⟩
        (encode_data gmult256 4
          (initialize_ecc gmult256 gexp256 4 8 ⟨[], [0, 0, 0, 0], [0, 0, 0, 0]⟩)
          (List.replicate 247 0 ++ [104, 101, 108, 108, 111])
          (List.replicate 247 0 ++ [104, 101, 108, 108, 111]).length
          (List.replicate 256 0)).2
        ((List.replicate 247 0 ++ [104, 101, 108, 108, 111]).length + 4)) = 0 := by
  have hl : (List.replicate 247 0 ++ [104, 101, 108, 108, 111]).length = 252 := by
    rw [List.length_append, List.length_replicate]
    rfl
  have hover : 255 < (List.replicate 247 0 ++ [104, 101, 108, 108, 111]).length + 4 := by
    rw [hl]
    decide
  have hmsg : ∀ b ∈ List.replicate 247 0 ++ [104, 101, 108, 108, 111], b < 256 := by
    intro b hb
    rw [List.mem_append] at hb
    rcases hb with hb | hb
    · rw [(List.mem_replicate.mp hb).2]
      decide
    · revert b
      decide
  have h := C11_over_length_encoded gf256_provider 4 (by decide)
    (initialize_ecc gmult256 gexp256 4 8 ⟨[], [0, 0, 0, 0], [0, 0, 0, 0]⟩)
    (by decide)
    (initialize_ecc_generator gf256_provider 4 8 (by decide) (by decide) _).2.2.1
    (initialize_ecc_generator gf256_provider 4 8 (by decide) (by decide) _).2.2.2
    (List.replicate 247 0 ++ [104, 101, 108, 108, 111]) hmsg hover
    (List.replicate 256 0) (by rw [hl, List.length_replicate]) ⟨[], [], [0, 0, 0, 0]⟩
    (by decide)
  exact ⟨hover, h.2.1, h.2.2.2.2⟩

/-- C12 as stated fails on the code. `initialize_ecc` with `N = 0` returns normally and
leaves the driver as it was; with `N = 255 > 254` (and room for `256` coefficients) it
returns normally with a generator polynomial cached: `genPoly` has `256` byte
coefficients and the leading one, at index `255`, is `1`. The function has no result that
could signal an error: the C function is `void`. -/
theorem C12_invalid_parity_count_counterexample :
    initialize_ecc gmult256 gexp256 0 8 ⟨[7, 7], [], []⟩ = ⟨[7, 7], [], []⟩
    ∧ 254 < 255
    ∧ (initialize_ecc gmult256 gexp256 255 256 ⟨[], [], []⟩).genPoly.length = 256
    ∧ (initialize_ecc gmult256 gexp256 255 256 ⟨[], [], []⟩).genPoly.getD 255 0 = 1
    ∧ (initialize_ecc gmult256 gexp256 255 256 ⟨[], [], []⟩).genPoly
      ≠ (⟨[], [], []⟩ : rscode_driver).genPoly := by
  have h1 := (compute_genpoly_spec gf256_provider 256 255 (by decide) (by decide) []).1
  have h2 := (compute_genpoly_monic gf256_provider 256 255 (by decide) (by decide) []).1
  refine ⟨rfl, by decide, h1, h2, ?_⟩
  intro h
  have h3 : (initialize_ecc gmult256 gexp256 255 256 ⟨[], [], []⟩).genPoly.length = 256 := h1
  rw [h] at h3
  exact absurd h3 (by decide)

/-- C12, as the code has it: `initialize_ecc` has no failure path and does not look at
`N`. With `N = 0` it returns the driver as it was. With `N > 254` and room for `N + 1`
coefficients it builds and caches the generator as for any `N ≥ 1`: `maxdeg` byte
coefficients, the one at index `N` is `1`, and `alpha^1, ..., alpha^N` are roots;
`pBytes` and `synBytes` are not touched. The range `1 ≤ N ≤ 254` is a precondition that
the caller has to keep. -/
theorem C12_invalid_parity_count_accepted {F : Type} [Field F] {φ : Nat → F} {α : F}
    {gmult : Nat → Nat → Nat} {gexp : Nat → Nat} (hP : FieldProvider F φ α gmult gexp)
    (NPAR maxdeg : Nat) (hbig : 254 < NPAR) (hcap : NPAR + 1 ≤ maxdeg)
    (driver : rscode_driver) :
    initialize_ecc gmult gexp 0 maxdeg driver = driver
    ∧ (initialize_ecc gmult gexp NPAR maxdeg driver).genPoly.length = maxdeg
    ∧ (initialize_ecc gmult gexp NPAR maxdeg driver).genPoly.getD NPAR 0 = 1
    ∧ (∀ k, (initialize_ecc gmult gexp NPAR maxdeg driver).genPoly.getD k 0 < 256)
    ∧ (∀ j, 1 ≤ j → j ≤ NPAR →
        (α ^ j) ^ NPAR + ∑ k ∈ Finset.range NPAR,
          φ ((initialize_ecc gmult gexp NPAR maxdeg driver).genPoly.getD k 0) * (α ^ j) ^ k
        = 0)
    ∧ (initialize_ecc gmult gexp NPAR maxdeg driver).pBytes = driver.pBytes
    ∧ (initialize_ecc gmult gexp NPAR maxdeg driver).synBytes = driver.synBytes := by
  have hN : 1 ≤ NPAR := by omega
  obtain ⟨h1, h2, -⟩ := compute_genpoly_spec hP maxdeg NPAR hN hcap driver.genPoly
  obtain ⟨h4, -⟩ := compute_genpoly_monic hP maxdeg NPAR hN hcap driver.genPoly
  obtain ⟨g1, g2, -, g4⟩ := initialize_ecc_generator hP NPAR maxdeg hN hcap driver
  exact ⟨initialize_ecc_zero gmult gexp maxdeg driver, h1, h4, h2, g4, g1, g2⟩

/-- C12 as amended, at `N = 255` with room for `256` coefficients, over the concrete
GF(256). -/
theorem C12_invalid_parity_count_accepted_witness :
    254 < 255 ∧ 255 + 1 ≤ 256
    ∧ (initialize_ecc gmult256 gexp256 255 256 ⟨[], [0], [0]⟩).genPoly.length = 256
    ∧ (initialize_ecc gmult256 gexp256 255 256 ⟨[], [0], [0]⟩).genPoly.getD 255 0 = 1 :=
  ⟨by decide, by decide,
    (C12_invalid_parity_count_accepted gf256_provider 255 256 (by decide) (by decide)
      ⟨[], [0], [0]⟩).2.1,
    (C12_invalid_parity_count_accepted gf256_provider 255 256 (by decide) (by decide)
      ⟨[], [0], [0]⟩).2.2.1⟩

/-- C13. Determinism of encode: two configurations initialised with the same `N ≥ 1` by
`initialize_ecc`, whatever their prior contents (stale `genPoly`, `pBytes`, `synBytes`),
hold the same generator polynomial, and for the same message `encode_data` produces
identical `pBytes[0 .. N-1]` and identical codewords, whatever the destination buffers
held; more generally the result depends only on the message, on `N` and on the generator
coefficients `genPoly[0 .. N-1]`. This holds for every `gmult` and `gexp`. -/
theorem C13_encode_deterministic (gmult : Nat → Nat → Nat) (gexp : Nat → Nat)
    (NPAR maxdeg : Nat) (hN : 1 ≤ NPAR) (d d1 : rscode_driver)
    (hp : NPAR ≤ d.pBytes.length) (hp1 : NPAR ≤ d1.pBytes.length)
    (msg dst dst1 : List Nat) (hdst : dst.length = msg.length + NPAR)
    (hdst1 : dst1.length = msg.length + NPAR) :
    (initialize_ecc gmult gexp NPAR maxdeg d).genPoly
        = (initialize_ecc gmult gexp NPAR maxdeg d1).genPoly
    ∧ (∀ k < NPAR,
        (encode_data gmult NPAR (initialize_ecc gmult gexp NPAR maxdeg d)
          msg msg.length dst).1.pBytes.getD k 0
        = (encode_data gmult NPAR (initialize_ecc gmult gexp NPAR maxdeg d1)
          msg msg.length dst1).1.pBytes.getD k 0)
    ∧ (encode_data gmult NPAR (initialize_ecc gmult gexp NPAR maxdeg d) msg msg.length dst).2
        = (encode_data gmult NPAR (initialize_ecc gmult gexp NPAR maxdeg d1)
            msg msg.length dst1).2
    ∧ ((∀ k < NPAR, d.genPoly.getD k 0 = d1.genPoly.getD k 0) →
        (∀ k < NPAR, (encode_data gmult NPAR d msg msg.length dst).1.pBytes.getD k 0
          = (encode_data gmult NPAR d1 msg msg.length dst1).1.pBytes.getD k 0)
        ∧ (encode_data gmult NPAR d msg msg.length dst).2
          = (encode_data gmult NPAR d1 msg msg.length dst1).2) := by
  have hgen : (initialize_ecc gmult gexp NPAR maxdeg d).genPoly
      = (initialize_ecc gmult gexp NPAR maxdeg d1).genPoly :=
    compute_genpoly_indep gmult gexp maxdeg NPAR hN d.genPoly d1.genPoly
  have h := encode_data_congr gmult NPAR hN (initialize_ecc gmult gexp NPAR maxdeg d)
    (initialize_ecc gmult gexp NPAR maxdeg d1) (fun k _ => by rw [hgen]) hp hp1
    msg dst dst1 hdst hdst1
  exact ⟨hgen, h.1, h.2,
    fun hg => encode_data_congr gmult NPAR hN d d1 hg hp hp1 msg dst dst1 hdst hdst1⟩

/-- C13 at two drivers with different stale contents, `N = 4`, the message "hello". -/
theorem C13_encode_deterministic_witness :
    (initialize_ecc gmult256 gexp256 4 8 ⟨[], [0, 0, 0, 0], []⟩).genPoly
        = (initialize_ecc gmult256 gexp256 4 8 ⟨[7, 7, 7], [1, 2, 3, 4, 5], [9]⟩).genPoly
    ∧ (∀ k < 4,
        (encode_data gmult256 4 (initialize_ecc gmult256 gexp256 4 8 ⟨[], [0, 0, 0, 0], []⟩)
          [104, 101, 108, 108, 111] 5 (List.replicate 9 0)).1.pBytes.getD k 0
        = (encode_data gmult256 4
            (initialize_ecc gmult256 gexp256 4 8 ⟨[7, 7, 7], [1, 2, 3, 4, 5], [9]⟩)
          [104, 101, 108, 108, 111] 5 (List.replicate 9 5)).1.pBytes.getD k 0)
    ∧ (encode_data gmult256 4 (initialize_ecc gmult256 gexp256 4 8 ⟨[], [0, 0, 0, 0], []⟩)
          [104, 101, 108, 108, 111] 5 (List.replicate 9 0)).2
        = (encode_data gmult256 4
            (initialize_ecc gmult256 gexp256 4 8 ⟨[7, 7, 7], [1, 2, 3, 4, 5], [9]⟩)
            [104, 101, 108, 108, 111] 5 (List.replicate 9 5)).2 :=
  have h := C13_encode_deterministic gmult256 gexp256 4 8 (by decide)
    ⟨[], [0, 0, 0, 0], []⟩ ⟨[7, 7, 7], [1, 2, 3, 4, 5], [9]⟩ (by decide) (by decide)
    [104, 101, 108, 108, 111] (List.replicate 9 0) (List.replicate 9 5) (by decide) (by decide)
  ⟨h.1, h.2.1, h.2.2.1⟩

/-- C14. Frame: on the configuration state `{N, genPoly, pBytes, synBytes}`, `encode_data`
changes only `pBytes` (and there only the cells `0 .. N-1`; `genPoly` and `synBytes` are
unchanged), `decode_data` changes only `synBytes` (and there only the cells `0 .. N-1`;
`genPoly` and `pBytes` are unchanged), so the generator polynomial left by
`initialize_ecc` is still in place after any `encode_data` and `decode_data`.
`check_syndrome` and `build_codeword` write no field of the driver in `rs.c`; in the
embedding they return only their result (the flag, the destination buffer). `N` is the
macro `NPAR`, a parameter that no function can change. -/
theorem C14_frame (gmult : Nat → Nat → Nat) (gexp : Nat → Nat) (NPAR maxdeg : Nat)
    (driver : rscode_driver) (msg : List Nat) (nbytes : Nat) (dst data : List Nat)
    (ndata : Nat) :
    ((encode_data gmult NPAR driver msg nbytes dst).1.genPoly = driver.genPoly
      ∧ (encode_data gmult NPAR driver msg nbytes dst).1.synBytes = driver.synBytes
      ∧ (encode_data gmult NPAR driver msg nbytes dst).1.pBytes.length = driver.pBytes.length
      ∧ ∀ k, NPAR ≤ k →
          (encode_data gmult NPAR driver msg nbytes dst).1.pBytes.getD k 0
            = driver.pBytes.getD k 0)
    ∧ ((decode_data gmult gexp NPAR driver data ndata).genPoly = driver.genPoly
      ∧ (decode_data gmult gexp NPAR driver data ndata).pBytes = driver.pBytes
      ∧ (decode_data gmult gexp NPAR driver data ndata).synBytes.length
          = driver.synBytes.length
      ∧ ∀ k, NPAR ≤ k →
          (decode_data gmult gexp NPAR driver data ndata).synBytes.getD k 0
            = driver.synBytes.getD k 0)
    ∧ (decode_data gmult gexp NPAR
        (encode_data gmult NPAR (initialize_ecc gmult gexp NPAR maxdeg driver)
          msg nbytes dst).1 data ndata).genPoly
      = (initialize_ecc gmult gexp NPAR maxdeg driver).genPoly := by
  refine ⟨⟨rfl, rfl, ?_, ?_⟩, ⟨rfl, rfl, ?_, ?_⟩, rfl⟩
  · unfold encode_data
    exact foldl_set0_length _ _ _
  · intro k hk
    have h : ¬ (k < NPAR ∧ k < driver.pBytes.length) := by omega
    rw [encode_data_pBytes_getD, if_neg h]
  · unfold decode_data
    exact foldl_set0_length _ _ _
  · intro k hk
    have h : ¬ (k < NPAR ∧ k < driver.synBytes.length) := by omega
    rw [decode_data_synBytes_getD, if_neg h]

/-- C15 as stated fails on the code. With `N = 4`, the generator of `N = 4` and the message
`[104, 101]`: the register has `4 + 1` cells, and when the second byte is read the
feedback is not the byte XOR the highest cell `LFSR[4]` of the register (cell `0` is not
`gmult(genPoly[0], 101 XOR LFSR[4])`), and the top cell `LFSR[4]` is not set to
`LFSR[3] XOR gmult(genPoly[4], feedback)`: it stays `0`. -/
theorem C15_lfsr_step_counterexample :
    (encode_lfsr gmult256 4 [116, 231, 216, 30, 1, 0, 0, 0] [104, 101] 1).length = 4 + 1
    ∧ (encode_lfsr gmult256 4 [116, 231, 216, 30, 1, 0, 0, 0] [104, 101] 2).getD 0 0
        ≠ gmult256 116
            (101 ^^^ (encode_lfsr gmult256 4 [116, 231, 216, 30, 1, 0, 0, 0] [104, 101] 1).getD 4 0)
    ∧ (encode_lfsr gmult256 4 [116, 231, 216, 30, 1, 0, 0, 0] [104, 101] 2).getD 4 0
        ≠ (encode_lfsr gmult256 4 [116, 231, 216, 30, 1, 0, 0, 0] [104, 101] 1).getD 3 0
          ^^^ gmult256 1
            (101 ^^^ (encode_lfsr gmult256 4 [116, 231, 216, 30, 1, 0, 0, 0] [104, 101] 1).getD 4 0)
    ∧ (encode_lfsr gmult256 4 [116, 231, 216, 30, 1, 0, 0, 0] [104, 101] 2).getD 0 0
        = gmult256 116
            (101 ^^^ (encode_lfsr gmult256 4 [116, 231, 216, 30, 1, 0, 0, 0] [104, 101] 1).getD 3 0)
    ∧ (encode_lfsr gmult256 4 [116, 231, 216, 30, 1, 0, 0, 0] [104, 101] 2).getD 4 0 = 0 := by
  decide!

/-- C15, as the code has it. LFSR step: `encode_data` allocates `N + 1` register cells initialised
to zero and uses the cells `0 .. N-1`; for each message byte in order the feedback value
is the byte XOR the cell `N-1`, then each cell `j` from `N-1` down to `1` is set to
`cell[j-1] XOR gmult(genPoly[j], feedback)` and cell `0` to `gmult(genPoly[0], feedback)`.
The cell `N` is never read or written and stays zero. -/
theorem C15_lfsr_step (gmult : Nat → Nat → Nat) (NPAR : Nat) (hN : 1 ≤ NPAR)
    (genPoly msg : List Nat) :
    encode_lfsr gmult NPAR genPoly msg 0 = List.replicate (NPAR + 1) 0
    ∧ (∀ i, encode_lfsr gmult NPAR genPoly msg (i + 1)
        = lfsr_step gmult NPAR genPoly (encode_lfsr gmult NPAR genPoly msg i) (msg.getD i 0))
    ∧ (∀ LFSR byte, LFSR.length = NPAR + 1 →
        (lfsr_step gmult NPAR genPoly LFSR byte).length = NPAR + 1
        ∧ (lfsr_step gmult NPAR genPoly LFSR byte).getD 0 0
            = gmult (genPoly.getD 0 0) (byte ^^^ LFSR.getD (NPAR - 1) 0)
        ∧ (∀ j, 1 ≤ j → j ≤ NPAR - 1 →
            (lfsr_step gmult NPAR genPoly LFSR byte).getD j 0
              = LFSR.getD (j - 1) 0
                ^^^ gmult (genPoly.getD j 0) (byte ^^^ LFSR.getD (NPAR - 1) 0))
        ∧ (lfsr_step gmult NPAR genPoly LFSR byte).getD NPAR 0 = LFSR.getD NPAR 0)
    ∧ (∀ i, (encode_lfsr gmult NPAR genPoly msg i).getD NPAR 0 = 0) := by
  have hstep : ∀ LFSR byte, LFSR.length = NPAR + 1 →
      (lfsr_step gmult NPAR genPoly LFSR byte).getD NPAR 0 = LFSR.getD NPAR 0 := by
    intro LFSR byte hlen
    have a1 : ¬ (NPAR = 0) := by omega
    have a2 : ¬ (NPAR ≤ NPAR - 1) := by omega
    rw [lfsr_step_getD gmult NPAR genPoly LFSR byte hlen, if_neg a1, if_neg a2]
  refine ⟨rfl, encode_lfsr_succ gmult NPAR genPoly msg, ?_, ?_⟩
  · intro LFSR byte hlen
    refine ⟨by rw [lfsr_step_length, hlen], ?_, ?_, hstep LFSR byte hlen⟩
    · rw [lfsr_step_getD gmult NPAR genPoly LFSR byte hlen, if_pos rfl]
    · intro j hj1 hj2
      have a1 : ¬ (j = 0) := by omega
      rw [lfsr_step_getD gmult NPAR genPoly LFSR byte hlen, if_neg a1, if_pos hj2]
  · intro i
    induction i with
    | zero =>
      have h : encode_lfsr gmult NPAR genPoly msg 0 = List.replicate (NPAR + 1) 0 := rfl
      rw [h, getD_replicate_zero]
    | succ i ih =>
      rw [encode_lfsr_succ, hstep _ _ (encode_lfsr_length gmult NPAR genPoly msg i), ih]

/-- C15 as amended, at `N = 4`, the generator of `N = 4` and the message "hello", over the
concrete GF(256). -/
theorem C15_lfsr_step_witness :
    1 ≤ 4
    ∧ (∀ i, (encode_lfsr gmult256 4 [116, 231, 216, 30, 1, 0, 0, 0]
        [104, 101, 108, 108, 111] i).getD 4 0 = 0) :=
  ⟨by decide, (C15_lfsr_step gmult256 4 (by decide) [116, 231, 216, 30, 1, 0, 0, 0]
    [104, 101, 108, 108, 111]).2.2.2⟩

/-- C16. `N = 1` boundary: for `N = 1`, a driver with `genPoly[0] = gexp 1 = alpha^1` (as
after `initialize_ecc`) and a message `msg` of `K` bytes, `encode_data` produces exactly
one parity byte `p_K`, where `p_0 = 0` and `p_(i+1) = gmult(alpha^1, msg[i] XOR p_i)`, and
the codeword is `msg` followed by that single byte. -/
theorem C16_single_parity_byte {F : Type} [Field F] {φ : Nat → F} {α : F}
    {gmult : Nat → Nat → Nat} {gexp : Nat → Nat} (hP : FieldProvider F φ α gmult gexp)
    (driver : rscode_driver) (hp : 1 ≤ driver.pBytes.length)
    (hg0 : driver.genPoly.getD 0 0 = gexp 1)
    (msg : List Nat) (hmsg : ∀ b ∈ msg, b < 256)
    (dst : List Nat) (hdst : dst.length = msg.length + 1) :
    φ (driver.genPoly.getD 0 0) = α ^ 1
    ∧ (encode_data gmult 1 driver msg msg.length dst).1.pBytes.getD 0 0
        = msg.foldl (fun p b => gmult (gexp 1) (b ^^^ p)) 0
    ∧ (encode_data gmult 1 driver msg msg.length dst).2
        = msg ++ [msg.foldl (fun p b => gmult (gexp 1) (b ^^^ p)) 0] := by
  have hlt := foldl_parity_lt hP (gexp 1) (hP.gexp_lt 1 (Nat.le_refl 1)) msg hmsg 0
    (Nat.zero_lt_succ _)
  have hpb : (encode_data gmult 1 driver msg msg.length dst).1.pBytes.getD 0 0
      = msg.foldl (fun p b => gmult (gexp 1) (b ^^^ p)) 0 := by
    have a1 : 0 < 1 ∧ 0 < driver.pBytes.length := ⟨Nat.zero_lt_one, by omega⟩
    rw [encode_data_pBytes_getD, if_pos a1, encode_lfsr_one, hg0]
    exact Nat.mod_eq_of_lt hlt
  refine ⟨by rw [hg0, hP.map_gexp 1 (Nat.le_refl 1)], hpb, ?_⟩
  apply ext_getD
  · rw [encode_data_snd, build_codeword_length, hdst, List.length_append, List.length_singleton]
  · intro k
    rw [encode_data_snd, build_codeword_getD, hdst]
    by_cases h1 : k < msg.length
    · have a1 : ¬ (msg.length ≤ k ∧ k < msg.length + 1 ∧ k < msg.length + 1) := by omega
      have a2 : k < msg.length ∧ k < msg.length + 1 := ⟨h1, by omega⟩
      rw [if_neg a1, if_pos a2]
      simp [List.getD_eq_getElem?_getD, List.getElem?_append_left h1]
    · by_cases h2 : k = msg.length
      · have a1 : msg.length ≤ k ∧ k < msg.length + 1 ∧ k < msg.length + 1 := by omega
        have a3 : 1 - 1 - (k - msg.length) = 0 := by omega
        rw [if_pos a1, a3, hpb, h2]
        simp [List.getD_eq_getElem?_getD]
      · have a1 : ¬ (msg.length ≤ k ∧ k < msg.length + 1 ∧ k < msg.length + 1) := by omega
        have a2 : ¬ (k < msg.length ∧ k < msg.length + 1) := by omega
        rw [if_neg a1, if_neg a2, getD_of_length_le dst k (by omega),
          getD_of_length_le _ k (by rw [List.length_append, List.length_singleton]; omega)]

/-- C16 at the driver of `initialize_ecc` for `N = 1` and the message "hello", over the
concrete GF(256). -/
theorem C16_single_parity_byte_witness :
    toGF256 ((initialize_ecc gmult256 gexp256 1 8 ⟨[], [0], []⟩).genPoly.getD 0 0)
        = toGF256 2 ^ 1
    ∧ (encode_data gmult256 1 (initialize_ecc gmult256 gexp256 1 8 ⟨[], [0], []⟩)
        [104, 101, 108, 108, 111] 5 (List.replicate 6 0)).1.pBytes.getD 0 0
        = [104, 101, 108, 108, 111].foldl (fun p b => gmult256 (gexp256 1) (b ^^^ p)) 0
    ∧ (encode_data gmult256 1 (initialize_ecc gmult256 gexp256 1 8 ⟨[], [0], []⟩)
        [104, 101, 108, 108, 111] 5 (List.replicate 6 0)).2
        = [104, 101, 108, 108, 111]
          ++ [[104, 101, 108, 108, 111].foldl (fun p b => gmult256 (gexp256 1) (b ^^^ p)) 0] :=
  C16_single_parity_byte gf256_provider (initialize_ecc gmult256 gexp256 1 8 ⟨[], [0], []⟩)
    (by decide) (compute_genpoly_one gf256_provider 8 (by decide) [])
    [104, 101, 108, 108, 111] (by decide) (List.replicate 6 0) (by decide)

/-- C17: index safety of encode. For every `N ≥ 1` and every message length `K` (so for
`N ≤ 254`, `K + N ≤ 255`), every array access of `encode_data` and of `build_codeword` is in
bounds: the index is at least `0` and below `N + 1` for the register and for `genPoly`,
below `K` for `msg`, below `N` for `pBytes`, below `K + N` for `dst`. The stores into `dst`
are, in program order, the indices `0, 1, ..., K + N - 1`, each once. With a destination of
exactly `K + N` cells the result has `K + N` cells and does not depend on what the
destination held before. -/
theorem C17_index_safety (NPAR K : Nat) (hN : 1 ≤ NPAR) :
    (∀ a ∈ encode_data_accesses NPAR K, 0 ≤ a.index ∧ a.index < extent NPAR K a.buf)
    ∧ (∀ a ∈ build_codeword_accesses NPAR K, 0 ≤ a.index ∧ a.index < extent NPAR K a.buf)
    ∧ ((encode_data_accesses NPAR K).filter (fun a => a.buf = buffer.dst && a.store)).map
          (fun a => a.index)
        = (List.range (K + NPAR)).map (fun (i : Nat) => (i : Int))
    ∧ (∀ b, extent NPAR K b
        = if b = buffer.msg then (K : Int) else if b = buffer.pBytes then (NPAR : Int)
          else if b = buffer.dst then (K : Int) + NPAR else (NPAR : Int) + 1)
    ∧ ∀ (gmult : Nat → Nat → Nat) (driver : rscode_driver) (msg dst dst1 : List Nat),
        dst.length = K + NPAR → dst1.length = K + NPAR →
        (encode_data gmult NPAR driver msg K dst).2.length = K + NPAR
        ∧ (encode_data gmult NPAR driver msg K dst).2
          = (encode_data gmult NPAR driver msg K dst1).2 := by
  refine ⟨encode_data_accesses_bounds NPAR K hN, build_codeword_accesses_bounds NPAR K,
    encode_data_accesses_dst NPAR K, ?_, ?_⟩
  · intro b
    cases b <;> rfl
  · intro gmult driver msg dst dst1 hdst hdst1
    have hl : ∀ d : List Nat, d.length = K + NPAR →
        (encode_data gmult NPAR driver msg K d).2.length = K + NPAR := by
      intro d hd
      rw [encode_data_snd, build_codeword_length, hd]
    refine ⟨hl dst hdst, ext_getD ((hl dst hdst).trans (hl dst1 hdst1).symm) ?_⟩
    intro k
    have hp : (encode_data gmult NPAR driver msg K dst).1
        = (encode_data gmult NPAR driver msg K dst1).1 := rfl
    rw [encode_data_snd, encode_data_snd, build_codeword_getD, build_codeword_getD, hp, hdst,
      hdst1]
    by_cases h1 : K ≤ k ∧ k < K + NPAR ∧ k < K + NPAR
    · rw [if_pos h1, if_pos h1]
    · rw [if_neg h1, if_neg h1]
      by_cases h2 : k < K ∧ k < K + NPAR
      · rw [if_pos h2, if_pos h2]
      · rw [if_neg h2, if_neg h2]
        have h3 : K + NPAR ≤ k := by omega
        rw [getD_of_length_le _ _ (by omega), getD_of_length_le _ _ (by omega)]

/-- C17 at `N = 4` and a message of `5` bytes: the stores into `dst` are `0, ..., 8`. -/
theorem C17_index_safety_witness :
    1 ≤ 4
    ∧ ((encode_data_accesses 4 5).filter (fun a => a.buf = buffer.dst && a.store)).map
          (fun a => a.index)
        = (List.range (5 + 4)).map (fun (i : Nat) => (i : Int)) :=
  ⟨by decide, (C17_index_safety 4 5 (by decide)).2.2.1⟩

/-- C18. Field-element range: if every received byte is in `[0, 255]` and `gmult` returns
values in `[0, 255]`, then every register cell of `encode_data` after any number of
message bytes and every Horner accumulator of `decode_data` after any number of received
bytes is in `[0, 255]`, so the stores into the byte arrays `pBytes` and `synBytes` lose
nothing: the stored byte is the `int` value itself. (A register cell is `0`, a value of
`gmult` or the XOR of two such values, so the ranges of the message bytes and of the
`genPoly` coefficients are not needed once `gmult` returns bytes.) -/
theorem C18_field_element_range (gmult : Nat → Nat → Nat) (gexp : Nat → Nat)
    (hgm : ∀ a b, gmult a b < 256) (NPAR : Nat) (driver : rscode_driver)
    (msg : List Nat) (data : List Nat) (hdata : ∀ b ∈ data, b < 256) (dst : List Nat) :
    (∀ i ≤ msg.length, ∀ k, (encode_lfsr gmult NPAR driver.genPoly msg i).getD k 0 < 256)
    ∧ (∀ k < NPAR, k < driver.pBytes.length →
        (encode_data gmult NPAR driver msg msg.length dst).1.pBytes.getD k 0
          = (encode_lfsr gmult NPAR driver.genPoly msg msg.length).getD k 0)
    ∧ (∀ m ≤ data.length, ∀ j, decode_sum gmult gexp data m j < 256)
    ∧ (∀ j < NPAR, j < driver.synBytes.length →
        (decode_data gmult gexp NPAR driver data data.length).synBytes.getD j 0
          = decode_sum gmult gexp data data.length j) := by
  refine ⟨fun i _ k => encode_lfsr_lt gmult hgm NPAR _ msg i k, ?_,
    fun m _ j => decode_sum_lt gmult gexp hgm data hdata m j, ?_⟩
  · intro k hk hk2
    have h : k < NPAR ∧ k < driver.pBytes.length := ⟨hk, hk2⟩
    rw [encode_data_pBytes_getD, if_pos h,
      Nat.mod_eq_of_lt (encode_lfsr_lt gmult hgm NPAR _ msg _ k)]
  · intro j hj hj2
    have h : j < NPAR ∧ j < driver.synBytes.length := ⟨hj, hj2⟩
    rw [decode_data_synBytes_getD, if_pos h,
      Nat.mod_eq_of_lt (decode_sum_lt gmult gexp hgm data hdata _ j)]

/-- C18 at the message "hello" and a received word of 9 bytes, `N = 4`, over the concrete
GF(256). -/
theorem C18_field_element_range_witness :
    (∀ i ≤ 5, ∀ k, (encode_lfsr gmult256 4 [116, 231, 216, 30, 1, 0, 0, 0]
        [104, 101, 108, 108, 111] i).getD k 0 < 256)
    ∧ (∀ k < 4, k < 4 →
        (encode_data gmult256 4 ⟨[116, 231, 216, 30, 1, 0, 0, 0], [0, 0, 0, 0], [0, 0, 0, 0]⟩
          [104, 101, 108, 108, 111] 5 (List.replicate 9 0)).1.pBytes.getD k 0
          = (encode_lfsr gmult256 4 [116, 231, 216, 30, 1, 0, 0, 0]
              [104, 101, 108, 108, 111] 5).getD k 0)
    ∧ (∀ m ≤ 9, ∀ j, decode_sum gmult256 gexp256
        [104, 101, 108, 77, 111, 231, 47, 199, 117] m j < 256)
    ∧ (∀ j < 4, j < 4 →
        (decode_data gmult256 gexp256 4
          ⟨[116, 231, 216, 30, 1, 0, 0, 0], [0, 0, 0, 0], [0, 0, 0, 0]⟩
          [104, 101, 108, 77, 111, 231, 47, 199, 117] 9).synBytes.getD j 0
          = decode_sum gmult256 gexp256 [104, 101, 108, 77, 111, 231, 47, 199, 117] 9 j) :=
  C18_field_element_range gmult256 gexp256 gmult256_lt 4
    ⟨[116, 231, 216, 30, 1, 0, 0, 0], [0, 0, 0, 0], [0, 0, 0, 0]⟩
    [104, 101, 108, 108, 111] [104, 101, 108, 77, 111, 231, 47, 199, 117]
    (by decide) (List.replicate 9 0)

/-- C19. Syndrome linearity: for every `N` and two received words `a` and `b` of bytes of
the same length, the syndrome that `decode_data` computes for the bytewise XOR of `a` and
`b` is, entry by entry, the XOR of the syndromes of `a` and of `b`; hence, when the
syndrome of `a` is zero (a codeword), the syndrome of `a XOR b` is the syndrome of the
error pattern `b` alone. -/
theorem C19_syndrome_linearity {F : Type} [Field F] {φ : Nat → F} {α : F}
    {gmult : Nat → Nat → Nat} {gexp : Nat → Nat} (hP : FieldProvider F φ α gmult gexp)
    (NPAR : Nat) (driver : rscode_driver) (hs : NPAR ≤ driver.synBytes.length)
    (a b : List Nat) (hlen : a.length = b.length)
    (ha : ∀ c ∈ a, c < 256) (hb : ∀ c ∈ b, c < 256) :
    (∀ j < NPAR,
      (decode_data gmult gexp NPAR driver
          (List.zipWith (fun x y => x ^^^ y) a b) a.length).synBytes.getD j 0
        = (decode_data gmult gexp NPAR driver a a.length).synBytes.getD j 0
          ^^^ (decode_data gmult gexp NPAR driver b a.length).synBytes.getD j 0)
    ∧ ((∀ j < NPAR, (decode_data gmult gexp NPAR driver a a.length).synBytes.getD j 0 = 0) →
        ∀ j < NPAR,
          (decode_data gmult gexp NPAR driver
              (List.zipWith (fun x y => x ^^^ y) a b) a.length).synBytes.getD j 0
            = (decode_data gmult gexp NPAR driver b a.length).synBytes.getD j 0) := by
  have key : ∀ j < NPAR,
      (decode_data gmult gexp NPAR driver
          (List.zipWith (fun x y => x ^^^ y) a b) a.length).synBytes.getD j 0
        = (decode_data gmult gexp NPAR driver a a.length).synBytes.getD j 0
          ^^^ (decode_data gmult gexp NPAR driver b a.length).synBytes.getD j 0 := by
    intro j hj
    have h : j < NPAR ∧ j < driver.synBytes.length := ⟨hj, by omega⟩
    obtain ⟨a1, -⟩ := decode_sum_spec hP a ha j
    obtain ⟨b1, -⟩ := decode_sum_spec hP b hb j
    rw [← hlen] at b1
    rw [decode_data_synBytes_getD, decode_data_synBytes_getD, decode_data_synBytes_getD,
      if_pos h, if_pos h, if_pos h, decode_sum_xor hP a b hlen ha hb j,
      Nat.mod_eq_of_lt a1, Nat.mod_eq_of_lt b1, Nat.mod_eq_of_lt (xor_lt_256 a1 b1)]
  refine ⟨key, ?_⟩
  intro hzero j hj
  rw [key j hj, hzero j hj, Nat.zero_xor]

/-- C19 at the codeword of "hello" and an error pattern with two nonzero bytes, `N = 4`,
over the concrete GF(256). -/
theorem C19_syndrome_linearity_witness :
    (∀ j < 4,
      (decode_data gmult256 gexp256 4 ⟨[], [], [0, 0, 0, 0]⟩
          (List.zipWith (fun x y => x ^^^ y) [104, 101, 108, 108, 111, 231, 47, 199, 117]
            [0, 0, 33, 0, 0, 0, 0, 7, 0]) 9).synBytes.getD j 0
        = (decode_data gmult256 gexp256 4 ⟨[], [], [0, 0, 0, 0]⟩
            [104, 101, 108, 108, 111, 231, 47, 199, 117] 9).synBytes.getD j 0
          ^^^ (decode_data gmult256 gexp256 4 ⟨[], [], [0, 0, 0, 0]⟩
            [0, 0, 33, 0, 0, 0, 0, 7, 0] 9).synBytes.getD j 0)
    ∧ ((∀ j < 4, (decode_data gmult256 gexp256 4 ⟨[], [], [0, 0, 0, 0]⟩
          [104, 101, 108, 108, 111, 231, 47, 199, 117] 9).synBytes.getD j 0 = 0) →
        ∀ j < 4,
          (decode_data gmult256 gexp256 4 ⟨[], [], [0, 0, 0, 0]⟩
              (List.zipWith (fun x y => x ^^^ y) [104, 101, 108, 108, 111, 231, 47, 199, 117]
                [0, 0, 33, 0, 0, 0, 0, 7, 0]) 9).synBytes.getD j 0
            = (decode_data gmult256 gexp256 4 ⟨[], [], [0, 0, 0, 0]⟩
                [0, 0, 33, 0, 0, 0, 0, 7, 0] 9).synBytes.getD j 0) :=
  C19_syndrome_linearity gf256_provider 4 ⟨[], [], [0, 0, 0, 0]⟩ (by decide)
    [104, 101, 108, 108, 111, 231, 47, 199, 117] [0, 0, 33, 0, 0, 0, 0, 7, 0] (by decide)
    (by decide) (by decide)

/-- C20. Leading-zero invariance: for every `N` (so for `N ≥ 1`), a message `M` and
`z ≥ 0`, the parity bytes that `encode_data` computes for `M` prefixed with `z` zero bytes
are the parity bytes it computes for `M`; in particular the empty message and every
all-zero message get all-zero parity. The provider is only asked for `gmult(x, 0) = 0`. -/
theorem C20_leading_zero_invariance (gmult : Nat → Nat → Nat) (hz : ∀ a, gmult a 0 = 0)
    (NPAR : Nat) (driver : rscode_driver) (msg : List Nat) (z : Nat)
    (dst dst1 : List Nat) :
    (encode_data gmult NPAR driver (List.replicate z 0 ++ msg)
        (List.replicate z 0 ++ msg).length dst1).1.pBytes
      = (encode_data gmult NPAR driver msg msg.length dst).1.pBytes
    ∧ (∀ k < NPAR, (encode_data gmult NPAR driver [] 0 dst).1.pBytes.getD k 0 = 0)
    ∧ (∀ k < NPAR, (encode_data gmult NPAR driver (List.replicate z 0)
        (List.replicate z 0).length dst).1.pBytes.getD k 0 = 0) := by
  have hzero : ∀ k < NPAR,
      (encode_data gmult NPAR driver (List.replicate z 0)
        (List.replicate z 0).length dst).1.pBytes.getD k 0 = 0 := by
    intro k _
    have h := encode_lfsr_leading_zeros gmult hz NPAR driver.genPoly [] z
    rw [List.append_nil] at h
    rw [encode_data_pBytes_getD, h]
    have h0 : encode_lfsr gmult NPAR driver.genPoly [] ([] : List Nat).length
        = List.replicate (NPAR + 1) 0 := rfl
    rw [h0, getD_replicate_zero]
    split
    · rfl
    · exact getD_of_length_le _ _ (by omega)
  refine ⟨?_, ?_, hzero⟩
  · rw [encode_data_pBytes, encode_data_pBytes, encode_lfsr_leading_zeros gmult hz]
  · intro k hk
    have h0 : encode_lfsr gmult NPAR driver.genPoly [] 0 = List.replicate (NPAR + 1) 0 := rfl
    rw [encode_data_pBytes_getD, h0, getD_replicate_zero]
    split
    · rfl
    · exact getD_of_length_le _ _ (by omega)

/-- C20 at the message "hello" with three leading zero bytes, `N = 4`, over the concrete
GF(256). -/
theorem C20_leading_zero_invariance_witness :
    (encode_data gmult256 4 ⟨[116, 231, 216, 30, 1, 0, 0, 0], [9, 9, 9, 9], []⟩
        (List.replicate 3 0 ++ [104, 101, 108, 108, 111])
        (List.replicate 3 0 ++ [104, 101, 108, 108, 111]).length (List.replicate 12 0)).1.pBytes
      = (encode_data gmult256 4 ⟨[116, 231, 216, 30, 1, 0, 0, 0], [9, 9, 9, 9], []⟩
          [104, 101, 108, 108, 111] 5 (List.replicate 9 0)).1.pBytes
    ∧ (∀ k < 4, (encode_data gmult256 4 ⟨[116, 231, 216, 30, 1, 0, 0, 0], [9, 9, 9, 9], []⟩
        [] 0 (List.replicate 9 0)).1.pBytes.getD k 0 = 0)
    ∧ (∀ k < 4, (encode_data gmult256 4 ⟨[116, 231, 216, 30, 1, 0, 0, 0], [9, 9, 9, 9], []⟩
        (List.replicate 3 0) (List.replicate 3 0).length
        (List.replicate 9 0)).1.pBytes.getD k 0 = 0) :=
  C20_leading_zero_invariance gmult256 gmult256_zero_right 4
    ⟨[116, 231, 216, 30, 1, 0, 0, 0], [9, 9, 9, 9], []⟩ [104, 101, 108, 108, 111] 3
    (List.replicate 9 0) (List.replicate 12 0)

end RSCode
